import Mathlib

/-!
# Evocosm: a verification development

A shallow embedding of the core of the Evocosm evolutionary-algorithm
framework (namespace `libevocosm`) together with theorems about it.

Conventions of the embedding

* `size_t` values are natural numbers reduced modulo `2 ^ 64`.
* `double` / `float` quantities that are used arithmetically (fitness values,
  weights, random draws) are rational numbers: exact arithmetic, no rounding.
* The bit patterns that `evoreal` manipulates are natural numbers, one per
  32-bit word (`evoreal` copies a `float` into one `long` and a `double` into
  two `long`s and assumes `long` is a 32-bit word).
* Strategy objects are caller-supplied and stateful.  Their state, the shared
  random generator and everything a listener prints live in a world `W` that
  is threaded through every call.
-/

namespace libevocosm

/-! ## Definitions -/

/-- The modulus of `size_t` arithmetic. -/
def SIZE_MOD : Nat := 2 ^ 64

/-- `organism<Genotype>` (organism.h): a fitness value and the genes. -/
structure organism (Genotype : Type) where
  fitness : ℚ
  genes : Genotype
deriving DecidableEq

/-- The default `analyzer::analyze` (analyzer.h): with a non-zero
`m_max_iterations` evolution continues while the iteration number is below it,
otherwise it always continues. The population argument is not inspected. -/
def analyzer.analyze {O : Type} (m_max_iterations : Nat) (_a_population : List O)
    (a_iteration : Nat) : Bool :=
  if m_max_iterations > 0 then decide (a_iteration < m_max_iterations) else true

/-- The strategy objects an `evocosm` refers to (evocosm.h, members
`m_landscape`, `m_mutator`, `m_reproducer`, `m_scaler`, `m_selector`,
`m_analyzer`, `m_listener`), each virtual member function as a function of the
world and its arguments.  A member function that takes the population by
non-const reference returns the population as it leaves it. -/
structure strategies (W O : Type) where
  /-- `listener::ping_generation_begin(const vector &, size_t)` -/
  ping_generation_begin : W → List O → Nat → W
  /-- `landscape::test(vector &)`; the returned `double` is discarded by the engine -/
  test : W → List O → W × List O
  /-- `listener::ping_generation_end(const vector &, size_t)` -/
  ping_generation_end : W → List O → Nat → W
  /-- `analyzer::analyze(const vector &, size_t)` -/
  analyze : W → List O → Nat → W × Bool
  /-- `scaler::scale_fitness(vector &)` -/
  scale_fitness : W → List O → W × List O
  /-- `selector::select_survivors(vector &)`: the world, the population as it
  is left, and the returned survivors -/
  select_survivors : W → List O → W × List O × List O
  /-- `reproducer::breed(const vector &, size_t)` -/
  breed : W → List O → Nat → W × List O
  /-- `mutator::mutate(vector &)` -/
  mutate : W → List O → W × List O
  /-- `listener::run_complete(const vector &)` -/
  run_complete : W → List O → W

/-- The mutable part of an `evocosm` object: the population it refers to, the
iteration counter and the world of the strategy objects. -/
structure evocosm (W O : Type) where
  world : W
  m_population : List O
  m_iteration : Nat

/-- A freshly constructed engine: `m_iteration(0)`. -/
def evocosm.create {W O : Type} (w : W) (a_population : List O) : evocosm W O :=
  { world := w, m_population := a_population, m_iteration := 0 }

/-- `evocosm::run_generation` (evocosm.h).  `yield()` only sleeps and is left
out.  Returns `keep_going` and the engine after the call. -/
def evocosm.run_generation {W O : Type} (E : strategies W O) (s : evocosm W O) :
    Bool × evocosm W O :=
  -- ++m_iteration
  let iteration := (s.m_iteration + 1) % SIZE_MOD
  -- m_listener.ping_generation_begin(m_population, m_iteration)
  let w1 := E.ping_generation_begin s.world s.m_population iteration
  -- m_landscape.test(m_population)
  let tested := E.test w1 s.m_population
  -- m_listener.ping_generation_end(m_population, m_iteration)
  let w3 := E.ping_generation_end tested.1 tested.2 iteration
  -- keep_going = m_analyzer.analyze(m_population, m_iteration)
  let analysis := E.analyze w3 tested.2 iteration
  if analysis.2 then
    -- m_scaler.scale_fitness(m_population)
    let scaled := E.scale_fitness analysis.1 tested.2
    -- survivors = m_selector.select_survivors(m_population)
    let selected := E.select_survivors scaled.1 scaled.2
    let population := selected.2.1
    let survivors := selected.2.2
    -- children = m_reproducer.breed(m_population, m_population.size() - survivors.size())
    let bred := E.breed selected.1 population
      ((population.length + SIZE_MOD - survivors.length) % SIZE_MOD)
    -- m_mutator.mutate(children)
    let mutated := E.mutate bred.1 bred.2
    -- survivors.insert(survivors.end(), children.begin(), children.end());
    -- m_population = survivors
    (true, { world := mutated.1, m_population := survivors ++ mutated.2,
             m_iteration := iteration })
  else
    -- m_listener.run_complete(m_population)
    (false, { world := E.run_complete analysis.1 tested.2, m_population := tested.2,
              m_iteration := iteration })

/-- The engine after `k` successive calls of `run_generation`. -/
def evocosm.after_calls {W O : Type} (E : strategies W O) (s : evocosm W O) :
    Nat → evocosm W O
  | 0 => s
  | k + 1 => (evocosm.run_generation E (evocosm.after_calls E s k)).2

/-- The value returned by call number `k` (counted from 1) of `run_generation`
in a run of successive calls. -/
def evocosm.nth_call {W O : Type} (E : strategies W O) (s : evocosm W O) (k : Nat) : Bool :=
  (evocosm.run_generation E (evocosm.after_calls E s (k - 1))).1

/-- The strategies `E` with the analyzer replaced by the default `analyzer`
constructed with `max_iterations`. -/
def with_default_analyzer {W O : Type} (E : strategies W O) (max_iterations : Nat) :
    strategies W O :=
  { E with analyze := fun w p i => (w, analyzer.analyze max_iterations p i) }

/-! ### A small concrete engine used in examples

Organisms with no genes worth speaking of (`Unit`), a landscape that leaves the
fitness alone, the null scaler, the null selector, a reproducer that returns the
requested number of copies of a default organism and a mutator that changes
nothing. -/

/-- `null_selector::select_survivors` (selector.h): an empty vector. -/
def null_selector.select_survivors {W O : Type} (w : W) (a_population : List O) :
    W × List O × List O :=
  (w, a_population, [])

/-- `null_scaler::scale_fitness` (scaler.h): no effect. -/
def null_scaler.scale_fitness {W O : Type} (w : W) (a_population : List O) : W × List O :=
  (w, a_population)

/-- Strategies that conserve the population size, over a trivial world. -/
def plain_strategies : strategies Unit (organism Unit) where
  ping_generation_begin := fun w _ _ => w
  test := fun w p => (w, p)
  ping_generation_end := fun w _ _ => w
  analyze := fun w p i => (w, analyzer.analyze 0 p i)
  scale_fitness := null_scaler.scale_fitness
  select_survivors := null_selector.select_survivors
  breed := fun w _ n => (w, List.replicate n { fitness := 0, genes := () })
  mutate := fun w c => (w, c)
  run_complete := fun w _ => w

/-! ### The phases of one call, named

The intermediate values of `run_generation`, each as a function of the
strategies and the engine before the call. -/

/-- The world and population after `m_landscape.test(m_population)`. -/
def evocosm.tested {W O : Type} (E : strategies W O) (s : evocosm W O) : W × List O :=
  E.test (E.ping_generation_begin s.world s.m_population ((s.m_iteration + 1) % SIZE_MOD))
    s.m_population

/-- The world and verdict after `m_analyzer.analyze(m_population, m_iteration)`. -/
def evocosm.analysed {W O : Type} (E : strategies W O) (s : evocosm W O) : W × Bool :=
  E.analyze
    (E.ping_generation_end (evocosm.tested E s).1 (evocosm.tested E s).2
      ((s.m_iteration + 1) % SIZE_MOD))
    (evocosm.tested E s).2 ((s.m_iteration + 1) % SIZE_MOD)

/-- The world and population after `m_scaler.scale_fitness(m_population)`. -/
def evocosm.scaled {W O : Type} (E : strategies W O) (s : evocosm W O) : W × List O :=
  E.scale_fitness (evocosm.analysed E s).1 (evocosm.tested E s).2

/-- The world, population and survivors after
`m_selector.select_survivors(m_population)`. -/
def evocosm.selected {W O : Type} (E : strategies W O) (s : evocosm W O) :
    W × List O × List O :=
  E.select_survivors (evocosm.scaled E s).1 (evocosm.scaled E s).2

/-- The number of children requested from the reproducer:
`m_population.size() - survivors.size()` in `size_t`. -/
def evocosm.requested {W O : Type} (E : strategies W O) (s : evocosm W O) : Nat :=
  ((evocosm.selected E s).2.1.length + SIZE_MOD - (evocosm.selected E s).2.2.length) % SIZE_MOD

/-- The world and children returned by `m_reproducer.breed`. -/
def evocosm.bred {W O : Type} (E : strategies W O) (s : evocosm W O) : W × List O :=
  E.breed (evocosm.selected E s).1 (evocosm.selected E s).2.1 (evocosm.requested E s)

/-- Strategies over a world that also keeps a log of the calls of
`reproducer::breed`: every strategy acts on the first component as in `E`, and
`breed` appends the population and the count it was handed to the log. -/
def recording_breed {W O : Type} (E : strategies W O) :
    strategies (W × List (List O × Nat)) O where
  ping_generation_begin := fun w p i => (E.ping_generation_begin w.1 p i, w.2)
  test := fun w p => (((E.test w.1 p).1, w.2), (E.test w.1 p).2)
  ping_generation_end := fun w p i => (E.ping_generation_end w.1 p i, w.2)
  analyze := fun w p i => (((E.analyze w.1 p i).1, w.2), (E.analyze w.1 p i).2)
  scale_fitness := fun w p => (((E.scale_fitness w.1 p).1, w.2), (E.scale_fitness w.1 p).2)
  select_survivors := fun w p =>
    (((E.select_survivors w.1 p).1, w.2), (E.select_survivors w.1 p).2)
  breed := fun w p n => (((E.breed w.1 p n).1, w.2 ++ [(p, n)]), (E.breed w.1 p n).2)
  mutate := fun w c => (((E.mutate w.1 c).1, w.2), (E.mutate w.1 c).2)
  run_complete := fun w p => (E.run_complete w.1 p, w.2)

/-- The engine `s` over the extended world, with an empty log. -/
def evocosm.with_log {W O : Type} (s : evocosm W O) : evocosm (W × List (List O × Nat)) O :=
  { world := (s.world, []), m_population := s.m_population, m_iteration := s.m_iteration }

/-- Strategies in the manner of the function optimizer, with the analyzer
bounded by `max_iterations`: a landscape that leaves the tested fitness as it
is, a scaler that multiplies every fitness by ten, a selector that keeps the
first organism, a reproducer that returns the requested number of copies of a
default organism, and a mutator that sets the fitness of every child to 7. -/
def scaling_strategies (max_iterations : Nat) : strategies Unit (organism Unit) where
  ping_generation_begin := fun w _ _ => w
  test := fun w p => (w, p)
  ping_generation_end := fun w _ _ => w
  analyze := fun w p i => (w, analyzer.analyze max_iterations p i)
  scale_fitness := fun w p => (w, p.map fun o => { o with fitness := 10 * o.fitness })
  select_survivors := fun w p => (w, p, p.take 1)
  breed := fun w _ n => (w, List.replicate n { fitness := 0, genes := () })
  mutate := fun w c => (w, c.map fun o => { o with fitness := 7 })
  run_complete := fun w _ => w

/-- A population with the fitness values 1, 5 and 3. -/
def sample_population : List (organism Unit) :=
  [{ fitness := 1, genes := () }, { fitness := 5, genes := () }, { fitness := 3, genes := () }]

/-! ### evoreal: mutation and crossover of floating-point bit patterns

A `float` is its 32-bit pattern, a `double` the pair `(x[0], x[1])` of its
low-order and high-order 32-bit words, as `memcpy` lays them out in
`long x[2]`.  The shared generator `g_random` is the list of the values its
coming calls of `get_real()` return; an operation returns its result with the
draws it has not consumed, and `none` when the list runs out before it can
return. -/

/-- The modulus of arithmetic on a 32-bit word. -/
def WORD_MOD : Nat := 2 ^ 32

/-- `evoreal::FLT_EXP_BITS` (evoreal.h). -/
def evoreal.FLT_EXP_BITS : Nat := 0x7F800000

/-- `evoreal::DBL_EXP_BITS` (evoreal.h), the exponent bits in the high-order word. -/
def evoreal.DBL_EXP_BITS : Nat := 0x7FF00000

/-- The data members of `evoreal` (evoreal.h). -/
structure evoreal where
  m_total_weight : ℚ
  m_sign_weight : ℚ
  m_exp_weight : ℚ
deriving DecidableEq

/-- The creation constructor `evoreal::evoreal` (evoreal.cpp). -/
def evoreal.create (a_sign_weight a_exponent_weight a_mantissa_weight : ℚ) : evoreal :=
  { m_total_weight := a_sign_weight + a_exponent_weight + a_mantissa_weight
    m_sign_weight := a_sign_weight
    m_exp_weight := a_exponent_weight }

/-- The recurring statement `if (x & mask) x &= ~mask; else x |= mask;` on a
32-bit word. -/
def evoreal.flip (x mask : Nat) : Nat :=
  if x &&& mask ≠ 0 then x &&& (0xFFFFFFFF ^^^ mask) else x ||| mask

/-- The `do ... while` loop of the exponent branch of `mutate(float)`: one
draw per round, repeated while the candidate has an all-ones exponent. -/
def evoreal.mutate_float_exponent (x : Nat) : List ℚ → Option (Nat × List ℚ)
  | [] => none
  | u :: rest =>
    let n := evoreal.flip x ((0x00800000 <<< ⌊u * 8⌋₊) % WORD_MOD)
    if n &&& evoreal.FLT_EXP_BITS = evoreal.FLT_EXP_BITS then
      evoreal.mutate_float_exponent x rest
    else some (n, rest)

/-- `float evoreal::mutate(float a_f)` (evoreal.cpp). -/
def evoreal.mutate_float (r : evoreal) (draws : List ℚ) (a_f : Nat) : Option (Nat × List ℚ) :=
  match draws with
  | [] => none
  | u :: rest =>
    -- choose section to mutate
    let mpick := u * r.m_total_weight
    let x := a_f
    -- if all exponent bits on (invalid #), return original
    if x &&& evoreal.FLT_EXP_BITS = evoreal.FLT_EXP_BITS then some (a_f, rest)
    else if mpick < r.m_sign_weight then
      -- flip sign
      some (evoreal.flip x 0x80000000, rest)
    else
      let mpick := mpick - r.m_sign_weight
      if mpick < r.m_exp_weight then
        -- mutate exponent while number is valid
        evoreal.mutate_float_exponent x rest
      else
        -- flip bit in mantissa
        match rest with
        | [] => none
        | u2 :: rest2 => some (evoreal.flip x ((1 <<< ⌊u2 * 23⌋₊) % WORD_MOD), rest2)

/-- The `do ... while` loop of the exponent branch of `mutate(double)`, on the
high-order word. -/
def evoreal.mutate_double_exponent (x1 : Nat) : List ℚ → Option (Nat × List ℚ)
  | [] => none
  | u :: rest =>
    let n := evoreal.flip x1 ((0x00100000 <<< ⌊u * 11⌋₊) % WORD_MOD)
    if n &&& evoreal.DBL_EXP_BITS = evoreal.DBL_EXP_BITS then
      evoreal.mutate_double_exponent x1 rest
    else some (n, rest)

/-- `double evoreal::mutate(double a_d)` (evoreal.cpp). -/
def evoreal.mutate_double (r : evoreal) (draws : List ℚ) (a_d : Nat × Nat) :
    Option ((Nat × Nat) × List ℚ) :=
  match draws with
  | [] => none
  | u :: rest =>
    -- choose section to mutate
    let mpick := u * r.m_total_weight
    let x0 := a_d.1
    let x1 := a_d.2
    if mpick < r.m_sign_weight then
      -- flip sign
      some ((x0, evoreal.flip x1 0x80000000), rest)
    else
      let mpick := mpick - r.m_sign_weight
      if mpick < r.m_exp_weight then
        -- mutate exponent while number is valid
        match evoreal.mutate_double_exponent x1 rest with
        | none => none
        | some (n, rest2) => some ((x0, n), rest2)
      else
        match rest with
        | [] => none
        | u2 :: rest2 =>
          let bit := ⌊u2 * 52⌋₊
          if bit > 31 then
            some ((x0, evoreal.flip x1 ((1 <<< (bit - 32)) % WORD_MOD)), rest2)
          else
            -- flip bit in mantissa
            some ((evoreal.flip x0 ((1 <<< bit) % WORD_MOD), x1), rest2)

/-- `float evoreal::crossover(float a_f1, float a_f2)` (evoreal.cpp): one draw
per round of the `do ... while` loop. -/
def evoreal.crossover_float (l1 l2 : Nat) : List ℚ → Option (Nat × List ℚ)
  | [] => none
  | u :: rest =>
    -- create mask
    let mask := (0xFFFFFFFF <<< ⌊u * 32⌋₊) % WORD_MOD
    -- generate offspring
    let lcross := (l1 &&& mask) ||| (l2 &&& (0xFFFFFFFF ^^^ mask))
    if lcross &&& evoreal.FLT_EXP_BITS = evoreal.FLT_EXP_BITS then
      evoreal.crossover_float l1 l2 rest
    else some (lcross, rest)

/-- The body of the `do ... while` loop of `crossover(double, double)`: the
offspring `lcross` for the bit position `bit`. -/
def evoreal.crossover_double_round (l1 l2 : Nat × Nat) (bit : Nat) : Nat × Nat :=
  if bit > 31 then
    -- crossover in high-order word, low-order word of first parent
    let mask := (0xFFFFFFFF <<< (bit - 32)) % WORD_MOD
    (l1.1, (l1.2 &&& mask) ||| (l2.2 &&& (0xFFFFFFFF ^^^ mask)))
  else
    -- crossover in low-order word, high-order word of first parent
    let mask := (0xFFFFFFFF <<< bit) % WORD_MOD
    ((l1.1 &&& mask) ||| (l2.1 &&& (0xFFFFFFFF ^^^ mask)), l1.2)

/-- `double evoreal::crossover(double a_d1, double a_d2)` (evoreal.cpp): one
draw per round of the `do ... while` loop. -/
def evoreal.crossover_double (l1 l2 : Nat × Nat) : List ℚ → Option ((Nat × Nat) × List ℚ)
  | [] => none
  | u :: rest =>
    -- calculate bit position for flip
    let lcross := evoreal.crossover_double_round l1 l2 ⌊u * 64⌋₊
    if lcross.2 &&& evoreal.DBL_EXP_BITS = evoreal.DBL_EXP_BITS then
      evoreal.crossover_double l1 l2 rest
    else some (lcross, rest)

/-! ### fitness_stats: population statistics -/

/-- `std::numeric_limits<double>::min()`: the least positive normalized
`double`, `2 ^ (-1022)`. -/
def DBL_MIN : ℚ := 1 / 2 ^ 1022

/-- `std::numeric_limits<double>::max()`: the greatest finite `double`,
`(2 ^ 53 - 1) * 2 ^ 971`. -/
def DBL_MAX : ℚ := (2 ^ 53 - 1) * 2 ^ 971

/-- The data members of `fitness_stats` (stats.h) that are rational functions
of the fitness values; `best` and `worst` hold copies of organisms.  The member
`sigma`, the square root of `variance`, is not a field of this record. -/
structure fitness_stats (G : Type) where
  min : ℚ
  max : ℚ
  mean : ℚ
  variance : ℚ
  best : organism G
  worst : organism G
deriving DecidableEq

/-- The variables the first loop of the constructor updates. -/
structure fitness_stats.scan (G : Type) where
  max : ℚ
  min : ℚ
  mean : ℚ
  best : organism G
  worst : organism G

/-- One round of the first loop of the constructor, for `a_population[n]`. -/
def fitness_stats.step {G : Type} (acc : fitness_stats.scan G) (o : organism G) :
    fitness_stats.scan G :=
  -- do we have a new maximum?
  let acc1 := if o.fitness > acc.max then { acc with max := o.fitness, best := o } else acc
  -- do we have a new minimum?
  let acc2 := if o.fitness < acc1.min then { acc1 with min := o.fitness, worst := o } else acc1
  -- accumulate for average
  { acc2 with mean := acc2.mean + o.fitness }

/-- The constructor `fitness_stats::fitness_stats(const vector &)` (stats.h).
It reads `a_population[0]` first, so an empty population has no result (`none`).
For a single organism the code divides `0.0` by `0.0` for the variance; the
rational division yields `0` there. -/
def fitness_stats.create {G : Type} (a_population : List (organism G)) :
    Option (fitness_stats G) :=
  match a_population with
  | [] => none
  | first :: _ =>
    -- best(new OrganismType(a_population[0])), worst(new OrganismType(a_population[0]))
    -- max = numeric_limits<double>::min(); min = numeric_limits<double>::max()
    let init : fitness_stats.scan G :=
      { max := DBL_MIN, min := DBL_MAX, mean := 0, best := first, worst := first }
    let scan := a_population.foldl fitness_stats.step init
    -- mean /= double(a_population.size())
    let mean := scan.mean / (a_population.length : ℚ)
    -- variance += diff * diff, for every organism
    let variance := a_population.foldl
      (fun v o => v + (o.fitness - mean) * (o.fitness - mean)) 0
    -- variance /= static_cast<double>(a_population.size() - 1)
    some { min := scan.min, max := scan.max, mean := mean,
           variance := variance / ((a_population.length - 1 : ℕ) : ℚ),
           best := scan.best, worst := scan.worst }

/-- Organisms whose genes are their index, with the fitness values 1, 5, 3. -/
def numbered_population : List (organism Nat) :=
  [{ fitness := 1, genes := 0 }, { fitness := 5, genes := 1 }, { fitness := 3, genes := 2 }]

/-- Organisms whose genes are their index, with the fitness values -2, -1. -/
def negative_population : List (organism Nat) :=
  [{ fitness := -2, genes := 0 }, { fitness := -1, genes := 1 }]

/-! ### roulette_wheel: weighted random selection

Errors raised by a validation are values of `Except String`; an operation that
changes the wheel returns the wheel as the call leaves it next to its result,
so that a failed call shows the state it leaves behind. -/

deriving instance DecidableEq for Except

/-- Modelled from the spec: `validate_less` of validator.h, which is not among
the sources; a validation error (here the message) unless `a < b`. -/
def validate_less {α : Type} [LT α] [DecidableRel (fun (x y : α) => x < y)] (a b : α)
    (message : String) : Except String Unit :=
  if a < b then Except.ok () else Except.error message

/-- Modelled from the spec: `validate_greater` of validator.h, which is not
among the sources; a validation error unless `a > b`. -/
def validate_greater {α : Type} [LT α] [DecidableRel (fun (x y : α) => x < y)] (a b : α)
    (message : String) : Except String Unit :=
  if a > b then Except.ok () else Except.error message

/-- Modelled from the spec: `validate_not` of validator.h, which is not among
the sources; a validation error when `a` equals the excluded value `b`. -/
def validate_not {α : Type} [DecidableEq α] (a b : α) (message : String) : Except String Unit :=
  if a = b then Except.error message else Except.ok ()

/-- `std::numeric_limits<double>::epsilon()`, `2 ^ (-52)`. -/
def DBL_EPSILON : ℚ := 1 / 2 ^ 52

/-- The data members of `roulette_wheel` (roulette.h).  The array `m_weights`
with its `m_size` elements is a list; `m_size` is its length. -/
structure roulette_wheel where
  m_weights : List ℚ
  m_total_weight : ℚ
  m_min_weight : ℚ
  m_max_weight : ℚ
deriving DecidableEq

/-- `roulette_wheel::get_size` (roulette.h). -/
def roulette_wheel.get_size (w : roulette_wheel) : Nat := w.m_weights.length

/-- The statements that store a weight, in the constructors and in
`set_weight`: the absolute value, raised to `m_min_weight` when below it, else
lowered to `m_max_weight` when above it. -/
def roulette_wheel.clamp (m_min_weight m_max_weight a_weight : ℚ) : ℚ :=
  let a := |a_weight|
  if a < m_min_weight then m_min_weight
  else if a > m_max_weight then m_max_weight
  else a

/-- The creation constructor `roulette_wheel::roulette_wheel(const
vector<double> &, double, double)` (roulette.cpp). -/
def roulette_wheel.create (a_weights : List ℚ) (a_min_weight a_max_weight : ℚ) :
    Except String roulette_wheel := do
  -- m_min_weight(fabs(a_min_weight)), m_max_weight(fabs(a_max_weight))
  let m_min_weight := |a_min_weight|
  let m_max_weight := |a_max_weight|
  validate_less a_min_weight a_max_weight "Minimum weight must be less than maximum"
  validate_not a_weights.length 0 "Roulette wheel can not have zero size"
  -- the loop: store each clamped weight and add it to the total
  let m_weights := a_weights.map (roulette_wheel.clamp m_min_weight m_max_weight)
  let m_total_weight := m_weights.foldl (fun total weight => total + weight) 0
  validate_greater m_total_weight 0 "Roulette wheel must have a total weight > zero"
  pure { m_weights := m_weights, m_total_weight := m_total_weight,
         m_min_weight := m_min_weight, m_max_weight := m_max_weight }

/-- `roulette_wheel::set_weight` (roulette.cpp): the returned value or the
validation error, and the wheel after the call. -/
def roulette_wheel.set_weight (w : roulette_wheel) (a_index : Nat) (a_weight : ℚ) :
    Except String ℚ × roulette_wheel :=
  match validate_less a_index w.get_size "invalid roulette wheel index" with
  | Except.error e => (Except.error e, w)
  | Except.ok _ =>
    let a_weight := roulette_wheel.clamp w.m_min_weight w.m_max_weight a_weight
    -- m_total_weight -= m_weights[a_index]; m_total_weight += a_weight
    let total := w.m_total_weight - w.m_weights.getD a_index 0 + a_weight
    -- res = m_weights[a_index]; m_weights[a_index] = a_weight
    let res := w.m_weights.getD a_index 0
    (Except.ok res, { w with m_weights := w.m_weights.set a_index a_weight,
                             m_total_weight := total })

/-- `roulette_wheel::get_weight` (roulette.cpp). -/
def roulette_wheel.get_weight (w : roulette_wheel) (a_index : Nat) : Except String ℚ :=
  match validate_less a_index w.get_size "invalid roulette wheel index" with
  | Except.error e => Except.error e
  | Except.ok _ => Except.ok (w.m_weights.getD a_index 0)

/-- The `while` loop of `get_index` over the weights from index `i` on: while
there is a weight left (`i < m_size`) and `choice` exceeds it, subtract it and
step to the next index. -/
def roulette_wheel.scan : List ℚ → ℚ → Nat → Nat
  | [], _, i => i
  | weight :: rest, choice, i =>
    if choice > weight then roulette_wheel.scan rest (choice - weight) (i + 1) else i

/-- `roulette_wheel::get_index` (roulette.cpp) for the value `u` that
`g_random.get_real()` returns. -/
def roulette_wheel.get_index (w : roulette_wheel) (u : ℚ) : Nat :=
  -- choice = g_random.get_real() * m_total_weight
  roulette_wheel.scan w.m_weights (u * w.m_total_weight) 0

/-- What the constructors establish and `set_weight` keeps, in exact
arithmetic: there is a weight, no weight is negative, and the total is the sum
of the weights. -/
def roulette_wheel.consistent (w : roulette_wheel) : Prop :=
  w.m_weights ≠ [] ∧ (∀ x ∈ w.m_weights, 0 ≤ x) ∧ w.m_total_weight = w.m_weights.sum

/-- The sum of the weights at the indices `0 .. i`. -/
def roulette_wheel.running_sum (w : roulette_wheel) (i : Nat) : ℚ :=
  (w.m_weights.take (i + 1)).sum

/-- `fitness_stats::sigma` (stats.h), `sigma = sqrt(variance)`, for the square
root function `sqrt` of the C library. -/
def fitness_stats.sigma {G : Type} (sqrt : ℚ → ℝ) (st : fitness_stats G) : ℝ :=
  sqrt st.variance

/-- The wheel after a sequence of `set_weight` calls, each given by its index
and value, whether or not a call fails. -/
def roulette_wheel.set_weights (w : roulette_wheel) : List (Nat × ℚ) → roulette_wheel
  | [] => w
  | call :: rest => roulette_wheel.set_weights (w.set_weight call.1 call.2).2 rest

/-- The wheel that the creation constructor builds from the weights 1, 3 with
the default bounds. -/
def sample_wheel : roulette_wheel :=
  { m_weights := [1, 3], m_total_weight := 4, m_min_weight := DBL_EPSILON,
    m_max_weight := DBL_MAX }

/-! ### prng: the shared random number generator (evocommon.h) -/

/-- The modulus of `unsigned long long` arithmetic. -/
def ULL_MOD : Nat := 2 ^ 64

/-- The data members of `prng`, each an `unsigned long long`. -/
structure prng where
  x : Nat
  c : Nat
  y : Nat
  z : Nat
  t : Nat
  s : Nat
deriving DecidableEq

/-- The default member initializers of `prng`. -/
def prng.initial : prng :=
  { x := 1234567890987654321, c := 123456123456123456, y := 362436362436362436,
    z := 1066149217761810, t := 29979245822353888, s := 29979245822353888 }

/-- `prng::set_seed`: `s = seed; t = s;`. -/
def prng.set_seed (g : prng) (seed : Nat) : prng :=
  { g with s := seed % ULL_MOD, t := seed % ULL_MOD }

/-- The constructor `prng::prng(seed)`: the member initializers, then
`set_seed(seed)`. -/
def prng.create (seed : Nat) : prng := prng.initial.set_seed seed

/-- `prng::get_seed`. -/
def prng.get_seed (g : prng) : Nat := g.s

/-- `prng::next`: the returned value and the generator after the call.  The
three summands work on `(x, c, t)`, on `y` and on `z`. -/
def prng.next (g : prng) : Nat × prng :=
  -- t = (x << 58) + c, c = (x >> 6), x += t, c += (x < t), x
  let t1 := ((g.x <<< 58) % ULL_MOD + g.c) % ULL_MOD
  let c1 := g.x >>> 6
  let x1 := (g.x + t1) % ULL_MOD
  let c2 := (c1 + (if x1 < t1 then 1 else 0)) % ULL_MOD
  -- y ^= (y << 13), y ^= (y >> 17), y ^= (y << 43)
  let y1 := g.y ^^^ ((g.y <<< 13) % ULL_MOD)
  let y2 := y1 ^^^ (y1 >>> 17)
  let y3 := y2 ^^^ ((y2 <<< 43) % ULL_MOD)
  -- z = 6906969069LL * z + 1234567
  let z1 := (6906969069 * g.z + 1234567) % ULL_MOD
  -- t = (the sum of the three); return t
  let t2 := (x1 + y3 + z1) % ULL_MOD
  (t2, { x := x1, c := c2, y := y3, z := z1, t := t2, s := g.s })

/-- `prng::get_index`: `next() % n`. -/
def prng.get_index (g : prng) (n : Nat) : Nat × prng :=
  ((prng.next g).1 % n, (prng.next g).2)

/-- `prng::get_real`: `(double)next() / 18446744073709551615.0`, in exact
arithmetic. -/
def prng.get_real (g : prng) : ℚ × prng :=
  (((prng.next g).1 : ℚ) / 18446744073709551615, (prng.next g).2)

/-- The first `n` values that successive calls of `next()` return. -/
def prng.sequence (g : prng) : Nat → List Nat
  | 0 => []
  | n + 1 => (prng.next g).1 :: prng.sequence (prng.next g).2 n

/-- A generator in the state of a fresh one except for `z`, chosen so that the
coming `next()` returns `2 ^ 64 - 1`. -/
def prng.before_top_value : prng :=
  { prng.initial with z := 16320435014231169833 }

/-! ### landscape: the default population-level test (landscape.h) -/

/-- The loop of `landscape::test(vector &)`: for each member in order, call
the single-organism `test` (which takes the organism by reference), store the
value it returns in the member's `fitness`, and add that fitness to `result`.
Returns the world, the population and `result`. -/
def landscape.test_loop {W G : Type} (test : W → organism G → W × organism G × ℚ) (w : W) :
    List (organism G) → ℚ → W × List (organism G) × ℚ
  | [], result => (w, [], result)
  | o :: rest, result =>
    let tested := test w o
    let member : organism G := { tested.2.1 with fitness := tested.2.2 }
    let looped := landscape.test_loop test tested.1 rest (result + member.fitness)
    (looped.1, member :: looped.2.1, looped.2.2)

/-- `landscape::test(vector &)` (landscape.h), the default implementation: the
world, the population as it is left, and the returned `double`. -/
def landscape.test {W G : Type} (test : W → organism G → W × organism G × ℚ) (w : W)
    (a_population : List (organism G)) : W × List (organism G) × ℚ :=
  -- double result = 0.0; the loop; return 0.0
  let looped := landscape.test_loop test w a_population 0
  (looped.1, looped.2.1, 0)

/-! ### Selectors and scalers (selector.h, scaler.h)

A strategy that constructs `fitness_stats` reads `a_population[0]`; on an empty
population it has no result (`none`). -/

/-- `elitism_selector::select_survivors` (selector.h) for the factor
`m_factor`. -/
def elitism_selector.select_survivors {G : Type} (m_factor : ℚ)
    (a_population : List (organism G)) : Option (List (organism G)) :=
  match fitness_stats.create a_population with
  | none => none
  | some stats =>
    -- calculate survival based on percentage of best fitness
    let threshold := m_factor * stats.best.fitness
    -- pick survivors
    some (a_population.filter (fun o => decide (o.fitness > threshold)))

/-- `sigma_scaler::scale_fitness` (scaler.h), for the square root function
`sqrt` of the C library; the constant `0.1` is the rational `1 / 10`. -/
def sigma_scaler.scale_fitness {G : Type} (sqrt : ℚ → ℚ) (a_population : List (organism G)) :
    Option (List (organism G)) :=
  match fitness_stats.create a_population with
  | none => none
  | some stats =>
    -- calculate 2 times the std. deviation (sigma)
    let sigma2 := 2 * sqrt stats.variance
    if sigma2 = 0 then
      some (a_population.map (fun o => { o with fitness := 1 }))
    else
      some (a_population.map (fun o =>
        -- change fitness; avoid tiny or zero fitness value
        let fitness := (1 + o.fitness / stats.mean) / sigma2
        { o with fitness := if fitness < 1 / 10 then 1 / 10 else fitness }))

/-- The coefficients `(slope, intercept)` that
`linear_norm_scaler::scale_fitness` computes from the statistics. -/
def linear_norm_scaler.coefficients {G : Type} (m_fitness_multiple : ℚ)
    (stats : fitness_stats G) : ℚ × ℚ :=
  if stats.min > (m_fitness_multiple * stats.mean - stats.max) / (m_fitness_multiple - 1) then
    -- normal scaling
    let delta := stats.max - stats.mean
    ((m_fitness_multiple - 1) * stats.mean / delta,
     stats.mean * (stats.max - m_fitness_multiple * stats.mean) / delta)
  else
    -- extreme scaling
    let delta := stats.mean - stats.min
    (stats.mean / delta, -stats.min * stats.mean / delta)

/-- `linear_norm_scaler::scale_fitness` (scaler.h) for the multiple
`m_fitness_multiple`. -/
def linear_norm_scaler.scale_fitness {G : Type} (m_fitness_multiple : ℚ)
    (a_population : List (organism G)) : Option (List (organism G)) :=
  match fitness_stats.create a_population with
  | none => none
  | some stats =>
    let slope := (linear_norm_scaler.coefficients m_fitness_multiple stats).1
    let intercept := (linear_norm_scaler.coefficients m_fitness_multiple stats).2
    -- adjust fitness values
    some (a_population.map (fun o => { o with fitness := slope * o.fitness + intercept }))

/-- Organisms whose genes are their index, with the fitness values 10, 9, 5, 1. -/
def elitism_population : List (organism Nat) :=
  [{ fitness := 10, genes := 0 }, { fitness := 9, genes := 1 }, { fitness := 5, genes := 2 },
   { fitness := 1, genes := 3 }]

/-- The bit at position `i` (0 to 63) of the `double` held in the two words
`d = (x[0], x[1])`. -/
def evoreal.double_testBit (d : Nat × Nat) (i : Nat) : Bool :=
  if i < 32 then d.1.testBit i else d.2.testBit (i - 32)

/-- The `double` pattern `d` with the bit at position `k` (0 to 63) toggled. -/
def evoreal.toggle_double_bit (d : Nat × Nat) (k : Nat) : Nat × Nat :=
  if k < 32 then (d.1 ^^^ 2 ^ k, d.2) else (d.1, d.2 ^^^ 2 ^ (k - 32))

/-- A square root function for examples: exact on the squares of rationals
(integer square roots of numerator and denominator). -/
def sample_sqrt (q : ℚ) : ℚ := (Nat.sqrt q.num.toNat : ℚ) / (Nat.sqrt q.den : ℚ)

/-- Organisms whose genes are their index, with the fitness values -9, 3, 15. -/
def spread_population : List (organism Nat) :=
  [{ fitness := -9, genes := 0 }, { fitness := 3, genes := 1 }, { fitness := 15, genes := 2 }]

/-! ### Definitions for the remaining claims -/

/-- The offspring `lcross` that one round of the `do ... while` loop of
`crossover(float, float)` builds for the cut point `cut` (evoreal.cpp). -/
def evoreal.crossover_float_round (l1 l2 cut : Nat) : Nat :=
  -- create mask
  let mask := (0xFFFFFFFF <<< cut) % WORD_MOD
  -- generate offspring
  (l1 &&& mask) ||| (l2 &&& (0xFFFFFFFF ^^^ mask))

/-- The constructor `roulette_wheel::roulette_wheel(const double *, size_t,
double, double)` (roulette.cpp); the array and its size are the list and its
length. -/
def roulette_wheel.create_array (a_weights : List ℚ) (a_min_weight a_max_weight : ℚ) :
    Except String roulette_wheel := do
  -- m_min_weight(fabs(a_min_weight)), m_max_weight(fabs(a_max_weight))
  let m_min_weight := |a_min_weight|
  let m_max_weight := |a_max_weight|
  validate_not a_weights.length 0 "Roulette wheel can not have zero size"
  validate_less m_min_weight m_max_weight "Minimum weight must be less than maximum"
  validate_greater m_min_weight 0 "Minimum weight must be > 0"
  -- the loop: store each clamped weight and add it to the total
  let m_weights := a_weights.map (roulette_wheel.clamp m_min_weight m_max_weight)
  let m_total_weight := m_weights.foldl (fun total weight => total + weight) 0
  validate_greater m_total_weight 0 "Roulette wheel must have a total weight > zero"
  pure { m_weights := m_weights, m_total_weight := m_total_weight,
         m_min_weight := m_min_weight, m_max_weight := m_max_weight }

/-- `globals::set_seed` (evocommon.h): `g_random.set_seed(a_seed)`, on the
shared generator `g_random`. -/
def globals.set_seed (g_random : prng) (a_seed : Nat) : prng :=
  g_random.set_seed a_seed

/-- `globals::get_seed` (evocommon.h): `return g_random.get_seed();` with the
return type `uint32_t`, which keeps the low 32 bits. -/
def globals.get_seed (g_random : prng) : Nat :=
  g_random.get_seed % 2 ^ 32

/-- Organisms whose genes are their index, with the fitness values 1, 2, 9:
linear normalization with the multiple 2 takes its normal branch. -/
def normal_branch_population : List (organism Nat) :=
  [{ fitness := 1, genes := 0 }, { fitness := 2, genes := 1 }, { fitness := 9, genes := 2 }]

/-- Organisms whose genes are their index, with the fitness values 1, 8, 9:
linear normalization with the multiple 2 takes its extreme branch. -/
def extreme_branch_population : List (organism Nat) :=
  [{ fitness := 1, genes := 0 }, { fitness := 8, genes := 1 }, { fitness := 9, genes := 2 }]

/-- The weights that `function_reproducer::breed` (function_optimizer.cpp)
hands to the wheel: `fitness > 0.0 ? fitness : 0.0` for each organism. -/
def function_reproducer.wheel_weights {G : Type} (a_population : List (organism G)) : List ℚ :=
  a_population.map (fun o => if o.fitness > 0 then o.fitness else 0)

/-! ## Theorems -/

/-- Every call of `run_generation` advances the iteration counter by one
(modulo the range of `size_t`), whether or not evolution continues. -/
theorem run_generation_iteration {W O : Type} (E : strategies W O) (s : evocosm W O) :
    (evocosm.run_generation E s).2.m_iteration = (s.m_iteration + 1) % SIZE_MOD := by
  unfold evocosm.run_generation
  dsimp only
  split <;> rfl

/-- After `k` calls on a fresh engine the counter holds `k` modulo `2 ^ 64`. -/
theorem after_calls_iteration {W O : Type} (E : strategies W O) (w : W) (p : List O) (k : Nat) :
    (evocosm.after_calls E (evocosm.create w p) k).m_iteration = k % SIZE_MOD := by
  induction k with
  | zero => rfl
  | succ k ih =>
    simp only [evocosm.after_calls, run_generation_iteration, ih]
    rw [Nat.mod_add_mod]

/-- With the default analyzer the value returned by `run_generation` is the
analyzer's verdict on the advanced iteration counter. -/
theorem run_generation_default_analyzer {W O : Type} (E : strategies W O) (m : Nat)
    (s : evocosm W O) :
    (evocosm.run_generation (with_default_analyzer E m) s).1
      = analyzer.analyze m ([] : List O) ((s.m_iteration + 1) % SIZE_MOD) := by
  unfold evocosm.run_generation
  dsimp only [with_default_analyzer]
  have hpop : ∀ (p q : List O) (i : Nat), analyzer.analyze m p i = analyzer.analyze m q i :=
    fun _ _ _ => rfl
  split
  · next h => rw [hpop _ [] _] at h; exact h.symm
  · next h => rw [hpop _ [] _] at h; exact (Bool.eq_false_iff.mpr h).symm

/-- The value returned by call number `k` on a fresh engine driven by the
default analyzer. -/
theorem nth_call_default_analyzer {W O : Type} (E : strategies W O) (m : Nat) (w : W)
    (p : List O) (k : Nat) (hk : 1 ≤ k) :
    evocosm.nth_call (with_default_analyzer E m) (evocosm.create w p) k
      = analyzer.analyze m ([] : List O) (k % SIZE_MOD) := by
  unfold evocosm.nth_call
  rw [run_generation_default_analyzer, after_calls_iteration, Nat.mod_add_mod,
    Nat.sub_add_cancel hk]

/-- C1, as stated, fails: with `max_iterations = 3` and strategies that conserve
the population size the third call of `run_generation` on a fresh engine
already returns false (calls 1 and 2 return true). -/
theorem C1_third_call_returns_false :
    evocosm.nth_call (with_default_analyzer plain_strategies 3)
        (evocosm.create () [⟨1, ()⟩, ⟨5, ()⟩, ⟨3, ()⟩]) 1 = true
      ∧ evocosm.nth_call (with_default_analyzer plain_strategies 3)
        (evocosm.create () [⟨1, ()⟩, ⟨5, ()⟩, ⟨3, ()⟩]) 2 = true
      ∧ evocosm.nth_call (with_default_analyzer plain_strategies 3)
        (evocosm.create () [⟨1, ()⟩, ⟨5, ()⟩, ⟨3, ()⟩]) 3 = false := by
  refine ⟨?_, ?_, ?_⟩ <;> rfl

/-- C1, amended: with the default analyzer constructed with
`max_iterations = 3`, whatever the other strategies are, call number `k` of
`run_generation` on a fresh engine returns true exactly when `k < 3`: true on
calls 1 and 2, false on call 3 and on every later call, as long as the 64-bit
iteration counter has not wrapped around (`k < 2 ^ 64`). -/
theorem C1_default_analyzer_three_iterations {W O : Type} (E : strategies W O) (w : W)
    (p : List O) (k : Nat) (hk : 1 ≤ k) (hwrap : k < 2 ^ 64) :
    evocosm.nth_call (with_default_analyzer E 3) (evocosm.create w p) k = decide (k < 3) := by
  rw [nth_call_default_analyzer E 3 w p k hk, Nat.mod_eq_of_lt (by simpa [SIZE_MOD] using hwrap)]
  simp [analyzer.analyze]

/-- C1, amended, at the fourth call of the small concrete engine. -/
theorem C1_default_analyzer_three_iterations_witness :
    1 ≤ 4 ∧ 4 < 2 ^ 64 ∧
      evocosm.nth_call (with_default_analyzer plain_strategies 3)
        (evocosm.create () [⟨1, ()⟩, ⟨5, ()⟩, ⟨3, ()⟩]) 4 = decide (4 < 3) :=
  ⟨by decide, by decide,
    C1_default_analyzer_three_iterations plain_strategies () _ 4 (by decide) (by decide)⟩

/-- The result of a continuing call in terms of the named phases. -/
theorem run_generation_of_keep_going {W O : Type} (E : strategies W O) (s : evocosm W O)
    (h : (evocosm.analysed E s).2 = true) :
    evocosm.run_generation E s
      = (true, { world := (E.mutate (evocosm.bred E s).1 (evocosm.bred E s).2).1,
                 m_population := (evocosm.selected E s).2.2
                    ++ (E.mutate (evocosm.bred E s).1 (evocosm.bred E s).2).2,
                 m_iteration := (s.m_iteration + 1) % SIZE_MOD }) := by
  unfold evocosm.run_generation
  simp only [evocosm.analysed, evocosm.tested] at h
  simp only [h, if_true, evocosm.bred, evocosm.requested, evocosm.selected, evocosm.scaled,
    evocosm.analysed, evocosm.tested]

/-- C3, as stated, fails: in a continuing cycle of an engine whose scaler
multiplies every fitness by ten, the tested population carries the fitness
values 1, 5, 3, and the population the reproducer is handed carries 10, 50, 30,
the values after `scale_fitness`, not the ones before it (the requested count is
3 - 1 = 2). -/
theorem C3_breed_receives_scaled_population :
    (evocosm.analysed (scaling_strategies 0) (evocosm.create () sample_population)).2 = true
      ∧ (evocosm.tested (scaling_strategies 0)
          (evocosm.create () sample_population)).2.map organism.fitness = [1, 5, 3]
      ∧ (evocosm.run_generation (recording_breed (scaling_strategies 0))
          (evocosm.create () sample_population).with_log).2.world.2.map
            (fun call => (call.1.map organism.fitness, call.2)) = [([10, 50, 30], 2)] := by
  refine ⟨?_, ?_, ?_⟩ <;> decide!

/-- C3, amended: in every continuing cycle `breed` is called once, and the
population it is handed is the whole engine population as `scale_fitness` and
then `select_survivors` left it in place (scaled fitness values, not filtered
by selection); the requested child count is the size of that population minus
the number of survivors, in `size_t` arithmetic. -/
theorem C3_breed_arguments {W O : Type} (E : strategies W O) (s : evocosm W O)
    (h : (evocosm.analysed E s).2 = true) :
    (evocosm.run_generation (recording_breed E) s.with_log).2.world.2
      = [((E.select_survivors (evocosm.scaled E s).1
            (E.scale_fitness (evocosm.analysed E s).1 (evocosm.tested E s).2).2).2.1,
          ((evocosm.selected E s).2.1.length + SIZE_MOD
            - (evocosm.selected E s).2.2.length) % SIZE_MOD)] := by
  have h' : (evocosm.analysed (recording_breed E) s.with_log).2 = true := h
  rw [run_generation_of_keep_going (recording_breed E) s.with_log h']
  rfl

/-- C3, amended, at the engine whose scaler multiplies every fitness by ten. -/
theorem C3_breed_arguments_witness :
    (evocosm.analysed (scaling_strategies 0) (evocosm.create () sample_population)).2 = true
      ∧ (evocosm.run_generation (recording_breed (scaling_strategies 0))
          (evocosm.create () sample_population).with_log).2.world.2
        = [(((scaling_strategies 0).select_survivors
              (evocosm.scaled (scaling_strategies 0) (evocosm.create () sample_population)).1
              ((scaling_strategies 0).scale_fitness
                (evocosm.analysed (scaling_strategies 0)
                  (evocosm.create () sample_population)).1
                (evocosm.tested (scaling_strategies 0)
                  (evocosm.create () sample_population)).2).2).2.1,
            ((evocosm.selected (scaling_strategies 0)
                (evocosm.create () sample_population)).2.1.length + SIZE_MOD
              - (evocosm.selected (scaling_strategies 0)
                  (evocosm.create () sample_population)).2.2.length) % SIZE_MOD)] :=
  ⟨rfl, C3_breed_arguments (scaling_strategies 0) (evocosm.create () sample_population) rfl⟩

/-- C4: in every continuing cycle the new population is the survivors returned
by the selector, as returned, followed by what the mutator made of the
children returned by the reproducer; the mutator is applied to the children
alone. -/
theorem C4_new_population {W O : Type} (E : strategies W O) (s : evocosm W O)
    (h : (evocosm.analysed E s).2 = true) :
    (evocosm.run_generation E s).1 = true
      ∧ (evocosm.run_generation E s).2.m_population
        = (E.select_survivors (evocosm.scaled E s).1 (evocosm.scaled E s).2).2.2
          ++ (E.mutate (evocosm.bred E s).1
                (E.breed (evocosm.selected E s).1 (evocosm.selected E s).2.1
                  (evocosm.requested E s)).2).2 := by
  rw [run_generation_of_keep_going E s h]
  exact ⟨rfl, rfl⟩

/-- C4 at the engine whose selector keeps the first organism and whose mutator
sets the fitness of every child to 7: the new fitness values are 10, 7, 7. -/
theorem C4_new_population_witness :
    (evocosm.analysed (scaling_strategies 0) (evocosm.create () sample_population)).2 = true
      ∧ (evocosm.run_generation (scaling_strategies 0)
          (evocosm.create () sample_population)).2.m_population.map organism.fitness
        = [10, 7, 7] := by
  refine ⟨rfl, ?_⟩
  rw [(C4_new_population (scaling_strategies 0) (evocosm.create () sample_population) rfl).2]
  decide!

/-! ### Bit-level lemmas for `evoreal` -/

/-- The bits of the all-ones 32-bit word. -/
theorem word_testBit (i : Nat) : (0xFFFFFFFF : Nat).testBit i = decide (i < 32) := by
  have h : (0xFFFFFFFF : Nat) = 2 ^ 32 - 1 := by norm_num
  rw [h, Nat.testBit_two_pow_sub_one]

/-- A set bit of a 32-bit word has a position below 32. -/
theorem testBit_lt_of_lt (E i : Nat) (hE : E < 2 ^ 32) (h : E.testBit i = true) : i < 32 := by
  by_contra hn
  have hlt : E < 2 ^ i := lt_of_lt_of_le hE (Nat.pow_le_pow_right (by decide) (by omega))
  rw [Nat.testBit_lt_two_pow hlt] at h
  exact Bool.false_ne_true h

/-- Flipping with a mask that has no bit in common with the field `E` leaves
the field `E` of the word as it was. -/
theorem flip_land_of_disjoint (x mask E : Nat) (hE : E < 2 ^ 32) (h : mask &&& E = 0) :
    evoreal.flip x mask &&& E = x &&& E := by
  apply Nat.eq_of_testBit_eq
  intro i
  have hi : (mask.testBit i && E.testBit i) = false := by
    rw [← Nat.testBit_and, h, Nat.zero_testBit]
  have hlt := testBit_lt_of_lt E i hE
  unfold evoreal.flip
  split
  · simp only [Nat.testBit_and, Nat.testBit_xor, word_testBit]
    cases hm : mask.testBit i <;> cases he : E.testBit i <;> simp_all
  · simp only [Nat.testBit_and, Nat.testBit_or]
    cases hm : mask.testBit i <;> cases he : E.testBit i <;> simp_all

/-- Flipping with a one-bit mask toggles that bit and no other. -/
theorem flip_two_pow_testBit (x k i : Nat) (hi : i < 32) :
    (evoreal.flip x (2 ^ k)).testBit i = xor (x.testBit i) (decide (k = i)) := by
  unfold evoreal.flip
  rw [Nat.and_two_pow]
  cases hx : x.testBit k
  · simp only [Bool.toNat_false, zero_mul, ne_eq, not_true_eq_false, if_false, Nat.testBit_or,
      Nat.testBit_two_pow]
    by_cases hki : k = i
    · subst hki; simp [hx]
    · simp [hki]
  · have h2 : (true.toNat * 2 ^ k) ≠ 0 := by simp
    simp only [h2, ne_eq, not_false_eq_true, if_true, Nat.testBit_and, Nat.testBit_xor,
      word_testBit, Nat.testBit_two_pow, hi, decide_True]
    by_cases hki : k = i
    · subst hki; simp [hx]
    · simp [hki]

/-- If flipping bit `k1` fills the field `E`, flipping another bit `k2` of the
field does not. -/
theorem flip_two_pow_progress (x E k1 k2 : Nat) (hne : k1 ≠ k2) (h2 : k2 < 32)
    (hE : E.testBit k2 = true) (h : evoreal.flip x (2 ^ k1) &&& E = E) :
    evoreal.flip x (2 ^ k2) &&& E ≠ E := by
  intro h'
  have a := congrArg (fun n => n.testBit k2) h
  have b := congrArg (fun n => n.testBit k2) h'
  simp only [Nat.testBit_and, flip_two_pow_testBit _ _ _ h2, hE, hne, decide_False,
    decide_True, Bool.and_true, Bool.xor_false, Bool.xor_true] at a b
  simp [a] at b

/-- A draw in `[0, 1)` scaled by `n` and truncated is an index below `n`. -/
theorem floor_draw_lt (u : ℚ) (h0 : 0 ≤ u) (h1 : u < 1) (n : ℕ) (hn : 0 < n) :
    ⌊u * n⌋₊ < n := by
  rw [Nat.floor_lt (mul_nonneg h0 (Nat.cast_nonneg n))]
  have hpos : (0 : ℚ) < n := by exact_mod_cast hn
  nlinarith

/-- The sign mask has no exponent bit, single precision. -/
theorem sign_mask_disjoint_float : 0x80000000 &&& evoreal.FLT_EXP_BITS = 0 := by decide

/-- The sign mask has no exponent bit, double precision. -/
theorem sign_mask_disjoint_double : 0x80000000 &&& evoreal.DBL_EXP_BITS = 0 := by decide

/-- The 23 mantissa masks of a `float` have no exponent bit. -/
theorem mantissa_mask_disjoint_float :
    ∀ k < 23, ((1 <<< k) % WORD_MOD) &&& evoreal.FLT_EXP_BITS = 0 := by decide

/-- The 20 high-word mantissa masks of a `double` have no exponent bit. -/
theorem mantissa_mask_disjoint_double :
    ∀ k < 20, ((1 <<< k) % WORD_MOD) &&& evoreal.DBL_EXP_BITS = 0 := by decide

/-- Whatever the exponent loop of `mutate(float)` returns has passed its exit
test. -/
theorem mutate_float_exponent_finite (x : Nat) (draws : List ℚ) (n : Nat) (rest : List ℚ)
    (h : evoreal.mutate_float_exponent x draws = some (n, rest)) :
    n &&& evoreal.FLT_EXP_BITS ≠ evoreal.FLT_EXP_BITS := by
  induction draws with
  | nil => simp [evoreal.mutate_float_exponent] at h
  | cons u us ih =>
    simp only [evoreal.mutate_float_exponent] at h
    split at h
    · exact ih h
    · next hfin =>
      simp only [Option.some.injEq, Prod.mk.injEq] at h
      rw [← h.1]; exact hfin

/-- Whatever the exponent loop of `mutate(double)` returns has passed its exit
test. -/
theorem mutate_double_exponent_finite (x : Nat) (draws : List ℚ) (n : Nat) (rest : List ℚ)
    (h : evoreal.mutate_double_exponent x draws = some (n, rest)) :
    n &&& evoreal.DBL_EXP_BITS ≠ evoreal.DBL_EXP_BITS := by
  induction draws with
  | nil => simp [evoreal.mutate_double_exponent] at h
  | cons u us ih =>
    simp only [evoreal.mutate_double_exponent] at h
    split at h
    · exact ih h
    · next hfin =>
      simp only [Option.some.injEq, Prod.mk.injEq] at h
      rw [← h.1]; exact hfin

/-- On a finite `float` the exponent loop returns at its first round for a
suitable draw: the draw 0 (bit 23) or else the draw 1/8 (bit 24). -/
theorem mutate_float_exponent_returns (x : Nat) :
    ∃ u : ℚ, 0 ≤ u ∧ u < 1 ∧ ∀ rest, (evoreal.mutate_float_exponent x (u :: rest)).isSome := by
  by_cases h : evoreal.flip x (2 ^ 23) &&& evoreal.FLT_EXP_BITS = evoreal.FLT_EXP_BITS
  · have h' := flip_two_pow_progress x evoreal.FLT_EXP_BITS 23 24 (by decide) (by decide)
      (by decide) h
    refine ⟨1 / 8, by norm_num, by norm_num, fun rest => ?_⟩
    have hm : (0x00800000 <<< ⌊(1 / 8 : ℚ) * 8⌋₊) % WORD_MOD = 2 ^ 24 := by
      have : ⌊(1 / 8 : ℚ) * 8⌋₊ = 1 := by norm_num
      rw [this]; decide
    simp only [evoreal.mutate_float_exponent, hm, if_neg h', Option.isSome_some]
  · refine ⟨0, le_refl _, by norm_num, fun rest => ?_⟩
    have hm : (0x00800000 <<< ⌊(0 : ℚ) * 8⌋₊) % WORD_MOD = 2 ^ 23 := by
      have : ⌊(0 : ℚ) * 8⌋₊ = 0 := by norm_num
      rw [this]; decide
    simp only [evoreal.mutate_float_exponent, hm, if_neg h, Option.isSome_some]

/-- On a finite `double` the exponent loop returns at its first round for a
suitable draw: the draw 0 (bit 20) or else the draw 1/11 (bit 21). -/
theorem mutate_double_exponent_returns (x : Nat) :
    ∃ u : ℚ, 0 ≤ u ∧ u < 1 ∧ ∀ rest, (evoreal.mutate_double_exponent x (u :: rest)).isSome := by
  by_cases h : evoreal.flip x (2 ^ 20) &&& evoreal.DBL_EXP_BITS = evoreal.DBL_EXP_BITS
  · have h' := flip_two_pow_progress x evoreal.DBL_EXP_BITS 20 21 (by decide) (by decide)
      (by decide) h
    refine ⟨1 / 11, by norm_num, by norm_num, fun rest => ?_⟩
    have hm : (0x00100000 <<< ⌊(1 / 11 : ℚ) * 11⌋₊) % WORD_MOD = 2 ^ 21 := by
      have : ⌊(1 / 11 : ℚ) * 11⌋₊ = 1 := by norm_num
      rw [this]; decide
    simp only [evoreal.mutate_double_exponent, hm, if_neg h', Option.isSome_some]
  · refine ⟨0, le_refl _, by norm_num, fun rest => ?_⟩
    have hm : (0x00100000 <<< ⌊(0 : ℚ) * 11⌋₊) % WORD_MOD = 2 ^ 20 := by
      have : ⌊(0 : ℚ) * 11⌋₊ = 0 := by norm_num
      rw [this]; decide
    simp only [evoreal.mutate_double_exponent, hm, if_neg h, Option.isSome_some]

/-- Safety of `mutate(float)`: a finite input and draws in `[0, 1)` give a
finite result. -/
theorem mutate_float_finite (r : evoreal) (draws : List ℚ)
    (hdraws : ∀ u ∈ draws, 0 ≤ u ∧ u < 1) (x y : Nat) (rest : List ℚ)
    (hx : x &&& evoreal.FLT_EXP_BITS ≠ evoreal.FLT_EXP_BITS)
    (h : r.mutate_float draws x = some (y, rest)) :
    y &&& evoreal.FLT_EXP_BITS ≠ evoreal.FLT_EXP_BITS := by
  have hE : evoreal.FLT_EXP_BITS < 2 ^ 32 := by decide
  cases draws with
  | nil => simp [evoreal.mutate_float] at h
  | cons u us =>
    simp only [evoreal.mutate_float, if_neg hx] at h
    split at h
    · simp only [Option.some.injEq, Prod.mk.injEq] at h
      rw [← h.1, flip_land_of_disjoint _ _ _ hE sign_mask_disjoint_float]
      exact hx
    · split at h
      · exact mutate_float_exponent_finite x us y rest h
      · cases us with
        | nil => simp at h
        | cons u2 us2 =>
          simp only [Option.some.injEq, Prod.mk.injEq] at h
          have hu2 := hdraws u2 (by simp)
          have hk := floor_draw_lt u2 hu2.1 hu2.2 23 (by decide)
          simp only [Nat.cast_ofNat] at hk
          rw [← h.1, flip_land_of_disjoint _ _ _ hE (mantissa_mask_disjoint_float _ hk)]
          exact hx

/-- Safety of `mutate(double)`: a finite input and draws in `[0, 1)` give a
finite result. -/
theorem mutate_double_finite (r : evoreal) (draws : List ℚ)
    (hdraws : ∀ u ∈ draws, 0 ≤ u ∧ u < 1) (x y : Nat × Nat) (rest : List ℚ)
    (hx : x.2 &&& evoreal.DBL_EXP_BITS ≠ evoreal.DBL_EXP_BITS)
    (h : r.mutate_double draws x = some (y, rest)) :
    y.2 &&& evoreal.DBL_EXP_BITS ≠ evoreal.DBL_EXP_BITS := by
  have hE : evoreal.DBL_EXP_BITS < 2 ^ 32 := by decide
  cases draws with
  | nil => simp [evoreal.mutate_double] at h
  | cons u us =>
    simp only [evoreal.mutate_double] at h
    split at h
    · simp only [Option.some.injEq, Prod.mk.injEq] at h
      rw [← h.1, flip_land_of_disjoint _ _ _ hE sign_mask_disjoint_double]
      exact hx
    · split at h
      · split at h
        · exact absurd h (by simp)
        · next n rest2 hloop =>
          simp only [Option.some.injEq, Prod.mk.injEq] at h
          rw [← h.1]
          exact mutate_double_exponent_finite x.2 us n rest2 hloop
      · cases us with
        | nil => simp at h
        | cons u2 us2 =>
          have hu2 := hdraws u2 (by simp)
          have hk := floor_draw_lt u2 hu2.1 hu2.2 52 (by decide)
          simp only [Nat.cast_ofNat] at hk
          simp only at h
          split at h
          · simp only [Option.some.injEq, Prod.mk.injEq] at h
            rw [← h.1, flip_land_of_disjoint _ _ _ hE
              (mantissa_mask_disjoint_double _ (by omega))]
            exact hx
          · simp only [Option.some.injEq, Prod.mk.injEq] at h
            rw [← h.1]
            exact hx

/-- For every first draw, `mutate(float)` on a finite input returns for a
suitable second draw. -/
theorem mutate_float_returns (r : evoreal) (x : Nat) (u0 : ℚ) :
    ∃ u1 : ℚ, 0 ≤ u1 ∧ u1 < 1 ∧ ∀ rest, (r.mutate_float (u0 :: u1 :: rest) x).isSome := by
  obtain ⟨u1, h0, h1, hret⟩ := mutate_float_exponent_returns x
  refine ⟨u1, h0, h1, fun rest => ?_⟩
  simp only [evoreal.mutate_float]
  split
  · rfl
  · split
    · rfl
    · split
      · exact hret rest
      · rfl

/-- For every first draw, `mutate(double)` returns for a suitable second draw. -/
theorem mutate_double_returns (r : evoreal) (x : Nat × Nat) (u0 : ℚ) :
    ∃ u1 : ℚ, 0 ≤ u1 ∧ u1 < 1 ∧ ∀ rest, (r.mutate_double (u0 :: u1 :: rest) x).isSome := by
  obtain ⟨u1, h0, h1, hret⟩ := mutate_double_exponent_returns x.2
  refine ⟨u1, h0, h1, fun rest => ?_⟩
  simp only [evoreal.mutate_double]
  split
  · rfl
  · split
    · have := hret rest
      cases hloop : evoreal.mutate_double_exponent x.2 (u1 :: rest) with
      | none => rw [hloop] at this; exact absurd this (by simp)
      | some v => rfl
    · split <;> rfl

/-- C5: for every weight configuration and every sequence of draws in
`[0, 1)`, whatever `evoreal::mutate` returns on a finite input (exponent field
not all-ones) has an exponent field that is not all-ones, in single and in
double precision; and on a finite input the call does return: for every first
draw there is a second draw in `[0, 1)` with which it returns at once. -/
theorem C5_mutate_never_yields_nan_or_infinity (r : evoreal) (draws : List ℚ)
    (hdraws : ∀ u ∈ draws, 0 ≤ u ∧ u < 1) :
    (∀ (x y : Nat) (rest : List ℚ),
        x &&& evoreal.FLT_EXP_BITS ≠ evoreal.FLT_EXP_BITS →
        r.mutate_float draws x = some (y, rest) →
        y &&& evoreal.FLT_EXP_BITS ≠ evoreal.FLT_EXP_BITS)
      ∧ (∀ (x y : Nat × Nat) (rest : List ℚ),
        x.2 &&& evoreal.DBL_EXP_BITS ≠ evoreal.DBL_EXP_BITS →
        r.mutate_double draws x = some (y, rest) →
        y.2 &&& evoreal.DBL_EXP_BITS ≠ evoreal.DBL_EXP_BITS)
      ∧ (∀ (x : Nat) (u0 : ℚ), ∃ u1 : ℚ, 0 ≤ u1 ∧ u1 < 1
          ∧ ∀ rest, (r.mutate_float (u0 :: u1 :: rest) x).isSome)
      ∧ (∀ (x : Nat × Nat) (u0 : ℚ), ∃ u1 : ℚ, 0 ≤ u1 ∧ u1 < 1
          ∧ ∀ rest, (r.mutate_double (u0 :: u1 :: rest) x).isSome) :=
  ⟨fun x y rest hx h => mutate_float_finite r draws hdraws x y rest hx h,
   fun x y rest hx h => mutate_double_finite r draws hdraws x y rest hx h,
   fun x u0 => mutate_float_returns r x u0,
   fun x u0 => mutate_double_returns r x u0⟩

/-- C5 at the default weights 5/5/90 on the largest finite exponent: the first
draw selects the exponent region, the second picks the one bit that would fill
the exponent and is retried, the third clears bit 24; the double-precision
operator is run on the same draws. -/
theorem C5_mutate_never_yields_nan_or_infinity_witness :
    (∀ u ∈ [(1 / 20 : ℚ), 0, 1 / 8], 0 ≤ u ∧ u < 1)
      ∧ (evoreal.create 5 5 90).mutate_float [1 / 20, 0, 1 / 8] 0x7F000000
          = some (0x7E000000, [])
      ∧ 0x7E000000 &&& evoreal.FLT_EXP_BITS ≠ evoreal.FLT_EXP_BITS
      ∧ (evoreal.create 5 5 90).mutate_double [1 / 20, 0, 1 / 8] (0, 0x7FE00000)
          = some ((0, 0x7FC00000), [])
      ∧ 0x7FC00000 &&& evoreal.DBL_EXP_BITS ≠ evoreal.DBL_EXP_BITS := by
  have hd : ∀ u ∈ [(1 / 20 : ℚ), 0, 1 / 8], 0 ≤ u ∧ u < 1 := by
    intro u hu
    simp only [List.mem_cons, List.mem_singleton, List.mem_nil_iff, or_false] at hu
    rcases hu with rfl | rfl | rfl <;> norm_num
  have hf : (evoreal.create 5 5 90).mutate_float [1 / 20, 0, 1 / 8] 0x7F000000
      = some (0x7E000000, []) := by decide!
  have hdbl : (evoreal.create 5 5 90).mutate_double [1 / 20, 0, 1 / 8] (0, 0x7FE00000)
      = some ((0, 0x7FC00000), []) := by decide!
  exact ⟨hd, hf,
    (C5_mutate_never_yields_nan_or_infinity (evoreal.create 5 5 90) _ hd).1
      0x7F000000 0x7E000000 [] (by decide) hf,
    hdbl,
    (C5_mutate_never_yields_nan_or_infinity (evoreal.create 5 5 90) _ hd).2.1
      (0, 0x7FE00000) (0, 0x7FC00000) [] (by decide) hdbl⟩

/-- Whatever `crossover(float, float)` returns has passed the exit test of its
loop. -/
theorem crossover_float_finite (l1 l2 : Nat) (draws : List ℚ) (c : Nat) (rest : List ℚ)
    (h : evoreal.crossover_float l1 l2 draws = some (c, rest)) :
    c &&& evoreal.FLT_EXP_BITS ≠ evoreal.FLT_EXP_BITS := by
  induction draws with
  | nil => simp [evoreal.crossover_float] at h
  | cons u us ih =>
    simp only [evoreal.crossover_float] at h
    split at h
    · exact ih h
    · next hfin =>
      simp only [Option.some.injEq, Prod.mk.injEq] at h
      rw [← h.1]; exact hfin

/-- Whatever `crossover(double, double)` returns has passed the exit test of
its loop. -/
theorem crossover_double_finite (l1 l2 : Nat × Nat) (draws : List ℚ) (c : Nat × Nat)
    (rest : List ℚ) (h : evoreal.crossover_double l1 l2 draws = some (c, rest)) :
    c.2 &&& evoreal.DBL_EXP_BITS ≠ evoreal.DBL_EXP_BITS := by
  induction draws with
  | nil => simp [evoreal.crossover_double] at h
  | cons u us ih =>
    simp only [evoreal.crossover_double] at h
    split at h
    · exact ih h
    · next hfin =>
      simp only [Option.some.injEq, Prod.mk.injEq] at h
      rw [← h.1]; exact hfin

/-- The cut point 0 (draw 0) makes `crossover(float, float)` return its first
parent when that parent is finite. -/
theorem crossover_float_cut_zero (l1 l2 : Nat) (rest : List ℚ) (h32 : l1 < 2 ^ 32)
    (hx : l1 &&& evoreal.FLT_EXP_BITS ≠ evoreal.FLT_EXP_BITS) :
    evoreal.crossover_float l1 l2 (0 :: rest) = some (l1, rest) := by
  have hfloor : ⌊(0 : ℚ) * 32⌋₊ = 0 := by norm_num
  have hmask : (0xFFFFFFFF <<< 0) % WORD_MOD = 2 ^ 32 - 1 := by decide
  have hzero : (0xFFFFFFFF : Nat) ^^^ (2 ^ 32 - 1) = 0 := by decide
  simp only [evoreal.crossover_float, hfloor, hmask, hzero,
    Nat.and_pow_two_sub_one_of_lt_two_pow h32, Nat.and_zero, Nat.or_zero, if_neg hx]

/-- The cut point 0 (draw 0) makes `crossover(double, double)` return its first
parent when that parent is finite. -/
theorem crossover_double_cut_zero (l1 l2 : Nat × Nat) (rest : List ℚ) (h32 : l1.1 < 2 ^ 32)
    (hx : l1.2 &&& evoreal.DBL_EXP_BITS ≠ evoreal.DBL_EXP_BITS) :
    evoreal.crossover_double l1 l2 (0 :: rest) = some (l1, rest) := by
  have hfloor : ⌊(0 : ℚ) * 64⌋₊ = 0 := by norm_num
  have hmask : (0xFFFFFFFF <<< 0) % WORD_MOD = 2 ^ 32 - 1 := by decide
  have hzero : (0xFFFFFFFF : Nat) ^^^ (2 ^ 32 - 1) = 0 := by decide
  have h31 : ¬ (0 > 31) := by decide
  simp only [evoreal.crossover_double, evoreal.crossover_double_round, hfloor, hmask, hzero,
    h31, if_false, Nat.and_pow_two_sub_one_of_lt_two_pow h32, Nat.and_zero, Nat.or_zero,
    if_neg hx]

/-- C6: for every two finite parents and every sequence of draws (cut points),
whatever `evoreal::crossover` returns has an exponent field that is not
all-ones, in single and in double precision; and the call does return: with
the cut point 0 it returns the first parent. -/
theorem C6_crossover_never_yields_nan_or_infinity (draws : List ℚ) :
    (∀ (x y c : Nat) (rest : List ℚ),
        x < 2 ^ 32 → y < 2 ^ 32 →
        x &&& evoreal.FLT_EXP_BITS ≠ evoreal.FLT_EXP_BITS →
        y &&& evoreal.FLT_EXP_BITS ≠ evoreal.FLT_EXP_BITS →
        (evoreal.crossover_float x y draws = some (c, rest) →
            c &&& evoreal.FLT_EXP_BITS ≠ evoreal.FLT_EXP_BITS)
          ∧ evoreal.crossover_float x y (0 :: draws) = some (x, draws))
      ∧ (∀ (x y c : Nat × Nat) (rest : List ℚ),
        x.1 < 2 ^ 32 → y.1 < 2 ^ 32 →
        x.2 &&& evoreal.DBL_EXP_BITS ≠ evoreal.DBL_EXP_BITS →
        y.2 &&& evoreal.DBL_EXP_BITS ≠ evoreal.DBL_EXP_BITS →
        (evoreal.crossover_double x y draws = some (c, rest) →
            c.2 &&& evoreal.DBL_EXP_BITS ≠ evoreal.DBL_EXP_BITS)
          ∧ evoreal.crossover_double x y (0 :: draws) = some (x, draws)) :=
  ⟨fun x y c rest hx32 _ hx _ =>
      ⟨crossover_float_finite x y draws c rest, crossover_float_cut_zero x y draws hx32 hx⟩,
   fun x y c rest hx32 _ hx _ =>
      ⟨crossover_double_finite x y draws c rest, crossover_double_cut_zero x y draws hx32 hx⟩⟩

/-- C6 on two finite parents whose cut at bit 24 (bit 53 for the doubles) would fill the exponent: that
cut is retried and the next one, at bit 0, returns the first parent. -/
theorem C6_crossover_never_yields_nan_or_infinity_witness :
    evoreal.crossover_float 0x7F000000 0x00800000 [3 / 4, 0] = some (0x7F000000, [])
      ∧ 0x7F000000 &&& evoreal.FLT_EXP_BITS ≠ evoreal.FLT_EXP_BITS
      ∧ evoreal.crossover_double (5, 0x7FE00000) (9, 0x00100000) [53 / 64, 0]
          = some ((5, 0x7FE00000), [])
      ∧ 0x7FE00000 &&& evoreal.DBL_EXP_BITS ≠ evoreal.DBL_EXP_BITS := by
  have hf : evoreal.crossover_float 0x7F000000 0x00800000 [3 / 4, 0]
      = some (0x7F000000, []) := by decide!
  have hdbl : evoreal.crossover_double (5, 0x7FE00000) (9, 0x00100000) [53 / 64, 0]
      = some ((5, 0x7FE00000), []) := by decide!
  exact ⟨hf,
    ((C6_crossover_never_yields_nan_or_infinity [3 / 4, 0]).1 0x7F000000 0x00800000
      0x7F000000 [] (by decide) (by decide) (by decide) (by decide)).1 hf,
    hdbl,
    ((C6_crossover_never_yields_nan_or_infinity [53 / 64, 0]).2 (5, 0x7FE00000)
      (9, 0x00100000) (5, 0x7FE00000) [] (by decide) (by decide) (by decide) (by decide)).1 hdbl⟩

/-- C7: single-precision `mutate` returns an input whose exponent field is
all-ones (NaN or Infinity) bit for bit, whatever the weights and the draw; it
consumes the one draw made before the test. -/
theorem C7_mutate_float_keeps_invalid_input (r : evoreal) (u : ℚ) (rest : List ℚ) (x : Nat)
    (hx : x &&& evoreal.FLT_EXP_BITS = evoreal.FLT_EXP_BITS) :
    r.mutate_float (u :: rest) x = some (x, rest) := by
  simp only [evoreal.mutate_float, if_pos hx]

/-- C7 on positive infinity (0x7F800000) with the default weights. -/
theorem C7_mutate_float_keeps_invalid_input_witness :
    0x7F800000 &&& evoreal.FLT_EXP_BITS = evoreal.FLT_EXP_BITS
      ∧ (evoreal.create 5 5 90).mutate_float [1 / 2, 1 / 4] 0x7F800000
          = some (0x7F800000, [1 / 4]) :=
  ⟨by decide,
    C7_mutate_float_keeps_invalid_input (evoreal.create 5 5 90) (1 / 2) [1 / 4] 0x7F800000
      (by decide)⟩

/-- C8 fails on the code: double-precision `mutate` has no test for an
all-ones exponent. With the default weights, positive infinity
(0x7FF00000 00000000) becomes negative infinity when the draw selects the sign,
a NaN when the draws select mantissa bit 0, and the finite pattern
0x7FE00000 00000000 when the draws select exponent bit 20. -/
theorem C8_mutate_double_changes_invalid_input :
    0x7FF00000 &&& evoreal.DBL_EXP_BITS = evoreal.DBL_EXP_BITS
      ∧ (evoreal.create 5 5 90).mutate_double [0] (0, 0x7FF00000)
          = some ((0, 0xFFF00000), [])
      ∧ (evoreal.create 5 5 90).mutate_double [1 / 2, 0] (0, 0x7FF00000)
          = some ((1, 0x7FF00000), [])
      ∧ (evoreal.create 5 5 90).mutate_double [1 / 20, 0] (0, 0x7FF00000)
          = some ((0, 0x7FE00000), []) := by
  refine ⟨by decide, ?_, ?_, ?_⟩ <;> decide!

/-! ### Lemmas for `fitness_stats` -/

/-- The minimum after one round of the scan. -/
theorem step_min {G : Type} (acc : fitness_stats.scan G) (o : organism G) :
    (fitness_stats.step acc o).min = if o.fitness < acc.min then o.fitness else acc.min := by
  unfold fitness_stats.step
  dsimp only
  split <;> split <;> simp_all

/-- The worst organism after one round of the scan. -/
theorem step_worst {G : Type} (acc : fitness_stats.scan G) (o : organism G) :
    (fitness_stats.step acc o).worst = if o.fitness < acc.min then o else acc.worst := by
  unfold fitness_stats.step
  dsimp only
  split <;> split <;> simp_all

/-- The scan keeps this invariant over the organisms seen so far (`pre`): the
recorded minimum is a lower bound of their fitness values and the recorded
worst organism is the first of them with that fitness. -/
theorem scan_min_invariant {G : Type} (tail pre : List (organism G))
    (acc : fitness_stats.scan G)
    (hfind : pre.find? (fun o => decide (o.fitness = acc.min)) = some acc.worst)
    (hle : ∀ o ∈ pre, acc.min ≤ o.fitness) :
    (pre ++ tail).find?
        (fun o => decide (o.fitness = (tail.foldl fitness_stats.step acc).min))
        = some (tail.foldl fitness_stats.step acc).worst
      ∧ ∀ o ∈ pre ++ tail, (tail.foldl fitness_stats.step acc).min ≤ o.fitness := by
  induction tail generalizing pre acc with
  | nil => simpa using ⟨hfind, hle⟩
  | cons o t ih =>
    have key := ih (pre ++ [o]) (fitness_stats.step acc o) ?_ ?_
    · simpa [List.append_assoc] using key
    · rw [step_min, step_worst, List.find?_append]
      by_cases hlt : o.fitness < acc.min
      · have hnone : pre.find? (fun p => decide (p.fitness = o.fitness)) = none := by
          rw [List.find?_eq_none]
          intro p hp
          have := hle p hp
          simp only [decide_eq_true_eq]
          intro heq
          rw [heq] at this
          exact absurd hlt (not_lt.mpr this)
        simp [hlt, hnone]
      · simp [hlt, hfind]
    · intro p hp
      rw [step_min]
      rw [List.mem_append, List.mem_singleton] at hp
      by_cases hlt : o.fitness < acc.min
      · rw [if_pos hlt]
        rcases hp with hp | rfl
        · exact le_trans (le_of_lt hlt) (hle p hp)
        · exact le_refl _
      · rw [if_neg hlt]
        rcases hp with hp | rfl
        · exact hle p hp
        · exact not_lt.mp hlt

/-- The maximum after one round of the scan. -/
theorem step_max {G : Type} (acc : fitness_stats.scan G) (o : organism G) :
    (fitness_stats.step acc o).max = if o.fitness > acc.max then o.fitness else acc.max := by
  unfold fitness_stats.step
  dsimp only
  split <;> split <;> simp_all

/-- The best organism after one round of the scan. -/
theorem step_best {G : Type} (acc : fitness_stats.scan G) (o : organism G) :
    (fitness_stats.step acc o).best = if o.fitness > acc.max then o else acc.best := by
  unfold fitness_stats.step
  dsimp only
  split <;> split <;> simp_all

/-- The scan keeps this invariant over the organisms seen so far (`pre`): the
recorded maximum is an upper bound of their fitness values and at least the
initial value `DBL_MIN`, and either it still is the initial value or the
recorded best organism is the first of them with that fitness. -/
theorem scan_max_invariant {G : Type} (tail pre : List (organism G))
    (acc : fitness_stats.scan G)
    (hfind : acc.max = DBL_MIN
      ∨ pre.find? (fun o => decide (o.fitness = acc.max)) = some acc.best)
    (hle : ∀ o ∈ pre, o.fitness ≤ acc.max) (hinit : DBL_MIN ≤ acc.max) :
    ((tail.foldl fitness_stats.step acc).max = DBL_MIN
        ∨ (pre ++ tail).find?
            (fun o => decide (o.fitness = (tail.foldl fitness_stats.step acc).max))
          = some (tail.foldl fitness_stats.step acc).best)
      ∧ (∀ o ∈ pre ++ tail, o.fitness ≤ (tail.foldl fitness_stats.step acc).max)
      ∧ DBL_MIN ≤ (tail.foldl fitness_stats.step acc).max := by
  induction tail generalizing pre acc with
  | nil => simpa using ⟨hfind, hle, hinit⟩
  | cons o t ih =>
    have key := ih (pre ++ [o]) (fitness_stats.step acc o) ?_ ?_ ?_
    · simpa [List.append_assoc] using key
    · rw [step_max, step_best, List.find?_append]
      by_cases hgt : o.fitness > acc.max
      · have hnone : pre.find? (fun p => decide (p.fitness = o.fitness)) = none := by
          rw [List.find?_eq_none]
          intro p hp
          have := hle p hp
          simp only [decide_eq_true_eq]
          intro heq
          rw [heq] at this
          exact absurd hgt (not_lt.mpr this)
        right
        simp [hgt, hnone]
      · rcases hfind with h0 | hf
        · left; rw [if_neg hgt]; exact h0
        · right; simp [hgt, hf]
    · intro p hp
      rw [step_max]
      rw [List.mem_append, List.mem_singleton] at hp
      by_cases hgt : o.fitness > acc.max
      · rw [if_pos hgt]
        rcases hp with hp | rfl
        · exact le_trans (hle p hp) (le_of_lt hgt)
        · exact le_refl _
      · rw [if_neg hgt]
        rcases hp with hp | rfl
        · exact hle p hp
        · exact not_lt.mp hgt
    · rw [step_max]
      by_cases hgt : o.fitness > acc.max
      · rw [if_pos hgt]; exact le_trans hinit (le_of_lt hgt)
      · rw [if_neg hgt]; exact hinit

/-- Where the code agrees with C9: when some organism has a fitness above
`numeric_limits<double>::min()`, `max` is the greatest fitness value of the
population and `best` is a copy of the first organism having it. -/
theorem max_and_best_above_DBL_MIN {G : Type} (a_population : List (organism G))
    (habove : ∃ o ∈ a_population, DBL_MIN < o.fitness) :
    ∃ st, fitness_stats.create a_population = some st
      ∧ (∀ o ∈ a_population, o.fitness ≤ st.max)
      ∧ a_population.find? (fun o => decide (o.fitness = st.max)) = some st.best := by
  cases a_population with
  | nil =>
    obtain ⟨o, ho, _⟩ := habove
    exact absurd ho (List.not_mem_nil o)
  | cons first rest =>
    have inv := scan_max_invariant (first :: rest) []
      ({ max := DBL_MIN, min := DBL_MAX, mean := 0, best := first, worst := first } :
        fitness_stats.scan G)
      (Or.inl rfl) (by simp) (le_refl _)
    simp only [List.nil_append] at inv
    refine ⟨_, rfl, inv.2.1, ?_⟩
    rcases inv.1 with h0 | hf
    · obtain ⟨o, ho, hgt⟩ := habove
      have := inv.2.1 o ho
      rw [h0] at this
      exact absurd hgt (not_lt.mpr this)
    · exact hf

/-- C9 fails on the code: `max` starts at `numeric_limits<double>::min()`, the
least positive `double`, so on the fitness values -2, -1 the reported maximum
is `2 ^ (-1022)`, not -1, and `best` is the copy of organism 0 (fitness -2)
made at construction, not organism 1. -/
theorem C9_max_of_negative_population :
    ∃ st, fitness_stats.create negative_population = some st
      ∧ st.max = 1 / 2 ^ 1022
      ∧ st.best = { fitness := -2, genes := 0 } := by
  refine ⟨_, rfl, ?_, ?_⟩ <;> decide!

/-- C10: for every non-empty population (of fitness values in the range of
`double`), `fitness_stats` reports as `min` the least fitness value of the
population, and `worst` is a copy of the first organism having that fitness. -/
theorem C10_min_and_worst {G : Type} (a_population : List (organism G))
    (hne : a_population ≠ []) (hrange : ∀ o ∈ a_population, o.fitness ≤ DBL_MAX) :
    ∃ st, fitness_stats.create a_population = some st
      ∧ (∀ o ∈ a_population, st.min ≤ o.fitness)
      ∧ (∃ o ∈ a_population, o.fitness = st.min)
      ∧ a_population.find? (fun o => decide (o.fitness = st.min)) = some st.worst := by
  cases a_population with
  | nil => exact absurd rfl hne
  | cons first rest =>
    have hfirst : first.fitness ≤ DBL_MAX := hrange first (by simp)
    have hmin : (fitness_stats.step
        { max := DBL_MIN, min := DBL_MAX, mean := 0, best := first, worst := first }
        first).min = first.fitness := by
      rw [step_min]
      by_cases hlt : first.fitness < DBL_MAX
      · rw [if_pos hlt]
      · rw [if_neg hlt]; exact le_antisymm (not_lt.mp hlt) hfirst
    have hworst : (fitness_stats.step
        { max := DBL_MIN, min := DBL_MAX, mean := 0, best := first, worst := first }
        first).worst = first := by
      rw [step_worst]
      split <;> rfl
    have inv := scan_min_invariant rest [first] _
      (by rw [hmin, hworst]; simp) (by intro o ho; rw [hmin]; simp at ho; rw [ho])
    refine ⟨_, rfl, ?_, ?_, ?_⟩
    · exact inv.2
    · have hmem := List.mem_of_find?_eq_some inv.1
      have hp := List.find?_some inv.1
      exact ⟨_, hmem, by simpa using hp⟩
    · exact inv.1

/-- C10 on the fitness values 1, 5, 3: `min` is 1 and `worst` is organism 0,
whose fitness is 1. -/
theorem C10_min_and_worst_witness :
    numbered_population ≠ [] ∧ (∀ o ∈ numbered_population, o.fitness ≤ DBL_MAX)
      ∧ ∃ st, fitness_stats.create numbered_population = some st
        ∧ st.min = 1 ∧ st.worst = { fitness := 1, genes := 0 }
        ∧ (∀ o ∈ numbered_population, st.min ≤ o.fitness)
        ∧ numbered_population.find? (fun o => decide (o.fitness = st.min)) = some st.worst := by
  have hne : numbered_population ≠ [] := by decide
  have hrange : ∀ o ∈ numbered_population, o.fitness ≤ DBL_MAX := by decide!
  obtain ⟨st, hst, hle, _, hfind⟩ := C10_min_and_worst numbered_population hne hrange
  have hval : fitness_stats.create numbered_population
      = some { min := 1, max := 5, mean := 3, variance := 4,
               best := { fitness := 5, genes := 1 }, worst := { fitness := 1, genes := 0 } } := by
    decide!
  have hst' := Option.some.inj (hst.symm.trans hval)
  exact ⟨hne, hrange, st, hst, by rw [hst'], by rw [hst'], hle, hfind⟩

/-- The accumulated fitness after one round of the scan. -/
theorem step_mean {G : Type} (acc : fitness_stats.scan G) (o : organism G) :
    (fitness_stats.step acc o).mean = acc.mean + o.fitness := by
  unfold fitness_stats.step
  dsimp only
  split <;> split <;> rfl

/-- The first loop accumulates the sum of the fitness values. -/
theorem scan_mean {G : Type} (l : List (organism G)) (acc : fitness_stats.scan G) :
    (l.foldl fitness_stats.step acc).mean = acc.mean + (l.map organism.fitness).sum := by
  induction l generalizing acc with
  | nil => simp
  | cons o t ih =>
    rw [List.foldl_cons, ih, step_mean, List.map_cons, List.sum_cons]
    ring

/-- The second loop accumulates the sum of the squared deviations. -/
theorem variance_loop {G : Type} (l : List (organism G)) (mean v : ℚ) :
    l.foldl (fun v o => v + (o.fitness - mean) * (o.fitness - mean)) v
      = v + (l.map (fun o => (o.fitness - mean) ^ 2)).sum := by
  induction l generalizing v with
  | nil => simp
  | cons o t ih =>
    rw [List.foldl_cons, ih, List.map_cons, List.sum_cons]
    ring

/-- A sum of squares is not negative. -/
theorem sum_sq_nonneg {G : Type} (l : List (organism G)) (mean : ℚ) :
    0 ≤ (l.map (fun o => (o.fitness - mean) ^ 2)).sum := by
  apply List.sum_nonneg
  intro x hx
  rw [List.mem_map] at hx
  obtain ⟨o, _, rfl⟩ := hx
  exact sq_nonneg _

/-- C11: for every population of `n >= 2` organisms `fitness_stats` reports
the arithmetic mean (sum of fitness divided by `n`), the sample variance (sum of
squared deviations from that mean divided by `n - 1`), and as `sigma` the
non-negative square root of that variance. -/
theorem C11_mean_variance_sigma {G : Type} (a_population : List (organism G))
    (hn : 2 ≤ a_population.length) :
    ∃ st, fitness_stats.create a_population = some st
      ∧ st.mean = (a_population.map organism.fitness).sum / (a_population.length : ℚ)
      ∧ st.variance = (a_population.map (fun o => (o.fitness - st.mean) ^ 2)).sum
          / ((a_population.length : ℚ) - 1)
      ∧ 0 ≤ fitness_stats.sigma (fun q => Real.sqrt (q : ℝ)) st
      ∧ fitness_stats.sigma (fun q => Real.sqrt (q : ℝ)) st
          * fitness_stats.sigma (fun q => Real.sqrt (q : ℝ)) st = (st.variance : ℝ) := by
  cases a_population with
  | nil => simp at hn
  | cons first rest =>
    have hlen : (((first :: rest).length - 1 : ℕ) : ℚ) = ((first :: rest).length : ℚ) - 1 := by
      simp
    have hpos : (0 : ℚ) < ((first :: rest).length : ℚ) - 1 := by
      have h2 : (2 : ℚ) ≤ ((first :: rest).length : ℚ) := by exact_mod_cast hn
      linarith
    refine ⟨_, rfl, ?_, ?_, ?_, ?_⟩
    · simp only [scan_mean, zero_add]
    · simp only [variance_loop, zero_add, hlen]
    · exact Real.sqrt_nonneg _
    · simp only [fitness_stats.sigma]
      apply Real.mul_self_sqrt
      simp only [variance_loop, zero_add, hlen]
      have hq : (0 : ℚ) ≤ ((first :: rest).map
          (fun o => (o.fitness - (List.foldl fitness_stats.step
            { max := DBL_MIN, min := DBL_MAX, mean := 0, best := first, worst := first }
            (first :: rest)).mean / ((first :: rest).length : ℚ)) ^ 2)).sum
          / (((first :: rest).length : ℚ) - 1) :=
        div_nonneg (sum_sq_nonneg _ _) (le_of_lt hpos)
      exact_mod_cast hq

/-- C11 on the fitness values 1, 5, 3: mean 3, variance 4, sigma 2. -/
theorem C11_mean_variance_sigma_witness :
    2 ≤ numbered_population.length
      ∧ ∃ st, fitness_stats.create numbered_population = some st
        ∧ st.mean = 3 ∧ st.variance = 4
        ∧ fitness_stats.sigma (fun q => Real.sqrt (q : ℝ)) st = 2 := by
  obtain ⟨st, hst, _, _, hnonneg, hsq⟩ :=
    C11_mean_variance_sigma numbered_population (by decide)
  have hval : fitness_stats.create numbered_population
      = some { min := 1, max := 5, mean := 3, variance := 4,
               best := { fitness := 5, genes := 1 }, worst := { fitness := 1, genes := 0 } } := by
    decide!
  have hst' := Option.some.inj (hst.symm.trans hval)
  refine ⟨by decide, st, hst, by rw [hst'], by rw [hst'], ?_⟩
  have hvar : (st.variance : ℝ) = 4 := by rw [hst']; norm_num
  rw [hvar] at hsq
  nlinarith [hnonneg, hsq]

/-! ### Lemmas for `roulette_wheel` -/

/-- The total accumulated by the constructor loop is the sum of the list. -/
theorem total_loop (l : List ℚ) : l.foldl (fun total weight => total + weight) 0 = l.sum :=
  List.sum_eq_foldl.symm

/-- The creation constructor, validation by validation. -/
theorem create_eq (a_weights : List ℚ) (a_min_weight a_max_weight : ℚ) :
    roulette_wheel.create a_weights a_min_weight a_max_weight
      = if a_min_weight < a_max_weight then
          if a_weights.length = 0 then
            Except.error "Roulette wheel can not have zero size"
          else if (a_weights.map (roulette_wheel.clamp |a_min_weight| |a_max_weight|)).sum > 0 then
            Except.ok
              { m_weights := a_weights.map (roulette_wheel.clamp |a_min_weight| |a_max_weight|),
                m_total_weight :=
                  (a_weights.map (roulette_wheel.clamp |a_min_weight| |a_max_weight|)).sum,
                m_min_weight := |a_min_weight|, m_max_weight := |a_max_weight| }
          else Except.error "Roulette wheel must have a total weight > zero"
        else Except.error "Minimum weight must be less than maximum" := by
  unfold roulette_wheel.create validate_less validate_not validate_greater
  simp only [total_loop]
  by_cases h1 : a_min_weight < a_max_weight
  · by_cases h2 : a_weights.length = 0
    · simp [h1, h2, bind, Except.bind]
    · by_cases h3 : (a_weights.map (roulette_wheel.clamp |a_min_weight| |a_max_weight|)).sum > 0
      · simp [h1, h2, h3, bind, Except.bind, pure, Except.pure]
      · simp [h1, h2, h3, bind, Except.bind]
  · simp [h1, bind, Except.bind]

/-- What a successful construction tells. -/
theorem create_ok (a_weights : List ℚ) (a_min_weight a_max_weight : ℚ) (w : roulette_wheel)
    (h : roulette_wheel.create a_weights a_min_weight a_max_weight = Except.ok w) :
    a_min_weight < a_max_weight ∧ a_weights ≠ []
      ∧ w.m_weights = a_weights.map (roulette_wheel.clamp |a_min_weight| |a_max_weight|)
      ∧ w.m_total_weight = w.m_weights.sum ∧ 0 < w.m_total_weight
      ∧ w.m_min_weight = |a_min_weight| ∧ w.m_max_weight = |a_max_weight| := by
  rw [create_eq] at h
  split at h
  · next h1 =>
    split at h
    · exact absurd h (by simp)
    · next h2 =>
      split at h
      · next h3 =>
        have hw := (Except.ok.inj h).symm
        subst hw
        refine ⟨h1, ?_, rfl, rfl, h3, rfl, rfl⟩
        intro hnil
        exact h2 (by rw [hnil]; rfl)
      · exact absurd h (by simp)
  · exact absurd h (by simp)

/-- A clamped weight is not negative when the lower bound is not. -/
theorem clamp_nonneg (mn mx a : ℚ) (hmn : 0 ≤ mn) (hmx : 0 ≤ mx) :
    0 ≤ roulette_wheel.clamp mn mx a := by
  unfold roulette_wheel.clamp
  dsimp only
  split
  · exact hmn
  · split
    · exact hmx
    · exact abs_nonneg a

/-- With `min <= max` the clamping statements compute
`min(max(|a|, min), max)`, a value in `[min, max]`. -/
theorem clamp_eq_min_max (mn mx a : ℚ) (h : mn ≤ mx) :
    roulette_wheel.clamp mn mx a = min (max |a| mn) mx := by
  unfold roulette_wheel.clamp
  dsimp only
  split
  · next h1 => rw [max_eq_right (le_of_lt h1), min_eq_left h]
  · next h1 =>
    rw [max_eq_left (not_lt.mp h1)]
    split
    · next h2 => rw [min_eq_right (le_of_lt h2)]
    · next h2 => rw [min_eq_left (not_lt.mp h2)]

/-- With `min <= max` a clamped weight lies in `[min, max]`. -/
theorem clamp_mem (mn mx a : ℚ) (h : mn ≤ mx) :
    mn ≤ roulette_wheel.clamp mn mx a ∧ roulette_wheel.clamp mn mx a ≤ mx := by
  rw [clamp_eq_min_max mn mx a h]
  exact ⟨le_min (le_max_right _ _) h, min_le_right _ _⟩

/-- A successfully constructed wheel is consistent. -/
theorem create_consistent (a_weights : List ℚ) (a_min_weight a_max_weight : ℚ)
    (w : roulette_wheel)
    (h : roulette_wheel.create a_weights a_min_weight a_max_weight = Except.ok w) :
    w.consistent := by
  obtain ⟨_, hne, hw, htot, _, _, _⟩ := create_ok _ _ _ _ h
  refine ⟨?_, ?_, htot⟩
  · rw [hw]; simpa using hne
  · intro x hx
    rw [hw, List.mem_map] at hx
    obtain ⟨a, _, rfl⟩ := hx
    exact clamp_nonneg _ _ _ (abs_nonneg _) (abs_nonneg _)

/-- C13: constructing a wheel from a weight vector fails with a validation
error, and yields no wheel, whenever the weight sequence is empty, or the given
minimum is not below the given maximum, or the sum of the clamped weights is
not strictly positive. -/
theorem C13_construction_fails (a_weights : List ℚ) (a_min_weight a_max_weight : ℚ)
    (h : a_weights = [] ∨ a_max_weight ≤ a_min_weight
      ∨ (a_weights.map (roulette_wheel.clamp |a_min_weight| |a_max_weight|)).sum ≤ 0) :
    (∃ message, roulette_wheel.create a_weights a_min_weight a_max_weight
        = Except.error message)
      ∧ ∀ w, roulette_wheel.create a_weights a_min_weight a_max_weight ≠ Except.ok w := by
  have hno : ∀ w, roulette_wheel.create a_weights a_min_weight a_max_weight ≠ Except.ok w := by
    intro w hw
    obtain ⟨h1, h2, h3, h4, h5, _, _⟩ := create_ok _ _ _ _ hw
    rcases h with h | h | h
    · exact h2 h
    · exact absurd h1 (not_lt.mpr h)
    · rw [h4, h3] at h5
      exact absurd h5 (not_lt.mpr h)
  refine ⟨?_, hno⟩
  cases hc : roulette_wheel.create a_weights a_min_weight a_max_weight with
  | error e => exact ⟨e, rfl⟩
  | ok w => exact absurd hc (hno w)

/-- C13 on an empty weight vector, on bounds in the wrong order and on a zero
total. -/
theorem C13_construction_fails_witness :
    roulette_wheel.create [] DBL_EPSILON DBL_MAX
        = Except.error "Roulette wheel can not have zero size"
      ∧ roulette_wheel.create [1, 3] 2 2
        = Except.error "Minimum weight must be less than maximum"
      ∧ roulette_wheel.create [0, 0] 0 1
        = Except.error "Roulette wheel must have a total weight > zero"
      ∧ ((∃ message, roulette_wheel.create [0, 0] 0 1 = Except.error message)
        ∧ ∀ w, roulette_wheel.create [0, 0] 0 1 ≠ Except.ok w) := by
  refine ⟨by decide!, by decide!, by decide!, ?_⟩
  exact C13_construction_fails [0, 0] 0 1 (Or.inr (Or.inr (by decide!)))

/-- C14: when construction from the weight vector `W` with bounds
`0 <= min < max` succeeds, `get_weight(i)` is `min(max(|W[i]|, min), max)` for
every index below the size, `get_size()` is the length of `W`, and the stored
total is the sum of these clamped weights. -/
theorem C14_constructed_weights (a_weights : List ℚ) (a_min_weight a_max_weight : ℚ)
    (w : roulette_wheel) (hmin : 0 ≤ a_min_weight) (hlt : a_min_weight < a_max_weight)
    (h : roulette_wheel.create a_weights a_min_weight a_max_weight = Except.ok w) :
    (∀ i, i < a_weights.length →
        w.get_weight i
          = Except.ok (min (max |a_weights.getD i 0| a_min_weight) a_max_weight))
      ∧ w.get_size = a_weights.length
      ∧ w.m_total_weight
        = (a_weights.map (fun x => min (max |x| a_min_weight) a_max_weight)).sum := by
  obtain ⟨_, _, hw, htot, _, _, _⟩ := create_ok _ _ _ _ h
  have hmn : |a_min_weight| = a_min_weight := abs_of_nonneg hmin
  have hmx : |a_max_weight| = a_max_weight := abs_of_nonneg (le_trans hmin (le_of_lt hlt))
  have hclamp : roulette_wheel.clamp |a_min_weight| |a_max_weight|
      = fun x => min (max |x| a_min_weight) a_max_weight := by
    funext x
    rw [hmn, hmx, clamp_eq_min_max _ _ _ (le_of_lt hlt)]
  rw [hclamp] at hw
  have hsize : w.get_size = a_weights.length := by
    rw [roulette_wheel.get_size, hw, List.length_map]
  refine ⟨?_, hsize, by rw [htot, hw]⟩
  intro i hi
  have hi' : i < w.get_size := by rw [hsize]; exact hi
  simp only [roulette_wheel.get_weight, validate_less, if_pos hi']
  rw [hw, List.getD_eq_getElem _ _ (by rw [List.length_map]; exact hi),
    List.getD_eq_getElem _ _ hi, List.getElem_map]

/-- C14 on the weights -1, 3, 200 with the bounds 2 and 100: the stored weights
are 2, 3, 100 and the total is 105. -/
theorem C14_constructed_weights_witness :
    ∃ w, roulette_wheel.create [-1, 3, 200] 2 100 = Except.ok w
      ∧ w.m_weights = [2, 3, 100] ∧ w.m_total_weight = 105
      ∧ w.get_weight 0 = Except.ok (min (max |(-1 : ℚ)| 2) 100)
      ∧ w.get_size = 3 := by
  have hc : roulette_wheel.create [-1, 3, 200] 2 100
      = Except.ok { m_weights := [2, 3, 100], m_total_weight := 105,
                    m_min_weight := 2, m_max_weight := 100 } := by decide!
  have key := C14_constructed_weights [-1, 3, 200] 2 100 _ (by norm_num) (by norm_num) hc
  exact ⟨_, hc, rfl, rfl, key.1 0 (by decide), key.2.1⟩

/-- Replacing the element at a valid index changes the sum by the difference. -/
theorem sum_set (l : List ℚ) (i : Nat) (a : ℚ) (hi : i < l.length) :
    (l.set i a).sum = l.sum - l.getD i 0 + a := by
  induction l generalizing i with
  | nil => simp at hi
  | cons x t ih =>
    cases i with
    | zero => simp; ring
    | succ j =>
      have hj : j < t.length := by simpa using hi
      simp only [List.set_cons_succ, List.sum_cons, ih j hj, List.getD_cons_succ]
      ring

/-- What `set_weight` does at a valid index: it returns the weight stored
there, stores the clamped value there, and moves the total by the difference. -/
theorem set_weight_valid (w : roulette_wheel) (i : Nat) (v : ℚ) (hi : i < w.get_size) :
    w.set_weight i v
      = (Except.ok (w.m_weights.getD i 0),
         { m_weights := w.m_weights.set i (roulette_wheel.clamp w.m_min_weight w.m_max_weight v),
           m_total_weight := w.m_total_weight - w.m_weights.getD i 0
              + roulette_wheel.clamp w.m_min_weight w.m_max_weight v,
           m_min_weight := w.m_min_weight, m_max_weight := w.m_max_weight }) := by
  simp only [roulette_wheel.set_weight, validate_less, if_pos hi]

/-- What `set_weight` does at an invalid index: a validation error, and the
wheel is left as it was. -/
theorem set_weight_invalid (w : roulette_wheel) (i : Nat) (v : ℚ) (hi : w.get_size ≤ i) :
    w.set_weight i v = (Except.error "invalid roulette wheel index", w) := by
  simp only [roulette_wheel.set_weight, validate_less, if_neg (not_lt.mpr hi)]

/-- One `set_weight` call keeps the bounds, keeps every weight within ordered
bounds, keeps the list of weights non-empty and keeps the total equal to the
sum of the weights. -/
theorem set_weight_keeps (w : roulette_wheel) (i : Nat) (v : ℚ)
    (hord : w.m_min_weight ≤ w.m_max_weight) (hne : w.m_weights ≠ [])
    (hin : ∀ x ∈ w.m_weights, w.m_min_weight ≤ x ∧ x ≤ w.m_max_weight)
    (htot : w.m_total_weight = w.m_weights.sum) :
    (w.set_weight i v).2.m_min_weight = w.m_min_weight
      ∧ (w.set_weight i v).2.m_max_weight = w.m_max_weight
      ∧ (w.set_weight i v).2.m_weights ≠ []
      ∧ (∀ x ∈ (w.set_weight i v).2.m_weights, w.m_min_weight ≤ x ∧ x ≤ w.m_max_weight)
      ∧ (w.set_weight i v).2.m_total_weight = (w.set_weight i v).2.m_weights.sum := by
  by_cases hi : i < w.get_size
  · rw [set_weight_valid w i v hi]
    refine ⟨rfl, rfl, ?_, ?_, ?_⟩
    · intro h
      have hl := congrArg List.length h
      simp only [List.length_set, List.length_nil] at hl
      exact hne (List.length_eq_zero.mp hl)
    · intro x hx
      rcases List.mem_or_eq_of_mem_set hx with hx | rfl
      · exact hin x hx
      · exact clamp_mem _ _ _ hord
    · simp only
      rw [sum_set _ _ _ hi, htot]
  · rw [set_weight_invalid w i v (not_lt.mp hi)]
    exact ⟨rfl, rfl, hne, hin, htot⟩

/-- One `set_weight` call keeps a wheel consistent, whatever the order of its
stored bounds (which are absolute values, hence not negative). -/
theorem set_weight_consistent (w : roulette_wheel) (i : Nat) (v : ℚ) (hw : w.consistent)
    (hmn : 0 ≤ w.m_min_weight) (hmx : 0 ≤ w.m_max_weight) :
    (w.set_weight i v).2.consistent := by
  by_cases hi : i < w.get_size
  · rw [set_weight_valid w i v hi]
    refine ⟨?_, ?_, ?_⟩
    · intro h
      have hl := congrArg List.length h
      simp only [List.length_set, List.length_nil] at hl
      exact hw.1 (List.length_eq_zero.mp hl)
    · intro x hx
      rcases List.mem_or_eq_of_mem_set hx with hx | rfl
      · exact hw.2.1 x hx
      · exact clamp_nonneg _ _ _ hmn hmx
    · simp only
      rw [sum_set _ _ _ hi, hw.2.2]
  · rw [set_weight_invalid w i v (not_lt.mp hi)]
    exact hw

/-- Any sequence of `set_weight` calls keeps what one call keeps. -/
theorem set_weights_keep (calls : List (Nat × ℚ)) (w : roulette_wheel)
    (hord : w.m_min_weight ≤ w.m_max_weight) (hne : w.m_weights ≠ [])
    (hin : ∀ x ∈ w.m_weights, w.m_min_weight ≤ x ∧ x ≤ w.m_max_weight)
    (htot : w.m_total_weight = w.m_weights.sum) :
    (w.set_weights calls).m_min_weight = w.m_min_weight
      ∧ (w.set_weights calls).m_max_weight = w.m_max_weight
      ∧ (w.set_weights calls).m_weights ≠ []
      ∧ (∀ x ∈ (w.set_weights calls).m_weights, w.m_min_weight ≤ x ∧ x ≤ w.m_max_weight)
      ∧ (w.set_weights calls).m_total_weight = (w.set_weights calls).m_weights.sum := by
  induction calls generalizing w with
  | nil => exact ⟨rfl, rfl, hne, hin, htot⟩
  | cons call rest ih =>
    obtain ⟨k1, k2, k3, k4, k5⟩ := set_weight_keeps w call.1 call.2 hord hne hin htot
    have key := ih (w.set_weight call.1 call.2).2 (by rw [k1, k2]; exact hord) k3
      (by rw [k1, k2]; exact k4) k5
    rw [k1, k2] at key
    exact key

/-- C12 fails on the code. The creation constructor validates the bounds it
is given, -5 < 1, but stores their absolute values: the wheel built from the
weight 3 has `min_weight = 5`, `max_weight = 1` and the stored weight 5, above
`max_weight`. The constructor also accepts the minimum 0 without the test
`min_weight > 0`: the wheel built from the weight 1 with the bounds 0 and 1 has
the total 1, and after `set_weight(0, 0)` its total weight is 0, not strictly
positive. -/
theorem C12_invariant_broken :
    (∃ w, roulette_wheel.create [3] (-5) 1 = Except.ok w
        ∧ w.m_min_weight = 5 ∧ w.m_max_weight = 1 ∧ w.m_weights = [5]
        ∧ ¬ w.m_min_weight < w.m_max_weight
        ∧ ¬ ∀ x ∈ w.m_weights, w.m_min_weight ≤ x ∧ x ≤ w.m_max_weight)
      ∧ ∃ w, roulette_wheel.create [1] 0 1 = Except.ok w
        ∧ w.m_min_weight = 0 ∧ w.m_max_weight = 1 ∧ w.m_total_weight = 1
        ∧ (w.set_weight 0 0).1 = Except.ok 1
        ∧ (w.set_weight 0 0).2.m_weights = [0]
        ∧ (w.set_weight 0 0).2.m_total_weight = 0 := by
  have hc1 : roulette_wheel.create [3] (-5) 1
      = Except.ok { m_weights := [5], m_total_weight := 5,
                    m_min_weight := 5, m_max_weight := 1 } := by decide!
  have hc2 : roulette_wheel.create [1] 0 1
      = Except.ok { m_weights := [1], m_total_weight := 1,
                    m_min_weight := 0, m_max_weight := 1 } := by decide!
  refine ⟨⟨_, hc1, rfl, rfl, rfl, by decide!, by decide!⟩,
    ⟨_, hc2, rfl, rfl, rfl, by decide!, by decide!, by decide!⟩⟩

/-- Where the code agrees with C12: after every successful construction with a
given minimum that is not negative, and after every sequence of subsequent
`set_weight` calls, the stored bounds are the given ones with `0 <= min_weight <
max_weight`, every stored weight lies in `[min_weight, max_weight]`, and the
total weight is the sum of the stored weights; the total is strictly positive
right after construction, and after `set_weight` calls it is not negative, and
strictly positive when `min_weight > 0`. -/
theorem wheel_invariant_of_nonneg_min (a_weights : List ℚ) (a_min_weight a_max_weight : ℚ)
    (w : roulette_wheel) (calls : List (Nat × ℚ)) (hmin : 0 ≤ a_min_weight)
    (h : roulette_wheel.create a_weights a_min_weight a_max_weight = Except.ok w) :
    0 < w.m_total_weight
      ∧ (w.set_weights calls).m_min_weight = a_min_weight
      ∧ (w.set_weights calls).m_max_weight = a_max_weight
      ∧ 0 ≤ (w.set_weights calls).m_min_weight
      ∧ (w.set_weights calls).m_min_weight < (w.set_weights calls).m_max_weight
      ∧ (∀ x ∈ (w.set_weights calls).m_weights,
          (w.set_weights calls).m_min_weight ≤ x ∧ x ≤ (w.set_weights calls).m_max_weight)
      ∧ (w.set_weights calls).m_total_weight = (w.set_weights calls).m_weights.sum
      ∧ 0 ≤ (w.set_weights calls).m_total_weight
      ∧ (0 < a_min_weight → 0 < (w.set_weights calls).m_total_weight) := by
  obtain ⟨hlt, hne, hw, htot, hpos, hmn, hmx⟩ := create_ok _ _ _ _ h
  have hmn' : w.m_min_weight = a_min_weight := by rw [hmn, abs_of_nonneg hmin]
  have hmx' : w.m_max_weight = a_max_weight := by
    rw [hmx, abs_of_nonneg (le_trans hmin (le_of_lt hlt))]
  have hord : w.m_min_weight ≤ w.m_max_weight := by rw [hmn', hmx']; exact le_of_lt hlt
  have hne' : w.m_weights ≠ [] := by rw [hw]; simpa using hne
  have hin : ∀ x ∈ w.m_weights, w.m_min_weight ≤ x ∧ x ≤ w.m_max_weight := by
    intro x hx
    rw [hw, List.mem_map] at hx
    obtain ⟨y, _, rfl⟩ := hx
    rw [hmn, hmx]
    rw [hmn, hmx] at hord
    exact clamp_mem _ _ _ hord
  obtain ⟨k1, k2, k3, k4, k5⟩ := set_weights_keep calls w hord hne' hin htot
  rw [hmn'] at k1
  rw [hmx'] at k2
  rw [hmn', hmx'] at k4
  refine ⟨hpos, k1, k2, by rw [k1]; exact hmin, by rw [k1, k2]; exact hlt,
    by rw [k1, k2]; exact k4, k5, ?_, ?_⟩
  · rw [k5]
    exact List.sum_nonneg (fun x hx => le_trans hmin (k4 x hx).1)
  · intro hpos'
    rw [k5]
    exact List.sum_pos _ (fun x hx => lt_of_lt_of_le hpos' (k4 x hx).1) k3

/-- The invariant on the wheel of the weights 1, 3 with the default bounds,
after `set_weight(0, 0)`, a failing `set_weight(7, 1)` and `set_weight(1, 2)`. -/
theorem wheel_invariant_of_nonneg_min_example :
    ∃ w, roulette_wheel.create [1, 3] DBL_EPSILON DBL_MAX = Except.ok w
      ∧ (w.set_weights [(0, 0), (7, 1), (1, 2)]).m_weights = [DBL_EPSILON, 2]
      ∧ (w.set_weights [(0, 0), (7, 1), (1, 2)]).m_total_weight
          = (w.set_weights [(0, 0), (7, 1), (1, 2)]).m_weights.sum
      ∧ 0 < (w.set_weights [(0, 0), (7, 1), (1, 2)]).m_total_weight := by
  have hc : roulette_wheel.create [1, 3] DBL_EPSILON DBL_MAX = Except.ok sample_wheel := by
    decide!
  have key := wheel_invariant_of_nonneg_min [1, 3] DBL_EPSILON DBL_MAX _ [(0, 0), (7, 1), (1, 2)]
    (by decide!) hc
  exact ⟨_, hc, by decide!, key.2.2.2.2.2.2.1, key.2.2.2.2.2.2.2.2 (by decide!)⟩

/-- Where the code agrees with C18: on a wheel whose stored bounds are ordered
(`min_weight <= max_weight`), `set_weight` at a valid index returns the weight
stored there, stores `min(max(|v|, min_weight), max_weight)` there, moves the
total by the difference, so that a total equal to the sum of the weights stays
so, and leaves the other weights, the size and the bounds as they were. -/
theorem set_weight_on_ordered_bounds (w : roulette_wheel) (i : Nat) (v : ℚ)
    (hi : i < w.get_size) (hord : w.m_min_weight ≤ w.m_max_weight) :
    (w.set_weight i v).1 = Except.ok (w.m_weights.getD i 0)
      ∧ (w.set_weight i v).2.m_weights.getD i 0
          = min (max |v| w.m_min_weight) w.m_max_weight
      ∧ (w.set_weight i v).2.m_total_weight
          = w.m_total_weight
            + (min (max |v| w.m_min_weight) w.m_max_weight - w.m_weights.getD i 0)
      ∧ (w.m_total_weight = w.m_weights.sum →
          (w.set_weight i v).2.m_total_weight = (w.set_weight i v).2.m_weights.sum)
      ∧ (∀ j, j ≠ i → (w.set_weight i v).2.m_weights.getD j 0 = w.m_weights.getD j 0)
      ∧ (w.set_weight i v).2.get_size = w.get_size
      ∧ (w.set_weight i v).2.m_min_weight = w.m_min_weight
      ∧ (w.set_weight i v).2.m_max_weight = w.m_max_weight := by
  rw [set_weight_valid w i v hi, clamp_eq_min_max _ _ _ hord]
  have hi' : i < w.m_weights.length := hi
  refine ⟨rfl, ?_, ?_, ?_, ?_, ?_, rfl, rfl⟩
  · simp only
    rw [List.getD_eq_getElem _ _ (by rw [List.length_set]; exact hi'), List.getElem_set_self]
  · simp only
    ring
  · intro htot
    simp only
    rw [sum_set _ _ _ hi', htot]
  · intro j hj
    simp only [List.getD_eq_getElem?_getD, List.getElem?_set_ne hj.symm]
  · simp only [roulette_wheel.get_size, List.length_set]

/-- C18 fails on the code: the creation constructor validates the bounds it is
given, -5 < 1, but stores their absolute values, `min_weight = 5` and
`max_weight = 1`; on that wheel `set_weight(0, 2)` stores 5, where
`min(max(|2|, min_weight), max_weight)` is 1. -/
theorem C18_set_weight_on_misordered_bounds :
    ∃ w, roulette_wheel.create [3] (-5) 1 = Except.ok w
      ∧ w.m_min_weight = 5 ∧ w.m_max_weight = 1
      ∧ w.set_weight 0 2
          = (Except.ok 5, { m_weights := [5], m_total_weight := 5,
                            m_min_weight := 5, m_max_weight := 1 })
      ∧ min (max |(2 : ℚ)| w.m_min_weight) w.m_max_weight = 1 := by
  have hc : roulette_wheel.create [3] (-5) 1
      = Except.ok { m_weights := [5], m_total_weight := 5,
                    m_min_weight := 5, m_max_weight := 1 } := by decide!
  refine ⟨_, hc, rfl, rfl, by decide!, by decide!⟩

/-- C19: for every wheel and every index `i >= size`, `set_weight(i, v)` and
`get_weight(i)` fail with a validation error, and the wheel after the failed
call is the wheel before it. -/
theorem C19_invalid_index (w : roulette_wheel) (i : Nat) (v : ℚ) (hi : w.get_size ≤ i) :
    (w.set_weight i v).1 = Except.error "invalid roulette wheel index"
      ∧ (w.set_weight i v).2 = w
      ∧ w.get_weight i = Except.error "invalid roulette wheel index" := by
  rw [set_weight_invalid w i v hi]
  refine ⟨rfl, rfl, ?_⟩
  simp only [roulette_wheel.get_weight, validate_less, if_neg (not_lt.mpr hi)]

/-- C19 on the wheel of the weights 1, 3 at the index 2, its size. -/
theorem C19_invalid_index_witness :
    sample_wheel.get_size ≤ 2
      ∧ (sample_wheel.set_weight 2 9).1 = Except.error "invalid roulette wheel index"
      ∧ (sample_wheel.set_weight 2 9).2 = sample_wheel
      ∧ sample_wheel.get_weight 2 = Except.error "invalid roulette wheel index" :=
  ⟨by decide, C19_invalid_index sample_wheel 2 9 (by decide)⟩

/-- The scan from index `i` is the scan from index 0, shifted by `i`. -/
theorem scan_shift (l : List ℚ) (c : ℚ) (i : Nat) :
    roulette_wheel.scan l c i = i + roulette_wheel.scan l c 0 := by
  induction l generalizing c i with
  | nil => rfl
  | cons x t ih =>
    simp only [roulette_wheel.scan]
    split
    · rw [ih (c - x) (i + 1), ih (c - x) (0 + 1)]; omega
    · rfl

/-- What the scan returns: an index `r` not beyond the end, such that every
running sum before `r` is below the choice and, unless the scan ran off the
end, the running sum at `r` is not. -/
theorem scan_spec (l : List ℚ) (c : ℚ) :
    roulette_wheel.scan l c 0 ≤ l.length
      ∧ (∀ j, j < roulette_wheel.scan l c 0 → (l.take (j + 1)).sum < c)
      ∧ (roulette_wheel.scan l c 0 < l.length →
          c ≤ (l.take (roulette_wheel.scan l c 0 + 1)).sum) := by
  induction l generalizing c with
  | nil => simp [roulette_wheel.scan]
  | cons x t ih =>
    simp only [roulette_wheel.scan]
    split
    · next hgt =>
      obtain ⟨h1, h2, h3⟩ := ih (c - x)
      rw [scan_shift t (c - x) (0 + 1)]
      refine ⟨by simp only [List.length_cons]; omega, ?_, ?_⟩
      · intro j hj
        cases j with
        | zero => simpa using hgt
        | succ k =>
          have := h2 k (by omega)
          simp only [List.take_succ_cons, List.sum_cons]
          linarith
      · intro hlt
        have := h3 (by simp only [List.length_cons] at hlt; omega)
        have hidx : 0 + 1 + roulette_wheel.scan t (c - x) 0 + 1
            = (roulette_wheel.scan t (c - x) 0 + 1) + 1 := by omega
        rw [hidx]
        simp only [List.take_succ_cons, List.sum_cons]
        linarith
    · next hle =>
      refine ⟨Nat.zero_le _, fun j hj => absurd hj (Nat.not_lt_zero j), ?_⟩
      intro _
      simpa using not_lt.mp hle

/-- Running sums of weights that are not negative grow with the index. -/
theorem sum_take_mono (l : List ℚ) (hl : ∀ x ∈ l, 0 ≤ x) (a b : Nat) (hab : a ≤ b) :
    (l.take a).sum ≤ (l.take b).sum := by
  have hsplit : l.take b = l.take a ++ (l.take b).drop a := by
    have h := List.take_append_drop a (l.take b)
    rw [List.take_take, min_eq_left hab] at h
    exact h.symm
  rw [hsplit, List.sum_append]
  have hnn : 0 ≤ ((l.take b).drop a).sum :=
    List.sum_nonneg (fun x hx => hl x (List.mem_of_mem_take (List.mem_of_mem_drop hx)))
  linarith

/-- On a consistent wheel a draw below 1 never runs off the end. -/
theorem get_index_lt (w : roulette_wheel) (hw : w.consistent) (u : ℚ) (h1 : u < 1) :
    w.get_index u < w.get_size := by
  obtain ⟨hne, hnn, htot⟩ := hw
  obtain ⟨hle, hbelow, _⟩ := scan_spec w.m_weights (u * w.m_total_weight)
  have hlen : 0 < w.m_weights.length := List.length_pos.mpr hne
  by_contra hcon
  have heq : roulette_wheel.scan w.m_weights (u * w.m_total_weight) 0 = w.m_weights.length :=
    le_antisymm hle (not_lt.mp hcon)
  have hlast := hbelow (w.m_weights.length - 1) (by rw [heq]; omega)
  rw [Nat.sub_add_cancel hlen, List.take_length, ← htot] at hlast
  have hT : 0 ≤ w.m_total_weight := by rw [htot]; exact List.sum_nonneg hnn
  nlinarith

/-- The index `get_index` returns on a consistent wheel for a draw below 1:
valid, its running sum not below the draw value, every earlier running sum
below it. -/
theorem get_index_bounds (w : roulette_wheel) (hw : w.consistent) (u : ℚ) (h1 : u < 1) :
    w.get_index u < w.get_size
      ∧ u * w.m_total_weight ≤ w.running_sum (w.get_index u)
      ∧ (∀ j, j < w.get_index u → w.running_sum j < u * w.m_total_weight)
      ∧ (∀ k, u * w.m_total_weight = w.running_sum k → w.get_index u ≤ k) := by
  have hlt := get_index_lt w hw u h1
  obtain ⟨_, hbelow, hat⟩ := scan_spec w.m_weights (u * w.m_total_weight)
  refine ⟨hlt, hat hlt, hbelow, ?_⟩
  intro k hk
  by_contra hcon
  have := hbelow k (not_le.mp hcon)
  rw [roulette_wheel.running_sum] at hk
  rw [hk] at this
  exact lt_irrefl _ this

/-- C15: for every wheel (a weight list that is not empty, no negative weight,
total equal to the sum) and every draw value `c = u * total_weight` with
`0 <= u < 1` (only `u < 1` is needed), `get_index` returns a valid index `i`,
the smallest with `c <= w[0] + ... + w[i]`; hence when `c` equals a running sum
exactly, the index returned is not beyond the index of that sum. -/
theorem C15_get_index_smallest (w : roulette_wheel) (hw : w.consistent) (u : ℚ)
    (h1 : u < 1) :
    w.get_index u < w.get_size
      ∧ u * w.m_total_weight ≤ w.running_sum (w.get_index u)
      ∧ (∀ j, j < w.get_index u → w.running_sum j < u * w.m_total_weight)
      ∧ (∀ k, u * w.m_total_weight = w.running_sum k → w.get_index u ≤ k) :=
  get_index_bounds w hw u h1

/-- C15 on the wheel of the weights 1, 3 and the draw 1/4, for which the draw
value equals the first running sum: index 0 is returned. -/
theorem C15_get_index_smallest_witness :
    sample_wheel.consistent ∧ (1 / 4 : ℚ) * sample_wheel.m_total_weight = sample_wheel.running_sum 0
      ∧ sample_wheel.get_index (1 / 4) = 0
      ∧ sample_wheel.get_index (1 / 4) < sample_wheel.get_size := by
  have hcons : sample_wheel.consistent := by
    refine ⟨by decide, ?_, by decide!⟩
    intro x hx
    simp only [sample_wheel, List.mem_cons, List.mem_singleton, List.mem_nil_iff,
      or_false] at hx
    rcases hx with rfl | rfl <;> norm_num
  have hsum : (1 / 4 : ℚ) * sample_wheel.m_total_weight = sample_wheel.running_sum 0 := by
    decide!
  have key := C15_get_index_smallest sample_wheel hcons (1 / 4) (by norm_num)
  exact ⟨hcons, hsum, Nat.le_zero.mp (key.2.2.2 0 hsum), key.1⟩

/-- The scan runs off the end when the choice exceeds every running sum: it
returns the number of weights. -/
theorem scan_overrun (l : List ℚ) (hl : ∀ x ∈ l, 0 ≤ x) (c : ℚ) (hc : l.sum < c) :
    roulette_wheel.scan l c 0 = l.length := by
  obtain ⟨hle, _, hat⟩ := scan_spec l c
  by_contra hne
  have hlt : roulette_wheel.scan l c 0 < l.length := lt_of_le_of_ne hle hne
  have h1 := hat hlt
  have h2 := sum_take_mono l hl (roulette_wheel.scan l c 0 + 1) l.length (by omega)
  rw [List.take_length] at h2
  linarith

/-- C16 fails on the code: when the draw value exceeds the sum of the weights
the scan ends with `i == m_size` and `get_index` returns the size of the wheel,
one past the last valid index.  The weights are the doubles 0.1, 0.2, 0.3, the
total is the double that their rounded additions give (0.6000000000000001),
and the draw is 1.0. -/
theorem C16_get_index_overrun :
    (({ m_weights := [3602879701896397 / 2 ^ 55, 3602879701896397 / 2 ^ 54,
                       5404319552844595 / 2 ^ 54],
        m_total_weight := 1351079888211149 / 2 ^ 51,
        m_min_weight := DBL_EPSILON, m_max_weight := DBL_MAX } : roulette_wheel).get_index 1 = 3)
      ∧ roulette_wheel.scan [1, 3] 5 0 = 2 := by
  constructor <;> decide!

/-- On a consistent wheel and for a draw below 1, `get_index` returns `i`
exactly when the draw value lies above the sum of the weights before `i` (no
condition for `i = 0`) and not above the running sum at `i`. -/
theorem get_index_eq_iff (w : roulette_wheel) (hw : w.consistent) (u : ℚ) (h1 : u < 1)
    (i : Nat) (hi : i < w.get_size) :
    w.get_index u = i
      ↔ (i = 0 ∨ (w.m_weights.take i).sum < u * w.m_total_weight)
        ∧ u * w.m_total_weight ≤ w.running_sum i := by
  obtain ⟨hlt, hat, hbelow, _⟩ := get_index_bounds w hw u h1
  constructor
  · intro h
    subst h
    refine ⟨?_, hat⟩
    by_cases hz : w.get_index u = 0
    · exact Or.inl hz
    · right
      have := hbelow (w.get_index u - 1) (by omega)
      rw [roulette_wheel.running_sum, Nat.sub_add_cancel (by omega)] at this
      exact this
  · rintro ⟨hlo, hhi⟩
    rcases Nat.lt_trichotomy (w.get_index u) i with hlt' | heq | hgt
    · exfalso
      have hpos : (w.m_weights.take i).sum < u * w.m_total_weight := by
        rcases hlo with hz | h
        · omega
        · exact h
      have hmono := sum_take_mono w.m_weights hw.2.1 (w.get_index u + 1) i (by omega)
      rw [roulette_wheel.running_sum] at hat
      linarith
    · exact heq
    · exfalso
      have := hbelow i hgt
      linarith

/-- C17: fitness-proportional sampling. For every wheel with strictly positive
weights and every index `i`, the draws `u` in `[0, 1)` for which `get_index`
returns `i` form the interval from `(w[0] + ... + w[i-1]) / total` to
`(w[0] + ... + w[i]) / total` (closed at the left end for `i = 0`, open there
otherwise, closed at the right end, cut to `[0, 1)`); the end points lie in
`[0, 1]` and differ by `w[i] / total`. -/
theorem C17_proportional_intervals (w : roulette_wheel) (hw : w.consistent)
    (hpos : ∀ x ∈ w.m_weights, 0 < x) (i : Nat) (hi : i < w.get_size) :
    w.running_sum i / w.m_total_weight - (w.m_weights.take i).sum / w.m_total_weight
        = w.m_weights.getD i 0 / w.m_total_weight
      ∧ 0 ≤ (w.m_weights.take i).sum / w.m_total_weight
      ∧ w.running_sum i / w.m_total_weight ≤ 1
      ∧ {u : ℚ | 0 ≤ u ∧ u < 1 ∧ w.get_index u = i}
        = (if i = 0 then
            Set.Icc ((w.m_weights.take i).sum / w.m_total_weight)
              (w.running_sum i / w.m_total_weight)
          else
            Set.Ioc ((w.m_weights.take i).sum / w.m_total_weight)
              (w.running_sum i / w.m_total_weight))
          ∩ Set.Ico 0 1 := by
  have hT : 0 < w.m_total_weight := by
    rw [hw.2.2]
    exact List.sum_pos _ hpos hw.1
  have hi' : i < w.m_weights.length := hi
  have hsucc : w.running_sum i = (w.m_weights.take i).sum + w.m_weights.getD i 0 := by
    rw [roulette_wheel.running_sum, List.sum_take_succ _ _ hi', List.getD_eq_getElem _ _ hi']
  have hlo : 0 ≤ (w.m_weights.take i).sum :=
    List.sum_nonneg (fun x hx => hw.2.1 x (List.mem_of_mem_take hx))
  have hhi : w.running_sum i ≤ w.m_total_weight := by
    have := sum_take_mono w.m_weights hw.2.1 (i + 1) w.m_weights.length (by omega)
    rw [List.take_length, ← hw.2.2] at this
    exact this
  refine ⟨?_, div_nonneg hlo (le_of_lt hT), (div_le_one hT).mpr hhi, ?_⟩
  · rw [hsucc]; ring
  · ext u
    simp only [Set.mem_setOf_eq, Set.mem_inter_iff, Set.mem_Ico]
    constructor
    · rintro ⟨h0, h1, hidx⟩
      have key := (get_index_eq_iff w hw u h1 i hi).mp hidx
      refine ⟨?_, h0, h1⟩
      split
      · next hz =>
        rw [Set.mem_Icc]
        refine ⟨?_, (le_div_iff₀ hT).mpr key.2⟩
        subst hz
        simpa using h0
      · next hz =>
        rw [Set.mem_Ioc]
        rcases key.1 with h | h
        · exact absurd h hz
        · exact ⟨(div_lt_iff₀ hT).mpr h, (le_div_iff₀ hT).mpr key.2⟩
    · rintro ⟨hmem, h0, h1⟩
      refine ⟨h0, h1, (get_index_eq_iff w hw u h1 i hi).mpr ?_⟩
      split at hmem
      · next hz =>
        rw [Set.mem_Icc] at hmem
        exact ⟨Or.inl hz, (le_div_iff₀ hT).mp hmem.2⟩
      · next hz =>
        rw [Set.mem_Ioc] at hmem
        exact ⟨Or.inr ((div_lt_iff₀ hT).mp hmem.1), (le_div_iff₀ hT).mp hmem.2⟩

/-- C17 on the wheel of the weights 1, 3: index 1 is returned exactly for the
draws `u > 1/4` of `[0, 1)`, an interval of length `3/4`. -/
theorem C17_proportional_intervals_witness :
    sample_wheel.consistent ∧ (∀ x ∈ sample_wheel.m_weights, 0 < x)
      ∧ sample_wheel.m_weights.getD 1 0 / sample_wheel.m_total_weight = 3 / 4
      ∧ ∀ u : ℚ, 0 ≤ u → u < 1 → (sample_wheel.get_index u = 1 ↔ 1 / 4 < u) := by
  have hcons : sample_wheel.consistent := by
    refine ⟨by decide, ?_, by decide!⟩
    intro x hx
    simp only [sample_wheel, List.mem_cons, List.mem_singleton, List.mem_nil_iff,
      or_false] at hx
    rcases hx with rfl | rfl <;> norm_num
  have hpos : ∀ x ∈ sample_wheel.m_weights, 0 < x := by
    intro x hx
    simp only [sample_wheel, List.mem_cons, List.mem_singleton, List.mem_nil_iff,
      or_false] at hx
    rcases hx with rfl | rfl <;> norm_num
  have key := (C17_proportional_intervals sample_wheel hcons hpos 1 (by decide)).2.2.2
  have hlo : (sample_wheel.m_weights.take 1).sum / sample_wheel.m_total_weight = 1 / 4 := by
    decide!
  have hhi : sample_wheel.running_sum 1 / sample_wheel.m_total_weight = 1 := by decide!
  rw [hlo, hhi, if_neg (by decide)] at key
  refine ⟨hcons, hpos, by decide!, ?_⟩
  intro u h0 h1
  have hu : u ∈ {u : ℚ | 0 ≤ u ∧ u < 1 ∧ sample_wheel.get_index u = 1}
      ↔ u ∈ Set.Ioc (1 / 4 : ℚ) 1 ∩ Set.Ico 0 1 := by rw [key]
  simp only [Set.mem_setOf_eq, Set.mem_inter_iff, Set.mem_Ioc, Set.mem_Ico] at hu
  constructor
  · intro hidx
    exact (hu.mp ⟨h0, h1, hidx⟩).1.1
  · intro hgt
    exact (hu.mpr ⟨⟨hgt, le_of_lt h1⟩, h0, h1⟩).2.2

/-- The bits of the crossover mask for a cut point below 32: the positions
from the cut point up to bit 31. -/
theorem crossover_mask_testBit (c i : Nat) (hc : c < 32) :
    ((0xFFFFFFFF <<< c) % WORD_MOD).testBit i = (decide (i < 32) && decide (c ≤ i)) := by
  unfold WORD_MOD
  rw [Nat.testBit_mod_two_pow, Nat.testBit_shiftLeft, word_testBit]
  by_cases h1 : i < 32 <;> by_cases h2 : c ≤ i <;> simp [h1, h2]
  omega

/-- One round of `crossover(float, float)` at a cut point below 32 takes the
bits from the cut point up from the first parent and the bits below it from
the second, and no bit beyond bit 31. -/
theorem crossover_round_testBit (l1 l2 c i : Nat) (hc : c < 32) :
    ((l1 &&& ((0xFFFFFFFF <<< c) % WORD_MOD))
        ||| (l2 &&& (0xFFFFFFFF ^^^ ((0xFFFFFFFF <<< c) % WORD_MOD)))).testBit i
      = if i < 32 then (if c ≤ i then l1.testBit i else l2.testBit i) else false := by
  rw [Nat.testBit_or, Nat.testBit_and, Nat.testBit_and, Nat.testBit_xor, word_testBit,
    crossover_mask_testBit c i hc]
  by_cases h1 : i < 32 <;> by_cases h2 : c ≤ i <;> simp [h1, h2]

/-- C20: single-precision `crossover` with draws in `[0, 1)`: the child it
returns is the one-point crossover of the parents at the cut point `c` of the
draw that was accepted, `0 <= c <= 31`: every child bit at a position `>= c` is
the bit of the first parent `x`, every child bit at a position `< c` is the bit
of the second parent `y` (and the child has no bit beyond bit 31). -/
theorem C20_crossover_float_one_point (x y : Nat) (draws : List ℚ)
    (hdraws : ∀ u ∈ draws, 0 ≤ u ∧ u < 1) (child : Nat) (rest : List ℚ)
    (h : evoreal.crossover_float x y draws = some (child, rest)) :
    ∃ u ∈ draws, ⌊u * 32⌋₊ < 32
      ∧ child &&& evoreal.FLT_EXP_BITS ≠ evoreal.FLT_EXP_BITS
      ∧ ∀ i, child.testBit i
          = if i < 32 then (if ⌊u * 32⌋₊ ≤ i then x.testBit i else y.testBit i) else false := by
  induction draws with
  | nil => simp [evoreal.crossover_float] at h
  | cons u us ih =>
    simp only [evoreal.crossover_float] at h
    split at h
    · obtain ⟨v, hv, hrest⟩ := ih (fun v hv => hdraws v (List.mem_cons_of_mem u hv)) h
      exact ⟨v, List.mem_cons_of_mem u hv, hrest⟩
    · next hfin =>
      simp only [Option.some.injEq, Prod.mk.injEq] at h
      have hu := hdraws u (List.mem_cons_self u us)
      have hc := floor_draw_lt u hu.1 hu.2 32 (by decide)
      simp only [Nat.cast_ofNat] at hc
      refine ⟨u, List.mem_cons_self u us, hc, ?_, ?_⟩
      · rw [← h.1]; exact hfin
      · intro i
        rw [← h.1]
        exact crossover_round_testBit x y _ i hc

/-- C20 on the parents 0x12345678 and 0x0ABCDEF0 with the draw 1/2, the cut
point 16: the child is 0x1234DEF0. -/
theorem C20_crossover_float_one_point_witness :
    (∀ u ∈ [(1 / 2 : ℚ)], 0 ≤ u ∧ u < 1)
      ∧ evoreal.crossover_float 0x12345678 0x0ABCDEF0 [1 / 2] = some (0x1234DEF0, [])
      ∧ ∃ u ∈ [(1 / 2 : ℚ)], ⌊u * 32⌋₊ < 32
        ∧ 0x1234DEF0 &&& evoreal.FLT_EXP_BITS ≠ evoreal.FLT_EXP_BITS
        ∧ ∀ i, (0x1234DEF0 : Nat).testBit i
            = if i < 32 then
                (if ⌊u * 32⌋₊ ≤ i then (0x12345678 : Nat).testBit i
                 else (0x0ABCDEF0 : Nat).testBit i)
              else false := by
  have hd : ∀ u ∈ [(1 / 2 : ℚ)], 0 ≤ u ∧ u < 1 := by
    intro u hu
    rw [List.mem_singleton] at hu
    subst hu
    norm_num
  have hc : evoreal.crossover_float 0x12345678 0x0ABCDEF0 [1 / 2] = some (0x1234DEF0, []) := by
    decide!
  exact ⟨hd, hc, C20_crossover_float_one_point 0x12345678 0x0ABCDEF0 [1 / 2] hd _ _ hc⟩

/-! ### The random number generator -/

/-- The value `next()` returns is a 64-bit value. -/
theorem next_lt (g : prng) : (prng.next g).1 < 2 ^ 64 := by
  simp only [prng.next, ULL_MOD]
  exact Nat.mod_lt _ (by norm_num)

/-- Where the code agrees with C26: `get_real` maps the value `v` of `next()`
to `v / (2 ^ 64 - 1)`, which lies in the closed range `[0, 1]`, and below 1
unless `v` is `2 ^ 64 - 1`. -/
theorem get_real_range (g : prng) :
    (prng.get_real g).1 = ((prng.next g).1 : ℚ) / (2 ^ 64 - 1)
      ∧ 0 ≤ (prng.get_real g).1 ∧ (prng.get_real g).1 ≤ 1
      ∧ ((prng.next g).1 ≠ 2 ^ 64 - 1 → (prng.get_real g).1 < 1) := by
  have hlt := next_lt g
  have hden : (18446744073709551615 : ℚ) = 2 ^ 64 - 1 := by norm_num
  have hpos : (0 : ℚ) < 2 ^ 64 - 1 := by norm_num
  have hle : ((prng.next g).1 : ℚ) ≤ 2 ^ 64 - 1 := by
    have h : (prng.next g).1 ≤ 2 ^ 64 - 1 := by omega
    have h' : ((prng.next g).1 : ℚ) ≤ ((2 ^ 64 - 1 : ℕ) : ℚ) := by exact_mod_cast h
    have hc : ((2 ^ 64 - 1 : ℕ) : ℚ) = 2 ^ 64 - 1 := by norm_num
    rw [hc] at h'
    exact h'
  simp only [prng.get_real, hden]
  refine ⟨trivial, div_nonneg (Nat.cast_nonneg _) (le_of_lt hpos), (div_le_one hpos).mpr hle, ?_⟩
  intro hne
  rw [div_lt_one hpos]
  apply lt_of_le_of_ne hle
  intro heq
  apply hne
  have hc : ((2 ^ 64 - 1 : ℕ) : ℚ) = 2 ^ 64 - 1 := by norm_num
  rw [← hc] at heq
  exact_mod_cast heq

/-- C26 fails on the code: `get_real` divides by `2 ^ 64 - 1`, so for the value
`2 ^ 64 - 1` of `next()` it returns 1, which is not in `[0, 1)`.  The generator
is a fresh one with `z` set so that the coming `next()` is `2 ^ 64 - 1`. -/
theorem C26_get_real_returns_one :
    (prng.next prng.before_top_value).1 = 2 ^ 64 - 1
      ∧ (prng.get_real prng.before_top_value).1 = 1 := by
  constructor <;> decide!

/-- C27 fails on the code: `set_seed` stores the seed in `s` and `t` only, and
`next()` overwrites `t` before reading it and never reads `s`.  Of two
generators constructed with the seed 1, one fresh and one that has produced one
value, both then seeded with 42, the first returns 8932985056925012148 and the
second 5710300428094272059. -/
theorem C27_seed_does_not_determine_sequence :
    prng.sequence ((prng.create 1).set_seed 42) 1 = [8932985056925012148]
      ∧ prng.sequence ((prng.next (prng.create 1)).2.set_seed 42) 1 = [5710300428094272059]
      ∧ prng.get_seed ((prng.create 1).set_seed 42) = 42
      ∧ prng.get_seed ((prng.next (prng.create 1)).2.set_seed 42) = 42 := by
  refine ⟨?_, ?_, ?_, ?_⟩ <;> decide

/-- C28: the default analyzer policy: `analyze` returns true if and only if
`max_iterations == 0` or the iteration number is below `max_iterations`,
whatever the population. -/
theorem C28_default_analyzer_policy {O : Type} (m_max_iterations : Nat)
    (a_population : List O) (a_iteration : Nat) :
    analyzer.analyze m_max_iterations a_population a_iteration = true
      ↔ (m_max_iterations = 0 ∨ a_iteration < m_max_iterations) := by
  unfold analyzer.analyze
  by_cases h : m_max_iterations > 0
  · simp only [h, if_true, decide_eq_true_eq]
    constructor
    · intro hlt; exact Or.inr hlt
    · rintro (h0 | hlt)
      · omega
      · exact hlt
  · simp only [h, if_false, true_iff]
    left; omega

/-! ### The default population-level test -/

/-- The loop of `landscape::test` leaves the same world and population
whatever `result` starts from, and adds to `result` the fitness values it
stores. -/
theorem test_loop_result {W G : Type} (test : W → organism G → W × organism G × ℚ)
    (l : List (organism G)) (w : W) (result : ℚ) :
    (landscape.test_loop test w l result).1 = (landscape.test_loop test w l 0).1
      ∧ (landscape.test_loop test w l result).2.1 = (landscape.test_loop test w l 0).2.1
      ∧ (landscape.test_loop test w l result).2.2
          = result + ((landscape.test_loop test w l 0).2.1.map organism.fitness).sum := by
  induction l generalizing w result with
  | nil => simp [landscape.test_loop]
  | cons o rest ih =>
    simp only [landscape.test_loop, List.map_cons, List.sum_cons]
    obtain ⟨h1, h2, h3⟩ := ih (test w o).1 (result + (test w o).2.2)
    obtain ⟨k1, k2, _⟩ := ih (test w o).1 (0 + (test w o).2.2)
    refine ⟨by rw [h1, k1], by rw [h2, k2], ?_⟩
    rw [h3, k2]
    ring

/-- C29 fails on the code: the function ends with `return 0.0` under its own
comment `return average fitness`, so what the loop adds up in `result` is
never returned.  With a single-organism test that returns 1 for every
organism, the default population-level test stores the fitness values 1, 1, 1,
whose sum is 3, and returns 0. -/
theorem C29_population_test_returns_zero :
    (landscape.test (fun (w : Unit) (o : organism Unit) => (w, o, (1 : ℚ))) ()
        sample_population).2.1.map organism.fitness = [1, 1, 1]
      ∧ (landscape.test (fun (w : Unit) (o : organism Unit) => (w, o, (1 : ℚ))) ()
        sample_population).2.2 = 0
      ∧ ([1, 1, 1] : List ℚ).sum = 3 := by
  refine ⟨?_, ?_, ?_⟩ <;> decide!

/-- Where the default population-level `landscape::test` does what is said of
it: it calls the single-organism test once for each member in order (the world
left by one call is the world of the next), stores each result in that
member's fitness field, and adds those results up in the local `result`; the
value it returns is 0 all the same. -/
theorem population_test_each_member {W G : Type} (test : W → organism G → W × organism G × ℚ)
    (w : W) (a_population : List (organism G)) :
    (landscape.test test w a_population).2.2 = 0
      ∧ landscape.test test w [] = (w, [], 0)
      ∧ (∀ o rest, landscape.test test w (o :: rest)
          = ((landscape.test test (test w o).1 rest).1,
             { (test w o).2.1 with fitness := (test w o).2.2 }
               :: (landscape.test test (test w o).1 rest).2.1,
             0))
      ∧ (landscape.test_loop test w a_population 0).2.2
          = ((landscape.test test w a_population).2.1.map organism.fitness).sum := by
  refine ⟨rfl, rfl, ?_, ?_⟩
  · intro o rest
    simp only [landscape.test, landscape.test_loop]
    obtain ⟨h1, h2, _⟩ := test_loop_result test rest (test w o).1 (0 + (test w o).2.2)
    rw [h1, h2]
  · have h := (test_loop_result test a_population w 0).2.2
    rw [h, zero_add]
    rfl

/-! ### Double-precision crossover, bit by bit -/

/-- One round of `crossover(double, double)` for a bit position below 64: a
cut in the low-order word takes the bits from the cut up from the first parent
and the bits below it from the second; a cut in the high-order word does so in
the high-order word only and takes the whole low-order word from the first
parent. -/
theorem crossover_double_round_testBit (l1 l2 : Nat × Nat) (c i : Nat) (hc : c < 64)
    (hi : i < 64) :
    evoreal.double_testBit (evoreal.crossover_double_round l1 l2 c) i
      = if i < c ∧ (c ≤ 31 ∨ 32 ≤ i) then evoreal.double_testBit l2 i
        else evoreal.double_testBit l1 i := by
  unfold evoreal.crossover_double_round evoreal.double_testBit
  by_cases hbit : c > 31
  · simp only [hbit, if_true]
    by_cases hlow : i < 32
    · have hcond : ¬ (i < c ∧ (c ≤ 31 ∨ 32 ≤ i)) := by omega
      simp only [hlow, if_true, hcond, if_false]
    · simp only [hlow, if_false]
      rw [crossover_round_testBit l1.2 l2.2 (c - 32) (i - 32) (by omega)]
      have h32 : i - 32 < 32 := by omega
      simp only [h32, if_true]
      by_cases hle : c - 32 ≤ i - 32
      · have hcond : ¬ (i < c ∧ (c ≤ 31 ∨ 32 ≤ i)) := by omega
        simp only [hle, if_true, hcond, if_false]
      · have hcond : i < c ∧ (c ≤ 31 ∨ 32 ≤ i) := by omega
        simp only [hle, if_false, hcond, and_self, if_true]
  · simp only [hbit, if_false]
    by_cases hlow : i < 32
    · simp only [hlow, if_true]
      rw [crossover_round_testBit l1.1 l2.1 c i (by omega)]
      simp only [hlow, if_true]
      by_cases hle : c ≤ i
      · have hcond : ¬ (i < c ∧ (c ≤ 31 ∨ 32 ≤ i)) := by omega
        simp only [hle, if_true, hcond, if_false]
      · have hcond : i < c ∧ (c ≤ 31 ∨ 32 ≤ i) := by omega
        simp only [hle, if_false, hcond, and_self, if_true]
    · have hcond : ¬ (i < c ∧ (c ≤ 31 ∨ 32 ≤ i)) := by omega
      simp only [hlow, if_false, hcond]

/-- C21, as stated, fails: with the draw 3/4 the cut point is bit 48, in the
high-order word, and the child of `x = 0x00000000 FFFFFFFF` and `y = 0` is `x`
itself: its bit 0, below the cut point, is the bit of `x`, not the bit of
`y`. -/
theorem C21_high_cut_keeps_low_word :
    ⌊(3 / 4 : ℚ) * 64⌋₊ = 48
      ∧ evoreal.crossover_double (0xFFFFFFFF, 0) (0, 0) [3 / 4]
          = some ((0xFFFFFFFF, 0), [])
      ∧ evoreal.double_testBit (0xFFFFFFFF, 0) 0 = true
      ∧ evoreal.double_testBit (0, 0) 0 = false := by
  refine ⟨?_, ?_, ?_, ?_⟩ <;> decide!

/-- C21, amended: double-precision `crossover` with draws in `[0, 1)`: for the
cut point `c` of the accepted draw, `0 <= c <= 63`, the child is the one-point
crossover at `c` when the cut falls in the low-order word (`c <= 31`): bits at
positions `>= c` from the first parent `x`, bits below `c` from the second
parent `y`.  When the cut falls in the high-order word (`c >= 32`) the child
takes the bits at positions `>= c` and the whole low-order word (bits 0 to 31)
from `x`, and only the bits at positions 32 to `c - 1` from `y`. -/
theorem C21_crossover_double_bits (x y : Nat × Nat) (draws : List ℚ)
    (hdraws : ∀ u ∈ draws, 0 ≤ u ∧ u < 1) (child : Nat × Nat) (rest : List ℚ)
    (h : evoreal.crossover_double x y draws = some (child, rest)) :
    ∃ u ∈ draws, ⌊u * 64⌋₊ < 64
      ∧ child.2 &&& evoreal.DBL_EXP_BITS ≠ evoreal.DBL_EXP_BITS
      ∧ ∀ i, i < 64 → evoreal.double_testBit child i
          = if i < ⌊u * 64⌋₊ ∧ (⌊u * 64⌋₊ ≤ 31 ∨ 32 ≤ i) then evoreal.double_testBit y i
            else evoreal.double_testBit x i := by
  induction draws with
  | nil => simp [evoreal.crossover_double] at h
  | cons u us ih =>
    simp only [evoreal.crossover_double] at h
    split at h
    · obtain ⟨v, hv, hrest⟩ := ih (fun v hv => hdraws v (List.mem_cons_of_mem u hv)) h
      exact ⟨v, List.mem_cons_of_mem u hv, hrest⟩
    · next hfin =>
      simp only [Option.some.injEq, Prod.mk.injEq] at h
      have hu := hdraws u (List.mem_cons_self u us)
      have hc := floor_draw_lt u hu.1 hu.2 64 (by decide)
      simp only [Nat.cast_ofNat] at hc
      refine ⟨u, List.mem_cons_self u us, hc, ?_, ?_⟩
      · rw [← h.1]; exact hfin
      · intro i hi
        rw [← h.1]
        exact crossover_double_round_testBit x y _ i hc hi

/-- C21, amended, on the parents `0x12345678 9ABCDEF0` and
`0x0FEDCBA9 87654321`: with the draw 1/4 (cut point 16, low-order word) the
child is `0x12345678 9ABC4321`, and with the draw 3/4 (cut point 48,
high-order word) it is `0x1234CBA9 9ABCDEF0`. -/
theorem C21_crossover_double_bits_witness :
    (∀ u ∈ [(3 / 4 : ℚ)], 0 ≤ u ∧ u < 1)
      ∧ evoreal.crossover_double (0x9ABCDEF0, 0x12345678) (0x87654321, 0x0FEDCBA9) [1 / 4]
          = some ((0x9ABC4321, 0x12345678), [])
      ∧ evoreal.crossover_double (0x9ABCDEF0, 0x12345678) (0x87654321, 0x0FEDCBA9) [3 / 4]
          = some ((0x9ABCDEF0, 0x1234CBA9), [])
      ∧ ∃ u ∈ [(3 / 4 : ℚ)], ⌊u * 64⌋₊ < 64
        ∧ 0x1234CBA9 &&& evoreal.DBL_EXP_BITS ≠ evoreal.DBL_EXP_BITS
        ∧ ∀ i, i < 64 → evoreal.double_testBit (0x9ABCDEF0, 0x1234CBA9) i
            = if i < ⌊u * 64⌋₊ ∧ (⌊u * 64⌋₊ ≤ 31 ∨ 32 ≤ i) then
                evoreal.double_testBit (0x87654321, 0x0FEDCBA9) i
              else evoreal.double_testBit (0x9ABCDEF0, 0x12345678) i := by
  have hd : ∀ u ∈ [(3 / 4 : ℚ)], 0 ≤ u ∧ u < 1 := by
    intro u hu
    rw [List.mem_singleton] at hu
    subst hu
    norm_num
  have hlow : evoreal.crossover_double (0x9ABCDEF0, 0x12345678) (0x87654321, 0x0FEDCBA9)
      [1 / 4] = some ((0x9ABC4321, 0x12345678), []) := by decide!
  have hhigh : evoreal.crossover_double (0x9ABCDEF0, 0x12345678) (0x87654321, 0x0FEDCBA9)
      [3 / 4] = some ((0x9ABCDEF0, 0x1234CBA9), []) := by decide!
  exact ⟨hd, hlow, hhigh,
    C21_crossover_double_bits (0x9ABCDEF0, 0x12345678) (0x87654321, 0x0FEDCBA9) [3 / 4] hd
      _ _ hhigh⟩

/-! ### Selectors and scalers -/

/-- The statistics of a non-empty population: the mean is the sum of the
fitness values over their number, the variance the sum of the squared
deviations over the number less one. -/
theorem create_mean_variance {G : Type} (a_population : List (organism G))
    (hne : a_population ≠ []) :
    ∃ st, fitness_stats.create a_population = some st
      ∧ st.mean = (a_population.map organism.fitness).sum / (a_population.length : ℚ)
      ∧ st.variance = (a_population.map (fun o => (o.fitness - st.mean) ^ 2)).sum
          / ((a_population.length : ℚ) - 1) := by
  cases a_population with
  | nil => exact absurd rfl hne
  | cons first rest =>
    have hlen : (((first :: rest).length - 1 : ℕ) : ℚ) = ((first :: rest).length : ℚ) - 1 := by
      simp
    refine ⟨_, rfl, ?_, ?_⟩
    · simp only [scan_mean, zero_add]
    · simp only [variance_loop, zero_add, hlen]

/-- Where the code agrees with C22: when some organism has a fitness above
`numeric_limits<double>::min()`, the survivors are, in their original order,
exactly the organisms whose fitness is strictly greater than the factor times
the greatest fitness value of the population. -/
theorem select_survivors_above_DBL_MIN {G : Type} (m_factor : ℚ)
    (a_population : List (organism G)) (habove : ∃ o ∈ a_population, DBL_MIN < o.fitness) :
    ∃ greatest, (∀ o ∈ a_population, o.fitness ≤ greatest)
      ∧ (∃ o ∈ a_population, o.fitness = greatest)
      ∧ elitism_selector.select_survivors m_factor a_population
          = some (a_population.filter (fun o => decide (o.fitness > m_factor * greatest))) := by
  obtain ⟨st, hst, hle, hfind⟩ := max_and_best_above_DBL_MIN a_population habove
  have hmem := List.mem_of_find?_eq_some hfind
  have hbest : st.best.fitness = st.max := by simpa using List.find?_some hfind
  refine ⟨st.max, hle, ⟨st.best, hmem, hbest⟩, ?_⟩
  simp only [elitism_selector.select_survivors, hst, hbest]

/-- C22 fails on the code: on the fitness values -2, -1 and the factor 9/10
the best organism recorded by `fitness_stats` is organism 0 (fitness -2), the
threshold is -9/5, and organism 1 survives; the greatest fitness is -1, and no
organism has a fitness above 9/10 * (-1).  On the fitness values 10, 9, 5, 1
the survivor is the organism with fitness 10. -/
theorem C22_survivors_of_negative_population :
    elitism_selector.select_survivors (9 / 10) negative_population
        = some [{ fitness := -1, genes := 1 }]
      ∧ negative_population.filter (fun o => decide (o.fitness > 9 / 10 * (-1))) = []
      ∧ elitism_selector.select_survivors (9 / 10) elitism_population
        = some [{ fitness := 10, genes := 0 }] := by
  refine ⟨?_, ?_, ?_⟩ <;> decide!

/-- C24: for every population whose statistics have `sigma != 0` and
`mean != 0`, `sigma_scaler::scale_fitness` replaces each fitness `f` by
`max(0.1, (1 + f / mean) / (2 * sigma))`, with the mean and the sigma of the
population before scaling; hence every fitness after scaling is at least
0.1. -/
theorem C24_sigma_scaler {G : Type} (sqrt : ℚ → ℚ) (a_population : List (organism G))
    (st : fitness_stats G) (hst : fitness_stats.create a_population = some st)
    (hsigma : sqrt st.variance ≠ 0) (_hmean : st.mean ≠ 0) :
    (∃ scaled, sigma_scaler.scale_fitness sqrt a_population = some scaled
        ∧ scaled = a_population.map (fun o =>
            { o with
              fitness := max (1 / 10) ((1 + o.fitness / st.mean) / (2 * sqrt st.variance)) })
        ∧ ∀ o ∈ scaled, 1 / 10 ≤ o.fitness) := by
  have h2 : 2 * sqrt st.variance ≠ 0 := mul_ne_zero (by norm_num) hsigma
  have hmax : ∀ v : ℚ, (if v < 1 / 10 then 1 / 10 else v) = max (1 / 10) v := by
    intro v
    split
    · next h => rw [max_eq_left (le_of_lt h)]
    · next h => rw [max_eq_right (not_lt.mp h)]
  refine ⟨_, ?_, rfl, ?_⟩
  · simp only [sigma_scaler.scale_fitness, hst, if_neg h2, hmax]
  · intro o ho
    rw [List.mem_map] at ho
    obtain ⟨p, _, rfl⟩ := ho
    exact le_max_left _ _

/-- C24 on the fitness values -9, 3, 15 (mean 3, variance 144, sigma 12): the
scaled values are 1/10 (raised from -1/12), 1/12 raised to 1/10, and 1/4. -/
theorem C24_sigma_scaler_witness :
    ∃ st, fitness_stats.create spread_population = some st
      ∧ st.mean = 3 ∧ st.variance = 144 ∧ sample_sqrt st.variance = 12
      ∧ ∃ scaled, sigma_scaler.scale_fitness sample_sqrt spread_population = some scaled
        ∧ scaled.map organism.fitness = [1 / 10, 1 / 10, 1 / 4]
        ∧ ∀ o ∈ scaled, 1 / 10 ≤ o.fitness := by
  have hst : fitness_stats.create spread_population
      = some { min := -9, max := 15, mean := 3, variance := 144,
               best := { fitness := 15, genes := 2 },
               worst := { fitness := -9, genes := 0 } } := by decide!
  obtain ⟨scaled, hsc, heq, hge⟩ := C24_sigma_scaler sample_sqrt spread_population _ hst
    (by decide!) (by decide!)
  refine ⟨_, hst, rfl, rfl, by decide!, scaled, hsc, ?_, hge⟩
  rw [heq]
  decide!

/-- C25: `linear_norm_scaler` applies one affine map `f -> slope * f +
intercept` to every fitness, chosen by the test
`min > (multiple * mean - max) / (multiple - 1)` on the statistics of the
population: when the test holds (and `max != mean`) the map sends `mean` to
`mean` and `max` to `multiple * mean`; otherwise (and `mean != min`) it sends
`min` to 0 and `mean` to `mean`. -/
theorem C25_linear_norm_scaler {G : Type} (m_fitness_multiple : ℚ)
    (a_population : List (organism G)) (st : fitness_stats G)
    (hst : fitness_stats.create a_population = some st) :
    linear_norm_scaler.scale_fitness m_fitness_multiple a_population
        = some (a_population.map (fun o =>
            { o with
              fitness := (linear_norm_scaler.coefficients m_fitness_multiple st).1 * o.fitness
                + (linear_norm_scaler.coefficients m_fitness_multiple st).2 }))
      ∧ (st.min > (m_fitness_multiple * st.mean - st.max) / (m_fitness_multiple - 1) →
          st.max ≠ st.mean →
          (linear_norm_scaler.coefficients m_fitness_multiple st).1 * st.mean
              + (linear_norm_scaler.coefficients m_fitness_multiple st).2 = st.mean
            ∧ (linear_norm_scaler.coefficients m_fitness_multiple st).1 * st.max
              + (linear_norm_scaler.coefficients m_fitness_multiple st).2
                = m_fitness_multiple * st.mean)
      ∧ (¬ st.min > (m_fitness_multiple * st.mean - st.max) / (m_fitness_multiple - 1) →
          st.mean ≠ st.min →
          (linear_norm_scaler.coefficients m_fitness_multiple st).1 * st.min
              + (linear_norm_scaler.coefficients m_fitness_multiple st).2 = 0
            ∧ (linear_norm_scaler.coefficients m_fitness_multiple st).1 * st.mean
              + (linear_norm_scaler.coefficients m_fitness_multiple st).2 = st.mean) := by
  refine ⟨?_, ?_, ?_⟩
  · simp only [linear_norm_scaler.scale_fitness, hst]
  · intro htest hne
    have hd : st.max - st.mean ≠ 0 := sub_ne_zero.mpr hne
    simp only [linear_norm_scaler.coefficients, if_pos htest]
    constructor
    · field_simp
      ring
    · field_simp
      ring
  · intro htest hne
    have hd : st.mean - st.min ≠ 0 := sub_ne_zero.mpr hne
    simp only [linear_norm_scaler.coefficients, if_neg htest]
    constructor
    · field_simp
      ring
    · field_simp
      ring

/-- C25 on the fitness values 1, 5, 3 with the multiple 2 (min 1, mean 3, max
5: the test `1 > (6 - 5) / 1` fails, extreme scaling): the scaled values are
0, 6, 3; and on the fitness values 10, 9, 5, 1 with the multiple 6/5 (mean
25/4: the test `1 > (15/2 - 10) / (1/5)` holds, normal scaling). -/
theorem C25_linear_norm_scaler_witness :
    (∃ st, fitness_stats.create numbered_population = some st
        ∧ ¬ st.min > (2 * st.mean - st.max) / (2 - 1) ∧ st.mean ≠ st.min
        ∧ (linear_norm_scaler.coefficients 2 st).1 * st.min
            + (linear_norm_scaler.coefficients 2 st).2 = 0
        ∧ (linear_norm_scaler.coefficients 2 st).1 * st.mean
            + (linear_norm_scaler.coefficients 2 st).2 = st.mean)
      ∧ (linear_norm_scaler.scale_fitness 2 numbered_population).map
          (fun l => l.map organism.fitness) = some [0, 6, 3]
      ∧ ∃ st, fitness_stats.create elitism_population = some st
        ∧ st.min > (6 / 5 * st.mean - st.max) / (6 / 5 - 1) ∧ st.max ≠ st.mean
        ∧ (linear_norm_scaler.coefficients (6 / 5) st).1 * st.mean
            + (linear_norm_scaler.coefficients (6 / 5) st).2 = st.mean
        ∧ (linear_norm_scaler.coefficients (6 / 5) st).1 * st.max
            + (linear_norm_scaler.coefficients (6 / 5) st).2 = 6 / 5 * st.mean := by
  obtain ⟨st1, hst1, _, _⟩ := create_mean_variance numbered_population (by decide)
  obtain ⟨st2, hst2, _, _⟩ := create_mean_variance elitism_population (by decide)
  have hv1 : fitness_stats.create numbered_population
      = some { min := 1, max := 5, mean := 3, variance := 4,
               best := { fitness := 5, genes := 1 }, worst := { fitness := 1, genes := 0 } } := by
    decide!
  have hv2 : fitness_stats.create elitism_population
      = some { min := 1, max := 10, mean := 25 / 4, variance := 203 / 12,
               best := { fitness := 10, genes := 0 },
               worst := { fitness := 1, genes := 3 } } := by
    decide!
  have e1 := Option.some.inj (hst1.symm.trans hv1)
  have e2 := Option.some.inj (hst2.symm.trans hv2)
  have t1 : ¬ st1.min > (2 * st1.mean - st1.max) / (2 - 1) := by rw [e1]; decide!
  have n1 : st1.mean ≠ st1.min := by rw [e1]; decide!
  have t2 : st2.min > (6 / 5 * st2.mean - st2.max) / (6 / 5 - 1) := by rw [e2]; decide!
  have n2 : st2.max ≠ st2.mean := by rw [e2]; decide!
  have k1 := (C25_linear_norm_scaler 2 numbered_population st1 hst1).2.2 t1 n1
  have k2 := (C25_linear_norm_scaler (6 / 5) elitism_population st2 hst2).2.1 t2 n2
  exact ⟨⟨st1, hst1, t1, n1, k1.1, k1.2⟩, by decide!, ⟨st2, hst2, t2, n2, k2.1, k2.2⟩⟩

/-! ### Mutation, bit by bit -/

/-- On a 32-bit word, flipping with a one-bit mask is the exclusive or with
that bit. -/
theorem flip_two_pow_eq_xor (x k : Nat) (hx : x < 2 ^ 32) (hk : k < 32) :
    evoreal.flip x (2 ^ k) = x ^^^ 2 ^ k := by
  apply Nat.eq_of_testBit_eq
  intro i
  by_cases hi : i < 32
  · rw [flip_two_pow_testBit x k i hi, Nat.testBit_xor, Nat.testBit_two_pow]
  · have hxi : x.testBit i = false :=
      Nat.testBit_lt_two_pow (lt_of_lt_of_le hx (Nat.pow_le_pow_right (by decide) (by omega)))
    have hki : (2 ^ k).testBit i = false := by
      rw [Nat.testBit_two_pow]
      simp only [decide_eq_false_iff_not]
      omega
    rw [Nat.testBit_xor, hxi, hki]
    unfold evoreal.flip
    split
    · rw [Nat.testBit_and, hxi]; rfl
    · rw [Nat.testBit_or, hxi, hki]; rfl

/-- The exponent masks of a `float`: bits 23 to 30. -/
theorem exponent_mask_float : ∀ j < 8, (0x00800000 <<< j) % WORD_MOD = 2 ^ (23 + j) := by
  decide

/-- The exponent masks of a `double`: bits 20 to 30 of the high-order word. -/
theorem exponent_mask_double : ∀ j < 11, (0x00100000 <<< j) % WORD_MOD = 2 ^ (20 + j) := by
  decide

/-- The one-bit masks `1L << k` of a 32-bit word. -/
theorem one_bit_mask (k : Nat) (hk : k < 32) : (1 <<< k) % WORD_MOD = 2 ^ k := by
  rw [Nat.one_shiftLeft, WORD_MOD]
  exact Nat.mod_eq_of_lt (Nat.pow_lt_pow_right (by decide) hk)

/-- What the exponent loop of `mutate(float)` returns is the input with one of
the bits 23 to 30 flipped. -/
theorem mutate_float_exponent_bit (x : Nat) (draws : List ℚ)
    (hdraws : ∀ u ∈ draws, 0 ≤ u ∧ u < 1) (n : Nat) (rest : List ℚ)
    (h : evoreal.mutate_float_exponent x draws = some (n, rest)) :
    ∃ k, 23 ≤ k ∧ k ≤ 30 ∧ n = evoreal.flip x (2 ^ k) := by
  induction draws with
  | nil => simp [evoreal.mutate_float_exponent] at h
  | cons u us ih =>
    simp only [evoreal.mutate_float_exponent] at h
    split at h
    · exact ih (fun v hv => hdraws v (List.mem_cons_of_mem u hv)) h
    · simp only [Option.some.injEq, Prod.mk.injEq] at h
      have hu := hdraws u (List.mem_cons_self u us)
      have hj := floor_draw_lt u hu.1 hu.2 8 (by decide)
      simp only [Nat.cast_ofNat] at hj
      rw [exponent_mask_float _ hj] at h
      exact ⟨23 + ⌊u * 8⌋₊, by omega, by omega, h.1.symm⟩

/-- What the exponent loop of `mutate(double)` returns is the high-order word
with one of its bits 20 to 30 flipped. -/
theorem mutate_double_exponent_bit (x : Nat) (draws : List ℚ)
    (hdraws : ∀ u ∈ draws, 0 ≤ u ∧ u < 1) (n : Nat) (rest : List ℚ)
    (h : evoreal.mutate_double_exponent x draws = some (n, rest)) :
    ∃ k, 20 ≤ k ∧ k ≤ 30 ∧ n = evoreal.flip x (2 ^ k) := by
  induction draws with
  | nil => simp [evoreal.mutate_double_exponent] at h
  | cons u us ih =>
    simp only [evoreal.mutate_double_exponent] at h
    split at h
    · exact ih (fun v hv => hdraws v (List.mem_cons_of_mem u hv)) h
    · simp only [Option.some.injEq, Prod.mk.injEq] at h
      have hu := hdraws u (List.mem_cons_self u us)
      have hj := floor_draw_lt u hu.1 hu.2 11 (by decide)
      simp only [Nat.cast_ofNat] at hj
      rw [exponent_mask_double _ hj] at h
      exact ⟨20 + ⌊u * 11⌋₊, by omega, by omega, h.1.symm⟩

/-- Single-precision `mutate` on a finite 32-bit pattern flips exactly one
bit, of the region that the first draw selects. -/
theorem mutate_float_one_bit (r : evoreal) (u : ℚ) (us : List ℚ)
    (hdraws : ∀ v ∈ u :: us, 0 ≤ v ∧ v < 1) (x y : Nat) (rest : List ℚ) (hx : x < 2 ^ 32)
    (hfin : x &&& evoreal.FLT_EXP_BITS ≠ evoreal.FLT_EXP_BITS)
    (h : r.mutate_float (u :: us) x = some (y, rest)) :
    ∃ k, y = x ^^^ 2 ^ k
      ∧ (u * r.m_total_weight < r.m_sign_weight → k = 31)
      ∧ (¬ u * r.m_total_weight < r.m_sign_weight →
          u * r.m_total_weight - r.m_sign_weight < r.m_exp_weight → 23 ≤ k ∧ k ≤ 30)
      ∧ (¬ u * r.m_total_weight < r.m_sign_weight →
          ¬ u * r.m_total_weight - r.m_sign_weight < r.m_exp_weight → k ≤ 22) := by
  simp only [evoreal.mutate_float, if_neg hfin] at h
  split at h
  · next hs =>
    simp only [Option.some.injEq, Prod.mk.injEq] at h
    have hmask : (0x80000000 : Nat) = 2 ^ 31 := by decide
    rw [hmask, flip_two_pow_eq_xor x 31 hx (by decide)] at h
    exact ⟨31, h.1.symm, fun _ => rfl, fun hn => absurd hs hn, fun hn => absurd hs hn⟩
  · next hs =>
    split at h
    · next he =>
      obtain ⟨k, hk1, hk2, hn⟩ := mutate_float_exponent_bit x us
        (fun v hv => hdraws v (List.mem_cons_of_mem u hv)) y rest h
      rw [flip_two_pow_eq_xor x k hx (by omega)] at hn
      exact ⟨k, hn, fun hs' => absurd hs' hs, fun _ _ => ⟨hk1, hk2⟩, fun _ hne => absurd he hne⟩
    · next he =>
      cases us with
      | nil => simp at h
      | cons u2 us2 =>
        simp only [Option.some.injEq, Prod.mk.injEq] at h
        have hu2 := hdraws u2 (by simp)
        have hk := floor_draw_lt u2 hu2.1 hu2.2 23 (by decide)
        simp only [Nat.cast_ofNat] at hk
        rw [one_bit_mask _ (by omega), flip_two_pow_eq_xor x _ hx (by omega)] at h
        exact ⟨⌊u2 * 23⌋₊, h.1.symm, fun hs' => absurd hs' hs, fun _ he' => absurd he' he,
          fun _ _ => by omega⟩

/-- Double-precision `mutate` on a pattern of two 32-bit words flips exactly
one bit, of the region that the first draw selects. -/
theorem mutate_double_one_bit (r : evoreal) (u : ℚ) (us : List ℚ)
    (hdraws : ∀ v ∈ u :: us, 0 ≤ v ∧ v < 1) (x y : Nat × Nat) (rest : List ℚ)
    (hx0 : x.1 < 2 ^ 32) (hx1 : x.2 < 2 ^ 32)
    (h : r.mutate_double (u :: us) x = some (y, rest)) :
    ∃ k, y = evoreal.toggle_double_bit x k
      ∧ (u * r.m_total_weight < r.m_sign_weight → k = 63)
      ∧ (¬ u * r.m_total_weight < r.m_sign_weight →
          u * r.m_total_weight - r.m_sign_weight < r.m_exp_weight → 52 ≤ k ∧ k ≤ 62)
      ∧ (¬ u * r.m_total_weight < r.m_sign_weight →
          ¬ u * r.m_total_weight - r.m_sign_weight < r.m_exp_weight → k ≤ 51) := by
  simp only [evoreal.mutate_double] at h
  split at h
  · next hs =>
    simp only [Option.some.injEq, Prod.mk.injEq] at h
    have hmask : (0x80000000 : Nat) = 2 ^ 31 := by decide
    rw [hmask, flip_two_pow_eq_xor x.2 31 hx1 (by decide)] at h
    refine ⟨63, ?_, fun _ => rfl, fun hn => absurd hs hn, fun hn => absurd hs hn⟩
    rw [← h.1]
    simp [evoreal.toggle_double_bit]
  · next hs =>
    split at h
    · next he =>
      split at h
      · exact absurd h (by simp)
      · next n rest2 hloop =>
        simp only [Option.some.injEq, Prod.mk.injEq] at h
        obtain ⟨k, hk1, hk2, hn⟩ := mutate_double_exponent_bit x.2 us
          (fun v hv => hdraws v (List.mem_cons_of_mem u hv)) n rest2 hloop
        rw [flip_two_pow_eq_xor x.2 k hx1 (by omega)] at hn
        refine ⟨k + 32, ?_, fun hs' => absurd hs' hs, fun _ _ => ⟨by omega, by omega⟩,
          fun _ hne => absurd he hne⟩
        rw [← h.1, hn]
        simp [evoreal.toggle_double_bit]
    · next he =>
      cases us with
      | nil => simp at h
      | cons u2 us2 =>
        have hu2 := hdraws u2 (by simp)
        have hk := floor_draw_lt u2 hu2.1 hu2.2 52 (by decide)
        simp only [Nat.cast_ofNat] at hk
        simp only at h
        refine ⟨⌊u2 * 52⌋₊, ?_, fun hs' => absurd hs' hs, fun _ he' => absurd he' he,
          fun _ _ => by omega⟩
        split at h
        · next hbit =>
          simp only [Option.some.injEq, Prod.mk.injEq] at h
          rw [one_bit_mask _ (by omega), flip_two_pow_eq_xor x.2 _ hx1 (by omega)] at h
          rw [← h.1]
          have hnot : ¬ ⌊u2 * 52⌋₊ < 32 := by omega
          simp [evoreal.toggle_double_bit, hnot]
        · next hbit =>
          simp only [Option.some.injEq, Prod.mk.injEq] at h
          rw [one_bit_mask _ (by omega), flip_two_pow_eq_xor x.1 _ hx0 (by omega)] at h
          rw [← h.1]
          have hlt : ⌊u2 * 52⌋₊ < 32 := by omega
          simp [evoreal.toggle_double_bit, hlt]

/-- C30: for every finite input, weights `(s, e, m)` and draws in `[0, 1)`,
with `p = u * (s + e + m)` for the first draw `u`, what `evoreal::mutate`
returns differs from the input in exactly one bit `k`: the sign bit when
`p < s`, a bit of the exponent field (23 to 30 single, 52 to 62 double) when
`s <= p < s + e`, and a bit of the mantissa field (0 to 22 single, 0 to 51
double) otherwise.  In particular with `s = 0` (and `e + m >= 0`) the sign bit
is never flipped, and with `e = 0` no exponent bit is. -/
theorem C30_mutate_flips_one_bit (s e m u : ℚ) (us : List ℚ)
    (hdraws : ∀ v ∈ u :: us, 0 ≤ v ∧ v < 1) :
    (∀ (x y : Nat) (rest : List ℚ), x < 2 ^ 32 →
        x &&& evoreal.FLT_EXP_BITS ≠ evoreal.FLT_EXP_BITS →
        (evoreal.create s e m).mutate_float (u :: us) x = some (y, rest) →
        ∃ k, y = x ^^^ 2 ^ k
          ∧ (u * (s + e + m) < s → k = 31)
          ∧ (¬ u * (s + e + m) < s → u * (s + e + m) < s + e → 23 ≤ k ∧ k ≤ 30)
          ∧ (¬ u * (s + e + m) < s → ¬ u * (s + e + m) < s + e → k ≤ 22)
          ∧ (s = 0 → 0 ≤ e + m → k ≤ 30)
          ∧ (e = 0 → k = 31 ∨ k ≤ 22))
      ∧ (∀ (x y : Nat × Nat) (rest : List ℚ), x.1 < 2 ^ 32 → x.2 < 2 ^ 32 →
        x.2 &&& evoreal.DBL_EXP_BITS ≠ evoreal.DBL_EXP_BITS →
        (evoreal.create s e m).mutate_double (u :: us) x = some (y, rest) →
        ∃ k, y = evoreal.toggle_double_bit x k
          ∧ (u * (s + e + m) < s → k = 63)
          ∧ (¬ u * (s + e + m) < s → u * (s + e + m) < s + e → 52 ≤ k ∧ k ≤ 62)
          ∧ (¬ u * (s + e + m) < s → ¬ u * (s + e + m) < s + e → k ≤ 51)
          ∧ (s = 0 → 0 ≤ e + m → k ≤ 62)
          ∧ (e = 0 → k = 63 ∨ k ≤ 51)) := by
  have hu := hdraws u (List.mem_cons_self u us)
  have hexp : ∀ p : ℚ, (p - s < e ↔ p < s + e) := fun p => sub_lt_iff_lt_add'
  constructor
  · intro x y rest hx hfin h
    obtain ⟨k, hk, h1, h2, h3⟩ := mutate_float_one_bit (evoreal.create s e m) u us hdraws
      x y rest hx hfin h
    simp only [evoreal.create, hexp] at h1 h2 h3
    refine ⟨k, hk, h1, h2, h3, ?_, ?_⟩
    · intro hs hnn
      have hp : ¬ u * (s + e + m) < s := by
        rw [hs, zero_add]
        exact not_lt.mpr (mul_nonneg hu.1 hnn)
      by_cases he : u * (s + e + m) < s + e
      · exact (h2 hp he).2
      · exact le_trans (h3 hp he) (by decide)
    · intro he
      by_cases hp : u * (s + e + m) < s
      · exact Or.inl (h1 hp)
      · right
        exact h3 hp (fun hlt => hp (by linarith))
  · intro x y rest hx0 hx1 _ h
    obtain ⟨k, hk, h1, h2, h3⟩ := mutate_double_one_bit (evoreal.create s e m) u us hdraws
      x y rest hx0 hx1 h
    simp only [evoreal.create, hexp] at h1 h2 h3
    refine ⟨k, hk, h1, h2, h3, ?_, ?_⟩
    · intro hs hnn
      have hp : ¬ u * (s + e + m) < s := by
        rw [hs, zero_add]
        exact not_lt.mpr (mul_nonneg hu.1 hnn)
      by_cases he : u * (s + e + m) < s + e
      · exact (h2 hp he).2
      · exact le_trans (h3 hp he) (by decide)
    · intro he
      by_cases hp : u * (s + e + m) < s
      · exact Or.inl (h1 hp)
      · right
        exact h3 hp (fun hlt => hp (by linarith))

/-- C30 with the default weights 5/5/90 on the pattern of 1.0 (0x3F800000,
resp. 0x3FF00000 00000000): the draws 1/2, 1/4 select the mantissa, bit 5 of
the `float` and bit 13 of the `double`. -/
theorem C30_mutate_flips_one_bit_witness :
    (∀ v ∈ [(1 / 2 : ℚ), 1 / 4], 0 ≤ v ∧ v < 1)
      ∧ (evoreal.create 5 5 90).mutate_float [1 / 2, 1 / 4] 0x3F800000
          = some (0x3F800020, [])
      ∧ (evoreal.create 5 5 90).mutate_double [1 / 2, 1 / 4] (0, 0x3FF00000)
          = some ((0x2000, 0x3FF00000), [])
      ∧ (∃ k, 0x3F800020 = 0x3F800000 ^^^ 2 ^ k ∧ k ≤ 22)
      ∧ ∃ k, ((0x2000, 0x3FF00000) : Nat × Nat) = evoreal.toggle_double_bit (0, 0x3FF00000) k
        ∧ k ≤ 51 := by
  have hd : ∀ v ∈ [(1 / 2 : ℚ), 1 / 4], 0 ≤ v ∧ v < 1 := by
    intro v hv
    simp only [List.mem_cons, List.mem_singleton, List.mem_nil_iff, or_false] at hv
    rcases hv with rfl | rfl <;> norm_num
  have hf : (evoreal.create 5 5 90).mutate_float [1 / 2, 1 / 4] 0x3F800000
      = some (0x3F800020, []) := by decide!
  have hdbl : (evoreal.create 5 5 90).mutate_double [1 / 2, 1 / 4] (0, 0x3FF00000)
      = some ((0x2000, 0x3FF00000), []) := by decide!
  have key := C30_mutate_flips_one_bit 5 5 90 (1 / 2) [1 / 4] hd
  obtain ⟨k1, hk1, _, _, hm1, _, _⟩ := key.1 0x3F800000 0x3F800020 [] (by decide) (by decide) hf
  obtain ⟨k2, hk2, _, _, hm2, _, _⟩ := key.2 (0, 0x3FF00000) (0x2000, 0x3FF00000) []
    (by decide) (by decide) (by decide) hdbl
  exact ⟨hd, hf, hdbl, ⟨k1, hk1, hm1 (by norm_num) (by norm_num)⟩,
    ⟨k2, hk2, hm2 (by norm_num) (by norm_num)⟩⟩

/-! ### The seed and the generator -/

/-- The value that `next()` returns reads only `x`, `c`, `y` and `z`. -/
theorem next_value_of_state (g h : prng) (hx : g.x = h.x) (hc : g.c = h.c) (hy : g.y = h.y)
    (hz : g.z = h.z) :
    (prng.next g).1 = (prng.next h).1 ∧ (prng.next g).2.x = (prng.next h).2.x ∧
      (prng.next g).2.c = (prng.next h).2.c ∧ (prng.next g).2.y = (prng.next h).2.y ∧
      (prng.next g).2.z = (prng.next h).2.z := by
  simp only [prng.next, hx, hc, hy, hz, and_self]

/-- Generators that agree on `x`, `c`, `y` and `z` return the same values. -/
theorem sequence_of_state (n : Nat) : ∀ g h : prng, g.x = h.x → g.c = h.c → g.y = h.y →
    g.z = h.z → prng.sequence g n = prng.sequence h n := by
  induction n with
  | zero => intro g h _ _ _ _; rfl
  | succ n ih =>
    intro g h hx hc hy hz
    obtain ⟨h1, h2, h3, h4, h5⟩ := next_value_of_state g h hx hc hy hz
    simp only [prng.sequence, h1, ih _ _ h2 h3 h4 h5]

/-- `set_seed` leaves `x`, `c`, `y` and `z` as they are. -/
theorem set_seed_state (g : prng) (seed : Nat) :
    (g.set_seed seed).x = g.x ∧ (g.set_seed seed).c = g.c ∧ (g.set_seed seed).y = g.y ∧
      (g.set_seed seed).z = g.z := ⟨rfl, rfl, rfl, rfl⟩

/-- C31: the values returned by `next()` do not depend on the seed: generators
constructed with any two seeds return the same first `n` values, for every
`n`; the same holds after `set_seed` on any generator. -/
theorem C31_sequence_independent_of_seed (s1 s2 n : Nat) :
    prng.sequence (prng.create s1) n = prng.sequence (prng.create s2) n ∧
      ∀ g : prng, prng.sequence (g.set_seed s1) n = prng.sequence (g.set_seed s2) n := by
  refine ⟨sequence_of_state n _ _ rfl rfl rfl rfl, fun g => ?_⟩
  exact sequence_of_state n _ _ rfl rfl rfl rfl

/-- C40: after `globals::set_seed(a)` with a 64-bit seed `a`,
`globals::get_seed()` returns `a mod 2^32`, which is `a` exactly when
`a < 2^32`, while `prng::get_seed()` after `prng::set_seed(a)` returns `a`. -/
theorem C40_seed_round_trip (g : prng) (a : Nat) (ha : a < 2 ^ 64) :
    globals.get_seed (globals.set_seed g a) = a % 2 ^ 32 ∧
      (globals.get_seed (globals.set_seed g a) = a ↔ a < 2 ^ 32) ∧
      prng.get_seed (g.set_seed a) = a := by
  have hs : prng.get_seed (g.set_seed a) = a := by
    simp only [prng.get_seed, prng.set_seed, ULL_MOD]
    exact Nat.mod_eq_of_lt ha
  have hg : globals.get_seed (globals.set_seed g a) = a % 2 ^ 32 := by
    simp only [globals.get_seed, globals.set_seed, hs]
  refine ⟨hg, ?_, hs⟩
  rw [hg]
  constructor
  · intro h
    rw [← h]
    exact Nat.mod_lt _ (by norm_num)
  · intro h
    exact Nat.mod_eq_of_lt h

/-- C40 at the seeds `2^32 + 5` (truncated to 5) and 7 (returned as it is). -/
theorem C40_seed_round_trip_witness :
    (globals.get_seed (globals.set_seed prng.initial (2 ^ 32 + 5)) = (2 ^ 32 + 5) % 2 ^ 32 ∧
      (globals.get_seed (globals.set_seed prng.initial (2 ^ 32 + 5)) = 2 ^ 32 + 5 ↔
        2 ^ 32 + 5 < 2 ^ 32) ∧
      prng.get_seed (prng.initial.set_seed (2 ^ 32 + 5)) = 2 ^ 32 + 5) ∧
    globals.get_seed (globals.set_seed prng.initial (2 ^ 32 + 5)) = 5 ∧
    globals.get_seed (globals.set_seed prng.initial 7) = 7 :=
  ⟨C40_seed_round_trip prng.initial (2 ^ 32 + 5) (by norm_num), by decide, by decide⟩

/-! ### The draw 1 in the mantissa branch -/

/-- C32: when the second draw is 1 (the value `get_real` yields for
`next() = 2^64 - 1`), the mantissa branch of single-precision `mutate` flips
bit 23, the lowest exponent bit, at once and without a retry; on the finite
pattern 0x7F7FFFFF (exponent 0xFE) the flipped pattern 0x7FFFFFFF has an
all-ones exponent. -/
theorem C32_draw_one_flips_exponent_bit (r : evoreal) (u : ℚ) (rest : List ℚ) (x : Nat)
    (hfin : x &&& evoreal.FLT_EXP_BITS ≠ evoreal.FLT_EXP_BITS)
    (hsign : ¬ u * r.m_total_weight < r.m_sign_weight)
    (hexp : ¬ u * r.m_total_weight - r.m_sign_weight < r.m_exp_weight) :
    (prng.get_real prng.before_top_value).1 = 1
      ∧ r.mutate_float (u :: 1 :: rest) x = some (evoreal.flip x (2 ^ 23), rest)
      ∧ 2 ^ 23 &&& evoreal.FLT_EXP_BITS = 2 ^ 23
      ∧ 0x7F7FFFFF &&& evoreal.FLT_EXP_BITS ≠ evoreal.FLT_EXP_BITS
      ∧ evoreal.flip 0x7F7FFFFF (2 ^ 23) = 0x7FFFFFFF
      ∧ 0x7FFFFFFF &&& evoreal.FLT_EXP_BITS = evoreal.FLT_EXP_BITS := by
  have hfloor : ⌊(1 : ℚ) * 23⌋₊ = 23 := by norm_num
  have hmask : (1 <<< 23) % WORD_MOD = 2 ^ 23 := by decide
  refine ⟨by decide!, ?_, by decide, by decide, by decide, by decide⟩
  simp only [evoreal.mutate_float, if_neg hfin, if_neg hsign, if_neg hexp, hfloor, hmask]

/-- C32 on the pattern 0x7F7FFFFF with the default weights 5, 5, 90: the first
draw 1/2 selects the mantissa region, the second draw is 1, and `mutate`
returns 0x7FFFFFFF, a NaN. -/
theorem C32_draw_one_flips_exponent_bit_witness :
    (evoreal.create 5 5 90).mutate_float [1 / 2, 1] 0x7F7FFFFF = some (0x7FFFFFFF, [])
      ∧ 0x7F7FFFFF &&& evoreal.FLT_EXP_BITS ≠ evoreal.FLT_EXP_BITS
      ∧ 0x7FFFFFFF &&& evoreal.FLT_EXP_BITS = evoreal.FLT_EXP_BITS := by
  have h := C32_draw_one_flips_exponent_bit (evoreal.create 5 5 90) (1 / 2) [] 0x7F7FFFFF
    (by decide) (by decide!) (by decide!)
  refine ⟨?_, by decide, by decide⟩
  rw [h.2.1, h.2.2.2.2.1]

/-! ### The retry loop of the exponent branch -/

/-- One round of `crossover_float` in terms of `crossover_float_round`. -/
theorem crossover_float_unfold (l1 l2 : Nat) (u : ℚ) (rest : List ℚ) :
    evoreal.crossover_float l1 l2 (u :: rest)
      = if evoreal.crossover_float_round l1 l2 ⌊u * 32⌋₊ &&& evoreal.FLT_EXP_BITS
            = evoreal.FLT_EXP_BITS
        then evoreal.crossover_float l1 l2 rest
        else some (evoreal.crossover_float_round l1 l2 ⌊u * 32⌋₊, rest) := rfl

/-- One round of `crossover_double`. -/
theorem crossover_double_unfold (l1 l2 : Nat × Nat) (u : ℚ) (rest : List ℚ) :
    evoreal.crossover_double l1 l2 (u :: rest)
      = if (evoreal.crossover_double_round l1 l2 ⌊u * 64⌋₊).2 &&& evoreal.DBL_EXP_BITS
            = evoreal.DBL_EXP_BITS
        then evoreal.crossover_double l1 l2 rest
        else some (evoreal.crossover_double_round l1 l2 ⌊u * 64⌋₊, rest) := rfl

/-- Mixing two words that both have every bit of the field `E` set gives a
word with every bit of `E` set, whatever the mask. -/
theorem mix_exponent (a b m E : Nat) (hE : E < 2 ^ 32) (ha : a &&& E = E) (hb : b &&& E = E) :
    ((a &&& m) ||| (b &&& (0xFFFFFFFF ^^^ m))) &&& E = E := by
  apply Nat.eq_of_testBit_eq
  intro i
  have ha' := congrArg (fun n => n.testBit i) ha
  have hb' := congrArg (fun n => n.testBit i) hb
  simp only [Nat.testBit_and] at ha' hb'
  simp only [Nat.testBit_and, Nat.testBit_or, Nat.testBit_xor]
  cases hEi : E.testBit i
  · simp
  · have hi : i < 32 := testBit_lt_of_lt E i hE hEi
    rw [hEi] at ha' hb'
    simp only [Bool.and_true] at ha' hb'
    rw [ha', hb', word_testBit]
    cases m.testBit i <;> simp [hi]

/-- At the cut point 0 the offspring has the field `E` of the first parent. -/
theorem cut_zero_exponent (a b E : Nat) (hE : E < 2 ^ 32) :
    ((a &&& ((0xFFFFFFFF <<< 0) % WORD_MOD))
      ||| (b &&& (0xFFFFFFFF ^^^ ((0xFFFFFFFF <<< 0) % WORD_MOD)))) &&& E = a &&& E := by
  apply Nat.eq_of_testBit_eq
  intro i
  rw [Nat.testBit_and, Nat.testBit_and, crossover_round_testBit a b 0 i (by decide)]
  cases hEi : E.testBit i
  · simp
  · have hi : i < 32 := testBit_lt_of_lt E i hE hEi
    simp [hi]

/-- At the cut point 31 the offspring has the field `E` of the second parent,
for a field below bit 31. -/
theorem top_cut_exponent (a b E : Nat) (hE : ∀ i, E.testBit i = true → i < 31) :
    ((a &&& ((0xFFFFFFFF <<< 31) % WORD_MOD))
      ||| (b &&& (0xFFFFFFFF ^^^ ((0xFFFFFFFF <<< 31) % WORD_MOD)))) &&& E = b &&& E := by
  apply Nat.eq_of_testBit_eq
  intro i
  rw [Nat.testBit_and, Nat.testBit_and, crossover_round_testBit a b 31 i (by decide)]
  cases hEi : E.testBit i
  · simp
  · have hi : i < 31 := hE i hEi
    have h32 : i < 32 := by omega
    have h31 : ¬ 31 ≤ i := by omega
    simp [h32, h31]

/-- The exponent field of a `float` lies below bit 31. -/
theorem float_exponent_below_sign : ∀ i, evoreal.FLT_EXP_BITS.testBit i = true → i < 31 := by
  intro i h
  have hi : i < 32 := testBit_lt_of_lt _ i (by decide) h
  have hall : ∀ j < 32, evoreal.FLT_EXP_BITS.testBit j = true → j < 31 := by decide
  exact hall i hi h

/-- The exponent field of a `double` lies below bit 31 of the high-order word. -/
theorem double_exponent_below_sign : ∀ i, evoreal.DBL_EXP_BITS.testBit i = true → i < 31 := by
  intro i h
  have hi : i < 32 := testBit_lt_of_lt _ i (by decide) h
  have hall : ∀ j < 32, evoreal.DBL_EXP_BITS.testBit j = true → j < 31 := by decide
  exact hall i hi h

/-- When both parents have an all-ones exponent, `crossover(float, float)` has
no result, whatever the draws. -/
theorem crossover_float_never_exits (l1 l2 : Nat)
    (h1 : l1 &&& evoreal.FLT_EXP_BITS = evoreal.FLT_EXP_BITS)
    (h2 : l2 &&& evoreal.FLT_EXP_BITS = evoreal.FLT_EXP_BITS) :
    ∀ draws : List ℚ, evoreal.crossover_float l1 l2 draws = none := by
  intro draws
  induction draws with
  | nil => rfl
  | cons u rest ih =>
    rw [crossover_float_unfold, if_pos, ih]
    exact mix_exponent l1 l2 _ _ (by decide) h1 h2

/-- When both parents have an all-ones exponent, every round of
`crossover(double, double)` builds an offspring with an all-ones exponent. -/
theorem crossover_double_round_invalid (l1 l2 : Nat × Nat) (c : Nat)
    (h1 : l1.2 &&& evoreal.DBL_EXP_BITS = evoreal.DBL_EXP_BITS)
    (h2 : l2.2 &&& evoreal.DBL_EXP_BITS = evoreal.DBL_EXP_BITS) :
    (evoreal.crossover_double_round l1 l2 c).2 &&& evoreal.DBL_EXP_BITS
      = evoreal.DBL_EXP_BITS := by
  unfold evoreal.crossover_double_round
  by_cases hc : c > 31
  · simp only [hc, if_true]
    exact mix_exponent l1.2 l2.2 _ _ (by decide) h1 h2
  · simp only [hc, if_false]
    exact h1

/-- When both parents have an all-ones exponent, `crossover(double, double)`
has no result, whatever the draws. -/
theorem crossover_double_never_exits (l1 l2 : Nat × Nat)
    (h1 : l1.2 &&& evoreal.DBL_EXP_BITS = evoreal.DBL_EXP_BITS)
    (h2 : l2.2 &&& evoreal.DBL_EXP_BITS = evoreal.DBL_EXP_BITS) :
    ∀ draws : List ℚ, evoreal.crossover_double l1 l2 draws = none := by
  intro draws
  induction draws with
  | nil => rfl
  | cons u rest ih =>
    rw [crossover_double_unfold, if_pos, ih]
    exact crossover_double_round_invalid l1 l2 _ h1 h2

/-- The cut point 0 of `crossover(float, float)` gives the first parent. -/
theorem crossover_float_round_zero (l1 l2 : Nat) (h32 : l1 < 2 ^ 32) :
    evoreal.crossover_float_round l1 l2 0 = l1 := by
  have hmask : (0xFFFFFFFF <<< 0) % WORD_MOD = 2 ^ 32 - 1 := by decide
  have hzero : (0xFFFFFFFF : Nat) ^^^ (2 ^ 32 - 1) = 0 := by decide
  simp only [evoreal.crossover_float_round, hmask, hzero,
    Nat.and_pow_two_sub_one_of_lt_two_pow h32, Nat.and_zero, Nat.or_zero]

/-- The cut point 31 of `crossover(float, float)` takes the exponent from the
second parent. -/
theorem crossover_float_round_top (l1 l2 : Nat) :
    evoreal.crossover_float_round l1 l2 31 &&& evoreal.FLT_EXP_BITS
      = l2 &&& evoreal.FLT_EXP_BITS :=
  top_cut_exponent l1 l2 evoreal.FLT_EXP_BITS float_exponent_below_sign

/-- With a finite second parent, `crossover(float, float)` returns at a draw
that selects the cut point 31. -/
theorem crossover_float_top_cut (l1 l2 : Nat) (rest : List ℚ)
    (h2 : l2 &&& evoreal.FLT_EXP_BITS ≠ evoreal.FLT_EXP_BITS) :
    evoreal.crossover_float l1 l2 (31 / 32 :: rest)
      = some (evoreal.crossover_float_round l1 l2 31, rest) := by
  have hfloor : ⌊(31 / 32 : ℚ) * 32⌋₊ = 31 := by norm_num
  rw [crossover_float_unfold, hfloor, if_neg]
  rw [crossover_float_round_top]
  exact h2

/-- The cut point 0 of `crossover(double, double)` gives the first parent. -/
theorem crossover_double_round_zero (l1 l2 : Nat × Nat) (h32 : l1.1 < 2 ^ 32) :
    evoreal.crossover_double_round l1 l2 0 = l1 := by
  have hmask : (0xFFFFFFFF <<< 0) % WORD_MOD = 2 ^ 32 - 1 := by decide
  have hzero : (0xFFFFFFFF : Nat) ^^^ (2 ^ 32 - 1) = 0 := by decide
  have h31 : ¬ (0 > 31) := by decide
  simp only [evoreal.crossover_double_round, h31, if_false, hmask, hzero,
    Nat.and_pow_two_sub_one_of_lt_two_pow h32, Nat.and_zero, Nat.or_zero]

/-- The cut point 63 of `crossover(double, double)` takes the exponent from the
second parent. -/
theorem crossover_double_round_top (l1 l2 : Nat × Nat) :
    (evoreal.crossover_double_round l1 l2 63).2 &&& evoreal.DBL_EXP_BITS
      = l2.2 &&& evoreal.DBL_EXP_BITS := by
  have h31 : 63 > 31 := by decide
  have hsub : 63 - 32 = 31 := by decide
  simp only [evoreal.crossover_double_round, h31, if_true, hsub]
  exact top_cut_exponent l1.2 l2.2 evoreal.DBL_EXP_BITS double_exponent_below_sign

/-- With a finite second parent, `crossover(double, double)` returns at a draw
that selects the cut point 63. -/
theorem crossover_double_top_cut (l1 l2 : Nat × Nat) (rest : List ℚ)
    (h2 : l2.2 &&& evoreal.DBL_EXP_BITS ≠ evoreal.DBL_EXP_BITS) :
    evoreal.crossover_double l1 l2 (63 / 64 :: rest)
      = some (evoreal.crossover_double_round l1 l2 63, rest) := by
  have hfloor : ⌊(63 / 64 : ℚ) * 64⌋₊ = 63 := by norm_num
  rw [crossover_double_unfold, hfloor, if_neg]
  rw [crossover_double_round_top]
  exact h2

/-- C34: the retry loop of `crossover`, single and double precision, has a
result for some draws in `[0, 1)`, and an exiting cut point, if and only if
at least one parent has an exponent field that is not all-ones: the cut point
0 gives the first parent unchanged, the top cut point (31, or 63) takes the
exponent from the second parent, and when both parents have all-ones exponents
every cut point yields an all-ones exponent and the loop has no result. -/
theorem C34_crossover_exit_iff_finite_parent (l1 l2 : Nat) (d1 d2 : Nat × Nat)
    (h1 : l1 < 2 ^ 32) (hd : d1.1 < 2 ^ 32) :
    (((∃ draws : List ℚ, (∀ u ∈ draws, 0 ≤ u ∧ u < 1)
          ∧ (evoreal.crossover_float l1 l2 draws).isSome)
        ↔ (l1 &&& evoreal.FLT_EXP_BITS ≠ evoreal.FLT_EXP_BITS
            ∨ l2 &&& evoreal.FLT_EXP_BITS ≠ evoreal.FLT_EXP_BITS))
      ∧ ((∃ c < 32, evoreal.crossover_float_round l1 l2 c &&& evoreal.FLT_EXP_BITS
            ≠ evoreal.FLT_EXP_BITS)
        ↔ (l1 &&& evoreal.FLT_EXP_BITS ≠ evoreal.FLT_EXP_BITS
            ∨ l2 &&& evoreal.FLT_EXP_BITS ≠ evoreal.FLT_EXP_BITS))
      ∧ evoreal.crossover_float_round l1 l2 0 = l1
      ∧ evoreal.crossover_float_round l1 l2 31 &&& evoreal.FLT_EXP_BITS
          = l2 &&& evoreal.FLT_EXP_BITS
      ∧ (l1 &&& evoreal.FLT_EXP_BITS = evoreal.FLT_EXP_BITS →
          l2 &&& evoreal.FLT_EXP_BITS = evoreal.FLT_EXP_BITS →
          (∀ c, evoreal.crossover_float_round l1 l2 c &&& evoreal.FLT_EXP_BITS
            = evoreal.FLT_EXP_BITS)
          ∧ ∀ draws, evoreal.crossover_float l1 l2 draws = none))
    ∧ (((∃ draws : List ℚ, (∀ u ∈ draws, 0 ≤ u ∧ u < 1)
          ∧ (evoreal.crossover_double d1 d2 draws).isSome)
        ↔ (d1.2 &&& evoreal.DBL_EXP_BITS ≠ evoreal.DBL_EXP_BITS
            ∨ d2.2 &&& evoreal.DBL_EXP_BITS ≠ evoreal.DBL_EXP_BITS))
      ∧ ((∃ c < 64, (evoreal.crossover_double_round d1 d2 c).2 &&& evoreal.DBL_EXP_BITS
            ≠ evoreal.DBL_EXP_BITS)
        ↔ (d1.2 &&& evoreal.DBL_EXP_BITS ≠ evoreal.DBL_EXP_BITS
            ∨ d2.2 &&& evoreal.DBL_EXP_BITS ≠ evoreal.DBL_EXP_BITS))
      ∧ evoreal.crossover_double_round d1 d2 0 = d1
      ∧ (evoreal.crossover_double_round d1 d2 63).2 &&& evoreal.DBL_EXP_BITS
          = d2.2 &&& evoreal.DBL_EXP_BITS
      ∧ (d1.2 &&& evoreal.DBL_EXP_BITS = evoreal.DBL_EXP_BITS →
          d2.2 &&& evoreal.DBL_EXP_BITS = evoreal.DBL_EXP_BITS →
          (∀ c, (evoreal.crossover_double_round d1 d2 c).2 &&& evoreal.DBL_EXP_BITS
            = evoreal.DBL_EXP_BITS)
          ∧ ∀ draws, evoreal.crossover_double d1 d2 draws = none)) := by
  have hf0 := crossover_float_round_zero l1 l2 h1
  have hd0 := crossover_double_round_zero d1 d2 hd
  have hfall : l1 &&& evoreal.FLT_EXP_BITS = evoreal.FLT_EXP_BITS →
      l2 &&& evoreal.FLT_EXP_BITS = evoreal.FLT_EXP_BITS →
      ∀ c, evoreal.crossover_float_round l1 l2 c &&& evoreal.FLT_EXP_BITS
        = evoreal.FLT_EXP_BITS :=
    fun a b c => mix_exponent l1 l2 _ _ (by decide) a b
  refine ⟨⟨?_, ?_, hf0, crossover_float_round_top l1 l2, fun a b =>
      ⟨hfall a b, crossover_float_never_exits l1 l2 a b⟩⟩,
    ⟨?_, ?_, hd0, crossover_double_round_top d1 d2, fun a b =>
      ⟨fun c => crossover_double_round_invalid d1 d2 c a b,
        crossover_double_never_exits d1 d2 a b⟩⟩⟩
  · constructor
    · rintro ⟨draws, _, hsome⟩
      by_contra hn
      push_neg at hn
      rw [crossover_float_never_exits l1 l2 hn.1 hn.2 draws] at hsome
      exact Bool.false_ne_true hsome
    · rintro (h | h)
      · refine ⟨[0], ?_, ?_⟩
        · intro u hu
          rw [List.mem_singleton] at hu
          subst hu
          norm_num
        · rw [crossover_float_cut_zero l1 l2 [] h1 h]
          rfl
      · refine ⟨[31 / 32], ?_, ?_⟩
        · intro u hu
          rw [List.mem_singleton] at hu
          subst hu
          norm_num
        · rw [crossover_float_top_cut l1 l2 [] h]
          rfl
  · constructor
    · rintro ⟨c, _, hne⟩
      by_contra hn
      push_neg at hn
      exact hne (hfall hn.1 hn.2 c)
    · rintro (h | h)
      · exact ⟨0, by decide, by rw [hf0]; exact h⟩
      · exact ⟨31, by decide, by rw [crossover_float_round_top]; exact h⟩
  · constructor
    · rintro ⟨draws, _, hsome⟩
      by_contra hn
      push_neg at hn
      rw [crossover_double_never_exits d1 d2 hn.1 hn.2 draws] at hsome
      exact Bool.false_ne_true hsome
    · rintro (h | h)
      · refine ⟨[0], ?_, ?_⟩
        · intro u hu
          rw [List.mem_singleton] at hu
          subst hu
          norm_num
        · rw [crossover_double_cut_zero d1 d2 [] hd h]
          rfl
      · refine ⟨[63 / 64], ?_, ?_⟩
        · intro u hu
          rw [List.mem_singleton] at hu
          subst hu
          norm_num
        · rw [crossover_double_top_cut d1 d2 [] h]
          rfl
  · constructor
    · rintro ⟨c, _, hne⟩
      by_contra hn
      push_neg at hn
      exact hne (crossover_double_round_invalid d1 d2 c hn.1 hn.2)
    · rintro (h | h)
      · exact ⟨0, by decide, by rw [hd0]; exact h⟩
      · exact ⟨63, by decide, by rw [crossover_double_round_top]; exact h⟩

/-- C34 on positive infinity as first parent and 1.0 as second parent: the
loop has a result; it rejects the cut point 0 and returns at the top cut
point with the second parent's exponent. -/
theorem C34_crossover_exit_iff_finite_parent_witness :
    (∃ draws : List ℚ, (∀ u ∈ draws, 0 ≤ u ∧ u < 1)
        ∧ (evoreal.crossover_float 0x7F800000 0x3F800000 draws).isSome)
      ∧ evoreal.crossover_float 0x7F800000 0x3F800000 [0, 31 / 32] = some (0x3F800000, [])
      ∧ (∃ draws : List ℚ, (∀ u ∈ draws, 0 ≤ u ∧ u < 1)
        ∧ (evoreal.crossover_double (0, 0x7FF00000) (0, 0x3FF00000) draws).isSome)
      ∧ evoreal.crossover_double (0, 0x7FF00000) (0, 0x3FF00000) [0, 63 / 64]
          = some ((0, 0x3FF00000), [])
      ∧ evoreal.crossover_float 0x7F800000 0x7FC00000 [0, 1 / 2, 31 / 32] = none :=
  ⟨(C34_crossover_exit_iff_finite_parent 0x7F800000 0x3F800000 (0, 0x7FF00000)
      (0, 0x3FF00000) (by decide) (by decide)).1.1.mpr (Or.inr (by decide)),
    by decide!,
    (C34_crossover_exit_iff_finite_parent 0x7F800000 0x3F800000 (0, 0x7FF00000)
      (0, 0x3FF00000) (by decide) (by decide)).2.1.mpr (Or.inr (by decide)),
    by decide!, by decide!⟩

/-! ### The two constructors of `roulette_wheel` -/

/-- The array constructor, validation by validation. -/
theorem create_array_eq (a_weights : List ℚ) (a_min_weight a_max_weight : ℚ) :
    roulette_wheel.create_array a_weights a_min_weight a_max_weight
      = if a_weights.length = 0 then
          Except.error "Roulette wheel can not have zero size"
        else if |a_min_weight| < |a_max_weight| then
          if |a_min_weight| > 0 then
            if (a_weights.map (roulette_wheel.clamp |a_min_weight| |a_max_weight|)).sum > 0 then
              Except.ok
                { m_weights := a_weights.map (roulette_wheel.clamp |a_min_weight| |a_max_weight|),
                  m_total_weight :=
                    (a_weights.map (roulette_wheel.clamp |a_min_weight| |a_max_weight|)).sum,
                  m_min_weight := |a_min_weight|, m_max_weight := |a_max_weight| }
            else Except.error "Roulette wheel must have a total weight > zero"
          else Except.error "Minimum weight must be > 0"
        else Except.error "Minimum weight must be less than maximum" := by
  unfold roulette_wheel.create_array validate_less validate_not validate_greater
  simp only [total_loop]
  by_cases h2 : a_weights.length = 0
  · simp [h2, bind, Except.bind]
  · by_cases h1 : |a_min_weight| < |a_max_weight|
    · by_cases h0 : |a_min_weight| > 0
      · by_cases h3 :
            (a_weights.map (roulette_wheel.clamp |a_min_weight| |a_max_weight|)).sum > 0
        · simp [h1, h2, h0, h3, bind, Except.bind, pure, Except.pure]
        · simp [h1, h2, h0, h3, bind, Except.bind]
      · simp [h1, h2, h0, bind, Except.bind]
    · simp [h1, h2, bind, Except.bind]

/-- Where the two constructors agree: with bounds `0 < min < max` they return
the same wheel or the same error. -/
theorem create_array_of_ordered_positive_bounds (a_weights : List ℚ)
    (a_min_weight a_max_weight : ℚ) (h0 : 0 < a_min_weight)
    (hlt : a_min_weight < a_max_weight) :
    roulette_wheel.create_array a_weights a_min_weight a_max_weight
      = roulette_wheel.create a_weights a_min_weight a_max_weight := by
  have hmin : |a_min_weight| = a_min_weight := abs_of_pos h0
  have hmax : |a_max_weight| = a_max_weight := abs_of_pos (lt_trans h0 hlt)
  rw [create_array_eq, create_eq, hmin, hmax, if_pos hlt, if_pos hlt, if_pos h0]

/-- C35 fails on the code: the constructors disagree. From the weight 1 with
the bounds (0, 1) and with the bounds (-5, 1) the vector constructor builds a
wheel and the array constructor raises an error; with the bounds (2, -3) the
vector constructor raises an error and the array constructor builds a wheel. -/
theorem C35_constructors_disagree :
    (∃ w, roulette_wheel.create [1] 0 1 = Except.ok w)
      ∧ roulette_wheel.create_array [1] 0 1 = Except.error "Minimum weight must be > 0"
      ∧ (∃ w, roulette_wheel.create [1] (-5) 1 = Except.ok w)
      ∧ roulette_wheel.create_array [1] (-5) 1
          = Except.error "Minimum weight must be less than maximum"
      ∧ roulette_wheel.create [1] 2 (-3)
          = Except.error "Minimum weight must be less than maximum"
      ∧ (∃ w, roulette_wheel.create_array [1] 2 (-3) = Except.ok w
          ∧ w.m_weights = [2] ∧ w.m_min_weight = 2 ∧ w.m_max_weight = 3) := by
  refine ⟨⟨{ m_weights := [1], m_total_weight := 1, m_min_weight := 0, m_max_weight := 1 },
      by decide!⟩, by decide!,
    ⟨{ m_weights := [5], m_total_weight := 5, m_min_weight := 5, m_max_weight := 1 },
      by decide!⟩, by decide!, by decide!,
    ⟨{ m_weights := [2], m_total_weight := 2, m_min_weight := 2, m_max_weight := 3 },
      by decide!, rfl, rfl, rfl⟩⟩

/-- C36: with the default bounds, machine epsilon and the greatest `double`,
construction from any non-empty vector of weights succeeds; every stored
weight is at least machine epsilon and at most the greatest `double`, and the
total weight, the sum of the stored weights, is strictly positive. -/
theorem C36_default_bounds (a_weights : List ℚ) (hne : a_weights ≠ []) :
    ∃ w, roulette_wheel.create a_weights DBL_EPSILON DBL_MAX = Except.ok w
      ∧ w.m_weights = a_weights.map (roulette_wheel.clamp DBL_EPSILON DBL_MAX)
      ∧ (∀ x ∈ w.m_weights, DBL_EPSILON ≤ x ∧ x ≤ DBL_MAX)
      ∧ w.m_total_weight = w.m_weights.sum
      ∧ 0 < w.m_total_weight
      ∧ w.m_min_weight = DBL_EPSILON ∧ w.m_max_weight = DBL_MAX := by
  have heps : (0 : ℚ) < DBL_EPSILON := by unfold DBL_EPSILON; norm_num
  have hlt : DBL_EPSILON < DBL_MAX := by unfold DBL_EPSILON DBL_MAX; norm_num
  have hmin : |DBL_EPSILON| = DBL_EPSILON := abs_of_pos heps
  have hmax : |DBL_MAX| = DBL_MAX := abs_of_pos (lt_trans heps hlt)
  have hmem : ∀ x ∈ a_weights.map (roulette_wheel.clamp DBL_EPSILON DBL_MAX),
      DBL_EPSILON ≤ x ∧ x ≤ DBL_MAX := by
    intro x hx
    obtain ⟨a, _, rfl⟩ := List.mem_map.mp hx
    exact clamp_mem _ _ a (le_of_lt hlt)
  have hsum : 0 < (a_weights.map (roulette_wheel.clamp DBL_EPSILON DBL_MAX)).sum := by
    apply List.sum_pos
    · intro x hx
      exact lt_of_lt_of_le heps (hmem x hx).1
    · simpa using hne
  have hlen : ¬ a_weights.length = 0 := by
    intro h
    exact hne (List.length_eq_zero.mp h)
  refine ⟨{ m_weights := a_weights.map (roulette_wheel.clamp DBL_EPSILON DBL_MAX),
            m_total_weight := (a_weights.map (roulette_wheel.clamp DBL_EPSILON DBL_MAX)).sum,
            m_min_weight := DBL_EPSILON, m_max_weight := DBL_MAX }, ?_, rfl, hmem, rfl, hsum,
    rfl, rfl⟩
  rw [create_eq, hmin, hmax, if_pos hlt, if_neg hlen, if_pos hsum]

/-- C36 on the weights that `function_reproducer::breed` builds from a
population with negative fitness only: they are all zero, and the wheel stores
machine epsilon for each. -/
theorem C36_default_bounds_witness :
    function_reproducer.wheel_weights negative_population = [0, 0]
      ∧ ∃ w, roulette_wheel.create (function_reproducer.wheel_weights negative_population)
            DBL_EPSILON DBL_MAX = Except.ok w
        ∧ w.m_weights = [DBL_EPSILON, DBL_EPSILON]
        ∧ 0 < w.m_total_weight := by
  refine ⟨by decide!, ?_⟩
  obtain ⟨w, h1, h2, _, _, h5, _, _⟩ :=
    C36_default_bounds (function_reproducer.wheel_weights negative_population) (by decide!)
  refine ⟨w, h1, ?_, h5⟩
  rw [h2]
  decide!

/-! ### Statistics of any population -/

/-- The recorded minimum is at most its initial value and at most every
fitness scanned, and it is the initial value or the fitness of an organism
scanned. -/
theorem scan_min_bounds {G : Type} (l : List (organism G)) :
    ∀ acc : fitness_stats.scan G,
      (l.foldl fitness_stats.step acc).min ≤ acc.min
        ∧ (∀ o ∈ l, (l.foldl fitness_stats.step acc).min ≤ o.fitness)
        ∧ ((l.foldl fitness_stats.step acc).min = acc.min
            ∨ ∃ o ∈ l, o.fitness = (l.foldl fitness_stats.step acc).min) := by
  induction l with
  | nil => intro acc; simp
  | cons o t ih =>
    intro acc
    obtain ⟨h1, h2, h3⟩ := ih (fitness_stats.step acc o)
    rw [List.foldl_cons]
    have hstep : (fitness_stats.step acc o).min ≤ acc.min
        ∧ (fitness_stats.step acc o).min ≤ o.fitness
        ∧ ((fitness_stats.step acc o).min = acc.min
            ∨ (fitness_stats.step acc o).min = o.fitness) := by
      rw [step_min]
      by_cases hlt : o.fitness < acc.min
      · rw [if_pos hlt]
        exact ⟨le_of_lt hlt, le_refl _, Or.inr rfl⟩
      · rw [if_neg hlt]
        exact ⟨le_refl _, not_lt.mp hlt, Or.inl rfl⟩
    refine ⟨le_trans h1 hstep.1, ?_, ?_⟩
    · intro p hp
      rcases List.mem_cons.mp hp with rfl | hp
      · exact le_trans h1 hstep.2.1
      · exact h2 p hp
    · rcases h3 with h3 | ⟨p, hp, hpe⟩
      · rcases hstep.2.2 with h4 | h4
        · exact Or.inl (h3.trans h4)
        · exact Or.inr ⟨o, List.mem_cons_self o t, (h3.trans h4).symm⟩
      · exact Or.inr ⟨p, List.mem_cons_of_mem o hp, hpe⟩

/-- The recorded maximum is at least its initial value and at least every
fitness scanned. -/
theorem scan_max_bounds {G : Type} (l : List (organism G)) :
    ∀ acc : fitness_stats.scan G,
      acc.max ≤ (l.foldl fitness_stats.step acc).max
        ∧ ∀ o ∈ l, o.fitness ≤ (l.foldl fitness_stats.step acc).max := by
  induction l with
  | nil => intro acc; simp
  | cons o t ih =>
    intro acc
    obtain ⟨h1, h2⟩ := ih (fitness_stats.step acc o)
    rw [List.foldl_cons]
    have hstep : acc.max ≤ (fitness_stats.step acc o).max
        ∧ o.fitness ≤ (fitness_stats.step acc o).max := by
      rw [step_max]
      by_cases hgt : o.fitness > acc.max
      · rw [if_pos hgt]
        exact ⟨le_of_lt hgt, le_refl _⟩
      · rw [if_neg hgt]
        exact ⟨le_refl _, not_lt.mp hgt⟩
    refine ⟨le_trans hstep.1 h1, ?_⟩
    intro p hp
    rcases List.mem_cons.mp hp with rfl | hp
    · exact le_trans hstep.2 h1
    · exact h2 p hp

/-- The recorded best organism is the initial one or an organism scanned. -/
theorem scan_best_mem {G : Type} (l : List (organism G)) :
    ∀ acc : fitness_stats.scan G,
      (l.foldl fitness_stats.step acc).best = acc.best
        ∨ (l.foldl fitness_stats.step acc).best ∈ l := by
  induction l with
  | nil => intro acc; exact Or.inl rfl
  | cons o t ih =>
    intro acc
    rw [List.foldl_cons]
    rcases ih (fitness_stats.step acc o) with h | h
    · rw [h, step_best]
      by_cases hgt : o.fitness > acc.max
      · rw [if_pos hgt]
        exact Or.inr (List.mem_cons_self o t)
      · rw [if_neg hgt]
        exact Or.inl rfl
    · exact Or.inr (List.mem_cons_of_mem o h)

/-- What the statistics of a non-empty population record, whatever the
fitness values: the mean, a lower bound `min`, an upper bound `max`, a best
organism that is one of the population, and, when no fitness is above the
greatest `double`, a `min` that is the fitness of an organism. -/
theorem create_summary {G : Type} (a_population : List (organism G))
    (hne : a_population ≠ []) :
    ∃ st, fitness_stats.create a_population = some st
      ∧ st.mean = (a_population.map organism.fitness).sum / (a_population.length : ℚ)
      ∧ (∀ o ∈ a_population, st.min ≤ o.fitness)
      ∧ (∀ o ∈ a_population, o.fitness ≤ st.max)
      ∧ st.best ∈ a_population
      ∧ ((∀ o ∈ a_population, o.fitness ≤ DBL_MAX) →
          ∃ o ∈ a_population, o.fitness = st.min) := by
  cases a_population with
  | nil => exact absurd rfl hne
  | cons first rest =>
    let init : fitness_stats.scan G :=
      { max := DBL_MIN, min := DBL_MAX, mean := 0, best := first, worst := first }
    obtain ⟨hmin1, hmin2, hmin3⟩ := scan_min_bounds (first :: rest) init
    obtain ⟨_, hmax2⟩ := scan_max_bounds (first :: rest) init
    have hbest := scan_best_mem (first :: rest) init
    refine ⟨_, rfl, ?_, hmin2, hmax2, ?_, ?_⟩
    · simp only [scan_mean, zero_add]
    · rcases hbest with h | h
      · have h' : ((first :: rest).foldl fitness_stats.step init).best = first := h
        show ((first :: rest).foldl fitness_stats.step init).best ∈ first :: rest
        rw [h']
        exact List.mem_cons_self first rest
      · exact h
    · intro hrange
      rcases hmin3 with h | h
      · have h' : ((first :: rest).foldl fitness_stats.step init).min = DBL_MAX := h
        refine ⟨first, List.mem_cons_self first rest, ?_⟩
        have hle := hmin2 first (List.mem_cons_self first rest)
        rw [h'] at hle
        have hge := hrange first (List.mem_cons_self first rest)
        show first.fitness = ((first :: rest).foldl fitness_stats.step init).min
        rw [h']
        exact le_antisymm hge hle
      · exact h

/-! ### Linear normalization and the mean -/

/-- A list of non-negative rationals whose sum is zero holds zeros only. -/
theorem all_zero_of_sum_zero (l : List ℚ) (h : ∀ x ∈ l, 0 ≤ x) (hs : l.sum = 0) :
    ∀ x ∈ l, x = 0 := by
  induction l with
  | nil => intro x hx; exact absurd hx (List.not_mem_nil x)
  | cons a t ih =>
    have ha := h a (List.mem_cons_self a t)
    have ht : 0 ≤ t.sum := List.sum_nonneg (fun x hx => h x (List.mem_cons_of_mem a hx))
    rw [List.sum_cons] at hs
    have ha0 : a = 0 := by linarith
    have ht0 : t.sum = 0 := by linarith
    intro x hx
    rcases List.mem_cons.mp hx with rfl | hx
    · exact ha0
    · exact ih (fun y hy => h y (List.mem_cons_of_mem a hy)) ht0 x hx

/-- The sum of the images of the fitness values under `f ↦ a * f + b`. -/
theorem sum_affine {G : Type} (l : List (organism G)) (a b : ℚ) :
    (l.map (fun o => a * o.fitness + b)).sum
      = a * (l.map organism.fitness).sum + (l.length : ℚ) * b := by
  induction l with
  | nil => simp
  | cons o t ih =>
    rw [List.map_cons, List.sum_cons, ih, List.map_cons, List.sum_cons, List.length_cons]
    push_cast
    ring

/-- In a population whose fitness values are not all equal, some fitness is
below the mean and some fitness is above it. -/
theorem mean_strictly_inside {G : Type} (l : List (organism G)) (o1 o2 : organism G)
    (h1 : o1 ∈ l) (h2 : o2 ∈ l) (hne : o1.fitness ≠ o2.fitness) :
    (∃ o ∈ l, o.fitness < (l.map organism.fitness).sum / (l.length : ℚ))
      ∧ ∃ o ∈ l, (l.map organism.fitness).sum / (l.length : ℚ) < o.fitness := by
  have hlen : (0 : ℚ) < (l.length : ℚ) := by
    have : 0 < l.length := List.length_pos_of_mem h1
    exact_mod_cast this
  have hup : (l.map (fun o => 1 * o.fitness
      + -((l.map organism.fitness).sum / (l.length : ℚ)))).sum = 0 := by
    rw [sum_affine]
    field_simp
    ring
  have hdown : (l.map (fun o => (-1) * o.fitness
      + (l.map organism.fitness).sum / (l.length : ℚ))).sum = 0 := by
    rw [sum_affine]
    field_simp
  constructor
  · by_contra hn
    push_neg at hn
    have hall := all_zero_of_sum_zero _ (by
      intro x hx
      obtain ⟨o, ho, rfl⟩ := List.mem_map.mp hx
      have := hn o ho
      linarith) hup
    have e1 := hall _ (List.mem_map.mpr ⟨o1, h1, rfl⟩)
    have e2 := hall _ (List.mem_map.mpr ⟨o2, h2, rfl⟩)
    apply hne
    linarith
  · by_contra hn
    push_neg at hn
    have hall := all_zero_of_sum_zero _ (by
      intro x hx
      obtain ⟨o, ho, rfl⟩ := List.mem_map.mp hx
      have := hn o ho
      linarith) hdown
    have e1 := hall _ (List.mem_map.mpr ⟨o1, h1, rfl⟩)
    have e2 := hall _ (List.mem_map.mpr ⟨o2, h2, rfl⟩)
    apply hne
    linarith

/-- The statistics of a population whose fitness values are not all equal: the
mean lies strictly between `min` and `max`. -/
theorem create_of_unequal_fitness {G : Type} (a_population : List (organism G))
    (hneq : ∃ o1 ∈ a_population, ∃ o2 ∈ a_population, o1.fitness ≠ o2.fitness) :
    ∃ st, fitness_stats.create a_population = some st
      ∧ st.mean = (a_population.map organism.fitness).sum / (a_population.length : ℚ)
      ∧ st.min < st.mean ∧ st.mean < st.max
      ∧ (∀ o ∈ a_population, st.min ≤ o.fitness)
      ∧ ((∀ o ∈ a_population, o.fitness ≤ DBL_MAX) →
          ∃ o ∈ a_population, o.fitness = st.min) := by
  obtain ⟨o1, h1, o2, h2, hne⟩ := hneq
  obtain ⟨st, hst, hmean, hmin, hmax, _, hatt⟩ :=
    create_summary a_population (List.ne_nil_of_mem h1)
  obtain ⟨⟨a, ha, halt⟩, ⟨b, hb, hblt⟩⟩ := mean_strictly_inside a_population o1 o2 h1 h2 hne
  rw [← hmean] at halt hblt
  exact ⟨st, hst, hmean, lt_of_le_of_lt (hmin a ha) halt, lt_of_lt_of_le hblt (hmax b hb),
    hmin, hatt⟩

/-- The line of linear normalization passes through `(mean, mean)`, in both
branches. -/
theorem coefficients_fix_mean {G : Type} (m : ℚ) (st : fitness_stats G)
    (hmin : st.min < st.mean) (hmax : st.mean < st.max) :
    (linear_norm_scaler.coefficients m st).1 * st.mean
      + (linear_norm_scaler.coefficients m st).2 = st.mean := by
  have h1 : st.max - st.mean ≠ 0 := by linarith
  have h2 : st.mean - st.min ≠ 0 := by linarith
  unfold linear_norm_scaler.coefficients
  split
  · dsimp only
    field_simp
    ring
  · dsimp only
    field_simp
    ring

/-- C37: linear normalization preserves the population mean. For every
population of at least two organisms whose fitness values are not all equal,
and every multiple other than 1, `scale_fitness` returns a population of the
same size whose statistics have the mean of the statistics before scaling,
whichever branch the code takes. -/
theorem C37_linear_norm_preserves_mean {G : Type} (m : ℚ) (a_population : List (organism G))
    (_hn : 2 ≤ a_population.length) (_hm : m ≠ 1)
    (hneq : ∃ o1 ∈ a_population, ∃ o2 ∈ a_population, o1.fitness ≠ o2.fitness) :
    ∃ st scaled st', fitness_stats.create a_population = some st
      ∧ linear_norm_scaler.scale_fitness m a_population = some scaled
      ∧ scaled.length = a_population.length
      ∧ fitness_stats.create scaled = some st'
      ∧ st'.mean = st.mean
      ∧ (scaled.map organism.fitness).sum / (scaled.length : ℚ)
          = (a_population.map organism.fitness).sum / (a_population.length : ℚ) := by
  obtain ⟨st, hst, hmean, hmin, hmax, _, _⟩ := create_of_unequal_fitness a_population hneq
  obtain ⟨o1, h1, _⟩ := hneq
  have hne : a_population ≠ [] := List.ne_nil_of_mem h1
  have hlen : (a_population.length : ℚ) ≠ 0 := by
    have := List.length_pos.mpr hne
    exact_mod_cast (Nat.pos_iff_ne_zero.mp this)
  have hfix := coefficients_fix_mean m st hmin hmax
  have hscaled : linear_norm_scaler.scale_fitness m a_population
      = some (a_population.map (fun o =>
          { o with
            fitness := (linear_norm_scaler.coefficients m st).1 * o.fitness
              + (linear_norm_scaler.coefficients m st).2 })) := by
    simp only [linear_norm_scaler.scale_fitness, hst]
  have hne' : a_population.map (fun o =>
      ({ o with
         fitness := (linear_norm_scaler.coefficients m st).1 * o.fitness
           + (linear_norm_scaler.coefficients m st).2 } : organism G)) ≠ [] := by
    simpa using hne
  obtain ⟨st', hst', hmean', _⟩ := create_mean_variance _ hne'
  have hsum : ((a_population.map (fun o =>
      ({ o with
         fitness := (linear_norm_scaler.coefficients m st).1 * o.fitness
           + (linear_norm_scaler.coefficients m st).2 } : organism G))).map
        organism.fitness).sum / ((a_population.map (fun o =>
      ({ o with
         fitness := (linear_norm_scaler.coefficients m st).1 * o.fitness
           + (linear_norm_scaler.coefficients m st).2 } : organism G))).length : ℚ)
      = (a_population.map organism.fitness).sum / (a_population.length : ℚ) := by
    rw [List.map_map, List.length_map]
    have hcomp : (organism.fitness ∘ fun o : organism G =>
        ({ o with
           fitness := (linear_norm_scaler.coefficients m st).1 * o.fitness
             + (linear_norm_scaler.coefficients m st).2 } : organism G))
        = fun o => (linear_norm_scaler.coefficients m st).1 * o.fitness
            + (linear_norm_scaler.coefficients m st).2 := rfl
    rw [hcomp, sum_affine, ← hmean]
    rw [add_div, mul_div_assoc, ← hmean, mul_div_cancel_left₀ _ hlen]
    exact hfix
  refine ⟨st, _, st', hst, hscaled, List.length_map _ _, hst', ?_, hsum⟩
  rw [hmean', hsum, hmean]

/-- C37 with the multiple 2 on the fitness values 1, 2, 9 (normal branch,
scaled to 8/5, 12/5, 8) and on the fitness values 1, 8, 9 (extreme branch,
scaled to 0, 42/5, 48/5): the means stay 4 and 6. -/
theorem C37_linear_norm_preserves_mean_witness :
    (∃ st scaled st', fitness_stats.create normal_branch_population = some st
      ∧ linear_norm_scaler.scale_fitness 2 normal_branch_population = some scaled
      ∧ scaled.length = normal_branch_population.length
      ∧ fitness_stats.create scaled = some st'
      ∧ st'.mean = st.mean
      ∧ (scaled.map organism.fitness).sum / (scaled.length : ℚ)
          = (normal_branch_population.map organism.fitness).sum
              / (normal_branch_population.length : ℚ))
      ∧ (linear_norm_scaler.scale_fitness 2 normal_branch_population).map
            (fun l => l.map organism.fitness) = some [8 / 5, 12 / 5, 8]
      ∧ (linear_norm_scaler.scale_fitness 2 extreme_branch_population).map
            (fun l => l.map organism.fitness) = some [0, 42 / 5, 48 / 5]
      ∧ (fitness_stats.create normal_branch_population).map (fun st => st.mean) = some 4
      ∧ (fitness_stats.create extreme_branch_population).map (fun st => st.mean) = some 6 :=
  ⟨C37_linear_norm_preserves_mean 2 normal_branch_population (by decide) (by norm_num)
      ⟨{ fitness := 1, genes := 0 }, by decide, { fitness := 2, genes := 1 }, by decide,
        by norm_num⟩,
    by decide!, by decide!, by decide!, by decide!⟩

/-! ### Linear normalization and the sign of the fitness -/

/-- C39: elitism keeps the best. For every non-empty population whose
greatest fitness (that of `g`) is strictly positive and every factor with
`0 <= factor < 1`, `select_survivors` returns survivors that are not empty,
hold every organism having the greatest fitness, and form an order-preserving
sub-list of the population, so that they are no more than the population.
The product `factor * fitness` is exact here, as all arithmetic on fitness
values in this development. -/
theorem C39_elitism_keeps_best {G : Type} (m_factor : ℚ) (a_population : List (organism G))
    (g : organism G) (hg : g ∈ a_population) (hpos : 0 < g.fitness)
    (hgreatest : ∀ o ∈ a_population, o.fitness ≤ g.fitness)
    (h0 : 0 ≤ m_factor) (h1 : m_factor < 1) :
    ∃ survivors, elitism_selector.select_survivors m_factor a_population = some survivors
      ∧ survivors ≠ []
      ∧ (∀ o ∈ a_population, o.fitness = g.fitness → o ∈ survivors)
      ∧ survivors.Sublist a_population
      ∧ survivors.length ≤ a_population.length := by
  obtain ⟨st, hst, _, _, _, hbest, _⟩ := create_summary a_population (List.ne_nil_of_mem hg)
  have hle : st.best.fitness ≤ g.fitness := hgreatest _ hbest
  have hthr : m_factor * st.best.fitness < g.fitness := by
    by_cases hb : 0 ≤ st.best.fitness
    · rcases lt_or_eq_of_le hle with hlt | heq
      · have : m_factor * st.best.fitness ≤ 1 * st.best.fitness :=
          mul_le_mul_of_nonneg_right (le_of_lt h1) hb
        linarith
      · rw [heq]
        have : m_factor * g.fitness < 1 * g.fitness := mul_lt_mul_of_pos_right h1 hpos
        linarith
    · have hneg : st.best.fitness < 0 := not_le.mp hb
      have : m_factor * st.best.fitness ≤ 0 :=
        mul_nonpos_of_nonneg_of_nonpos h0 (le_of_lt hneg)
      linarith
  have hkeep : ∀ o ∈ a_population, o.fitness = g.fitness →
      o ∈ a_population.filter (fun o => decide (o.fitness > m_factor * st.best.fitness)) := by
    intro o ho hoe
    rw [List.mem_filter]
    refine ⟨ho, ?_⟩
    rw [decide_eq_true_eq, hoe]
    exact hthr
  refine ⟨_, ?_, ?_, hkeep, List.filter_sublist _, List.length_filter_le _ _⟩
  · simp only [elitism_selector.select_survivors, hst]
  · exact List.ne_nil_of_mem (hkeep g hg rfl)

/-- C39 on the fitness values 10, 9, 5, 1 with the factor 9/10: the survivors
are organism 0 alone, which has the greatest fitness. -/
theorem C39_elitism_keeps_best_witness :
    elitism_selector.select_survivors (9 / 10) elitism_population
        = some [{ fitness := 10, genes := 0 }]
      ∧ ∃ survivors, elitism_selector.select_survivors (9 / 10) elitism_population
            = some survivors
        ∧ survivors ≠ []
        ∧ (∀ o ∈ elitism_population, o.fitness = 10 → o ∈ survivors)
        ∧ survivors.Sublist elitism_population
        ∧ survivors.length ≤ elitism_population.length :=
  ⟨by decide!,
    C39_elitism_keeps_best (9 / 10) elitism_population { fitness := 10, genes := 0 }
      (by decide) (by norm_num) (by decide!) (by norm_num) (by norm_num)⟩

end libevocosm
